import Mathlib

/-!
# Filesort: external merge sort of fixed-width records

A shallow embedding of `fileobject.h`, `filesort.h`, `filesort_util.h` and the driver in
`main.cpp`.

* A file is the list of its bytes; an `ifstream` is the list of bytes not yet extracted together
  with its `eofbit` and `failbit` (`badbit` is never set by the operations used here).
* `std::istream::getline(s, n, delim)` is embedded with the behaviour the C++ standard gives it.
* A `char` buffer is a list of bytes; a freshly allocated buffer has indeterminate contents, so
  every allocation takes them from a parameter `mem` (`newBuffer`).
* `std::sort` and `MinHeap` (declared in `minheap.h`) are parameters of the embedding, constrained
  only by their contracts.
* Files live on a `Disk`, a map from paths to contents; two paths name the same file exactly
  when they are the same string. Opening a path for reading fails when no file is there, so the
  `assert` that follows aborts; opening a path for writing fails when the path cannot be
  written, and otherwise truncates the file at that path. A stream reads the content its file
  had when it was opened; a call that truncates a file one of its own open streams is reading
  ends in `Outcome.aliased`.
* A write past the end of an array ends the call in `Outcome.undefinedBehaviour`.
* Loops that the source does not bound take a fuel argument and end in `none` or
  `Outcome.outOfFuel` when it runs out.
-/

namespace Filesort

/-! ## Bytes, buffers and streams -/

/-- A byte, compared as `unsigned char`. -/
abbrev Byte := Fin 256

/-- The delimiter `'\n'`. -/
def newline : Byte := 10

/-- State of a `std::ifstream` opened in binary mode. -/
structure IStream where
  /-- Bytes not yet extracted. -/
  data : List Byte
  eofbit : Bool
  failbit : Bool
deriving DecidableEq, Repr

/-- A stream just opened on a file with the given content. -/
def IStream.ofFile (content : List Byte) : IStream :=
  { data := content, eofbit := false, failbit := false }

/-- Member `good()`: no state bit is set. -/
def IStream.good (s : IStream) : Bool := !s.eofbit && !s.failbit

/-- Member `eof()`. -/
def IStream.eof (s : IStream) : Bool := s.eofbit

/-- Member `fail()`. -/
def IStream.fail (s : IStream) : Bool := s.failbit

/-- Extraction loop of `getline`: takes bytes while there is room, input remains and the next
byte is not the delimiter. Returns the bytes stored and the input left. -/
def extract (delim : Byte) : Nat → List Byte → List Byte × List Byte
  | 0, rest => ([], rest)
  | _ + 1, [] => ([], [])
  | room + 1, c :: cs =>
    if c = delim then ([], c :: cs)
    else ((extract delim room cs).1.cons c, (extract delim room cs).2)

/-- The expression `new char[n]`: a buffer of exactly `n` bytes whose initial contents are
indeterminate. They are taken from `mem`, so that results hold whatever the memory contained. -/
def newBuffer (mem : List Byte) (n : Nat) : List Byte :=
  (mem ++ List.replicate n 0).take n

/-- Stores the extracted bytes followed by a null character at the start of the buffer; the
rest of the buffer keeps its contents. -/
def store (buf got : List Byte) : List Byte :=
  got ++ (0 : Byte) :: buf.drop (got.length + 1)

/-- The call `getline(buf, n, delim)` with `n ≥ 1`: returns the new stream state and buffer.
If the stream is not good the sentry sets `failbit` and nothing is extracted. Otherwise at most
`n - 1` bytes are stored; then end of input sets `eofbit`, a delimiter is consumed, and anything
else sets `failbit`; extracting nothing at all sets `failbit`. -/
def IStream.getline (s : IStream) (buf : List Byte) (n : Nat) (delim : Byte) :
    IStream × List Byte :=
  if s.good then
    match extract delim (n - 1) s.data with
    | (got, []) =>
      ({ data := [], eofbit := true, failbit := got.isEmpty }, store buf got)
    | (got, c :: cs) =>
      if c = delim then ({ data := cs, eofbit := false, failbit := false }, store buf got)
      else ({ data := c :: cs, eofbit := false, failbit := true }, store buf got)
  else
    ({ s with failbit := true }, store buf [])

/-- The C function `strcmp` on buffers; reading past the end of the list reads the terminating
null character. The result is the difference of the first pair of bytes that differ. -/
def strcmp : List Byte → List Byte → Int
  | [], [] => 0
  | [], y :: _ => - (y.val : Int)
  | x :: _, [] => (x.val : Int)
  | x :: xs, y :: ys =>
    if x = y then (if x = 0 then 0 else strcmp xs ys) else (x.val : Int) - (y.val : Int)

/-! ## fileobject.h -/

/-- A run cursor: class `fileObj`. -/
structure fileObj where
  _recordSize : Nat
  _inFile : IStream
  /-- The last item extracted from the stream, `_recordSize + 1` bytes. -/
  _record : List Byte
deriving DecidableEq, Repr

/-- Member `getNextRecord`. -/
def fileObj.getNextRecord (f : fileObj) : fileObj :=
  let r := f._inFile.getline f._record (f._recordSize + 1) newline
  { f with _inFile := r.1, _record := r.2.set f._recordSize 0 }

/-- Constructor `fileObj(thePath, recordSize)`, as in `new fileObj(fp, _recordSize)`: `content`
is the content of the file at `thePath`. -/
def fileObj.new (content : List Byte) (recordSize : Nat) (mem : List Byte) : fileObj :=
  fileObj.getNextRecord
    { _recordSize := recordSize
      _inFile := IStream.ofFile content
      _record := newBuffer mem (recordSize + 1) }

/-- Member `item()`. -/
def fileObj.item (f : fileObj) : List Byte := f._record

/-- Member `fileEmpty()`. -/
def fileObj.fileEmpty (f : fileObj) : Bool := f._inFile.eof

/-- The friend `operator<` of `fileObj`. -/
def fileObj.lt (lhs rhs : fileObj) : Bool := decide (strcmp lhs._record rhs._record < 0)

/-- The friend `operator>` of `fileObj`. -/
def fileObj.gt (lhs rhs : fileObj) : Bool := decide (strcmp lhs._record rhs._record > 0)

/-! ## Library and missing collaborators: `std::sort` and `MinHeap` -/

/-- The comparator handed to `std::sort` in `createSubfiles`:
`[](char const *lhs, char const *rhs) { return strcmp(lhs, rhs) < 0; }`. -/
def blockLess (lhs rhs : List Byte) : Bool := decide (strcmp lhs rhs < 0)

/-- Contract of `std::sort` with the comparator `blockLess`: the result is a rearrangement of
the range in which no element is less than an earlier one. Elements that compare equivalent may
come out in any order. -/
def IsStdSort (sort : List (List Byte) → List (List Byte)) : Prop :=
  ∀ l, (sort l).Perm l ∧ (sort l).Pairwise (fun a b => blockLess b a = false)

/-- Operations of `MinHeap<fileObj*>` used by `mergeSubFiles`, over a heap state `H`. The header
`minheap.h` is not among the sources, so the heap is a parameter of the embedding. `pop` on a
heap it cannot pop from returns `none`. -/
structure MinHeap (H : Type) where
  empty : H
  insert : H → fileObj → H
  pop : H → Option (fileObj × H)
  isEmpty : H → Bool

/-- Modelled from the spec: `minheap.h` is missing; the MergeHeap is "a mutable multiset of
active RunCursors" with `insert`, `popMin` and `isEmpty`. `bag h` is the multiset of cursors held
by `h`: `pop` returns and removes one of them, `isEmpty` is true iff none remain. -/
def MinHeap.IsBag {H : Type} (M : MinHeap H) (bag : H → Multiset fileObj) : Prop :=
  bag M.empty = 0 ∧
  (∀ h x, bag (M.insert h x) = x ::ₘ bag h) ∧
  (∀ h, M.isEmpty h = true ↔ bag h = 0) ∧
  (∀ h, bag h ≠ 0 → ∃ x h', M.pop h = some (x, h') ∧ bag h = x ::ₘ bag h')

/-- Modelled from the spec: `minheap.h` is missing; "the Record at the root is ≤ (under Record
ordering) every other active cursor's current Record". The cursor `pop` returns is not greater,
under `operator>` of `fileObj`, than any cursor left in the heap. -/
def MinHeap.IsMin {H : Type} (M : MinHeap H) (bag : H → Multiset fileObj) : Prop :=
  ∀ h x h', M.pop h = some (x, h') → ∀ y ∈ bag h', fileObj.gt x y = false

/-! ## Files on disk and the ways a call can end -/

/-- The files the program can reach, by path. -/
structure Disk where
  /-- Content of the file at a path; `none` when no file can be opened for reading there. -/
  files : String → Option (List Byte)
  /-- Whether an `ofstream` can be opened on the path, creating or truncating the file. -/
  writable : String → Bool

/-- A file written and closed through an `ofstream` opened on `p`: the file holds exactly the
bytes written, whatever it held before. -/
def Disk.write (d : Disk) (p : String) (content : List Byte) : Disk :=
  { d with files := fun q => if q = p then some content else d.files q }

/-- The call `remove(p)`: the file is gone; removing a file that does not exist changes
nothing. -/
def Disk.remove (d : Disk) (p : String) : Disk :=
  { d with files := fun q => if q = p then none else d.files q }

/-- How a call of a member function ends. -/
inductive Outcome (α : Type) where
  /-- The call returns. -/
  | returned (a : α)
  /-- An `assert` fails and the program aborts. -/
  | assertFailed
  /-- The call writes past the end of an allocated array: the behaviour is undefined. -/
  | undefinedBehaviour
  /-- The call truncates a file that one of its own open input streams is still reading. What
  that stream delivers afterwards depends on its buffer, which the embedding does not describe,
  so nothing is said about the rest of the call. -/
  | aliased
  /-- The fuel ran out before the call ended. -/
  | outOfFuel
deriving DecidableEq, Repr

/-- Sequencing of calls: the second call runs only if the first one returns. -/
def Outcome.bind {α β : Type} (o : Outcome α) (f : α → Outcome β) : Outcome β :=
  match o with
  | .returned a => f a
  | .assertFailed => .assertFailed
  | .undefinedBehaviour => .undefinedBehaviour
  | .aliased => .aliased
  | .outOfFuel => .outOfFuel

/-- The value a call returned, if it returned. -/
def Outcome.toOption {α : Type} (o : Outcome α) : Option α :=
  match o with
  | .returned a => some a
  | _ => none

/-! ## filesort.h -/

/-- State of a `fileSort` object together with the disk it works on. -/
structure fileSort where
  _recordSize : Nat
  _recordsPerBlock : Nat
  /-- The input stream: a snapshot of the input file taken when it was opened. -/
  _inFile : IStream
  /-- The array of `_recordsPerBlock` row pointers, each row of `_recordSize + 1` bytes. -/
  _theBlock : List (List Byte)
  _subFilePaths : List String
  _totalItemsExtracted : Nat
  _filePath : String
  _inFileName : String
  _outFileName : String
  /-- The files on disk. -/
  disk : Disk

/-- Member `getTotalItemsExtracted`. -/
def fileSort.getTotalItemsExtracted (fs : fileSort) : Nat := fs._totalItemsExtracted

/-- Member `initBlock`: `_recordsPerBlock` rows, each freshly allocated. -/
def initBlock (recordsPerBlock recordSize : Nat) (mem : List Byte) : List (List Byte) :=
  List.replicate recordsPerBlock (newBuffer mem (recordSize + 1))

/-- The inner loop of `createSubfiles`,
`while(_inFile.good() && itemsInBlock < _recordsPerBlock)`. Every iteration either counts a
record or leaves the stream not good, so `_recordsPerBlock + 1` units of fuel reach the exit. -/
def readBlock (recordSize recordsPerBlock : Nat) :
    Nat → IStream → List (List Byte) → Nat → IStream × List (List Byte) × Nat
  | 0, s, blk, itemsInBlock => (s, blk, itemsInBlock)
  | fuel + 1, s, blk, itemsInBlock =>
    if s.good && decide (itemsInBlock < recordsPerBlock) then
      if (s.getline (blk.getD itemsInBlock []) (recordSize + 1) newline).1.good then
        readBlock recordSize recordsPerBlock fuel
          (s.getline (blk.getD itemsInBlock []) (recordSize + 1) newline).1
          (blk.set itemsInBlock
            ((s.getline (blk.getD itemsInBlock []) (recordSize + 1) newline).2.set recordSize 0))
          (itemsInBlock + 1)
      else
        readBlock recordSize recordsPerBlock fuel
          (s.getline (blk.getD itemsInBlock []) (recordSize + 1) newline).1
          (blk.set itemsInBlock (s.getline (blk.getD itemsInBlock []) (recordSize + 1) newline).2)
          itemsInBlock
    else (s, blk, itemsInBlock)

/-- The loop `fout.write(_theBlock[i], _recordSize); fout << '\n';` over the given rows. -/
def writeRecords (recordSize : Nat) : List (List Byte) → List Byte
  | [] => []
  | row :: rows => row.take recordSize ++ newline :: writeRecords recordSize rows

/-- Name of the run file with the given index. -/
def subFileName (filePath : String) (fileIndex : Nat) : String :=
  filePath ++ "_subFile" ++ toString fileIndex ++ ".txt"

/-- The outer loop of `createSubfiles`, `while(!_inFile.eof())`, with the local `fileIndex`.
Each run file is opened by path: `assert(fout.is_open())` fails when the path cannot be written,
and a run file whose path is the path `_inFile` is reading truncates the input under the open
stream (`Outcome.aliased`). -/
def createSubfilesLoop (sort : List (List Byte) → List (List Byte)) :
    Nat → fileSort → Nat → Outcome fileSort
  | 0, _, _ => .outOfFuel
  | fuel + 1, fs, fileIndex =>
    if fs._inFile.eof then .returned fs
    else
      let r := readBlock fs._recordSize fs._recordsPerBlock (fs._recordsPerBlock + 1)
        fs._inFile fs._theBlock 0
      let itemsInBlock := r.2.2
      if itemsInBlock > 0 then
        let blk := sort (r.2.1.take itemsInBlock) ++ r.2.1.drop itemsInBlock
        let fileName := subFileName fs._filePath fileIndex
        if fs.disk.writable fileName = false then .assertFailed
        else if fileName = fs._inFileName then .aliased
        else
          createSubfilesLoop sort fuel
            { fs with
              _inFile := r.1
              _theBlock := blk
              _totalItemsExtracted := fs._totalItemsExtracted + itemsInBlock
              _subFilePaths := fs._subFilePaths ++ [fileName]
              disk := fs.disk.write fileName
                (writeRecords fs._recordSize (blk.take itemsInBlock)) }
            (fileIndex + 1)
      else
        createSubfilesLoop sort fuel { fs with _inFile := r.1, _theBlock := r.2.1 } fileIndex

/-- Member `createSubfiles`. -/
def createSubfiles (sort : List (List Byte) → List (List Byte)) (fuel : Nat) (fs : fileSort) :
    Outcome fileSort :=
  createSubfilesLoop sort fuel fs 0

/-- The loop `while(!theHeap.isEmpty())` of `mergeSubFiles`; `out` is what has been written to
the output file. -/
def mergeLoop {H : Type} (M : MinHeap H) (recordSize : Nat) :
    Nat → H → List Byte → Option (List Byte)
  | 0, _, _ => none
  | fuel + 1, theHeap, out =>
    if M.isEmpty theHeap then some out
    else
      match M.pop theHeap with
      | none => none
      | some (usedFileObj, rest) =>
        let out' := out ++ (usedFileObj.item.take recordSize ++ [newline])
        if usedFileObj.fileEmpty then mergeLoop M recordSize fuel rest out'
        else if !usedFileObj.getNextRecord.fileEmpty then
          mergeLoop M recordSize fuel (M.insert rest usedFileObj.getNextRecord) out'
        else mergeLoop M recordSize fuel rest out'

/-- The first loop of `mergeSubFiles`: one `fileObj` per path of `_subFilePaths`, each inserted
in the heap. The constructor of `fileObj` opens the path and asserts that the stream is open. -/
def openSubFiles {H : Type} (M : MinHeap H) (recordSize : Nat) (mem : List Byte) (disk : Disk) :
    List String → H → Outcome H
  | [], theHeap => .returned theHeap
  | fp :: fps, theHeap =>
    match disk.files fp with
    | none => .assertFailed
    | some content =>
      openSubFiles M recordSize mem disk fps
        (M.insert theHeap (fileObj.new content recordSize mem))

/-- Member `mergeSubFiles`. The output file is opened by path after the cursors: the `assert`
fails when the path cannot be written, and an output path that is one of `_subFilePaths`
truncates a run file under its open cursor (`Outcome.aliased`). After the merge every path of
`_subFilePaths` is removed. The merge loop returns `none` when the fuel runs out or the heap
cannot pop. -/
def mergeSubFiles {H : Type} (M : MinHeap H) (mem : List Byte) (fuel : Nat) (fs : fileSort) :
    Outcome fileSort :=
  (openSubFiles M fs._recordSize mem fs.disk fs._subFilePaths M.empty).bind fun theHeap =>
    if fs.disk.writable fs._outFileName = false then .assertFailed
    else if fs._outFileName ∈ fs._subFilePaths then .aliased
    else
      match mergeLoop M fs._recordSize fuel theHeap [] with
      | none => .outOfFuel
      | some out =>
        .returned
          { fs with
            disk := fs._subFilePaths.foldl Disk.remove (fs.disk.write fs._outFileName out) }

/-- The loop of `countItems`. -/
def countItemsLoop (recordSize : Nat) : Nat → IStream → List Byte → Nat → Option Nat
  | 0, _, _, _ => none
  | fuel + 1, theFile, record, count =>
    if theFile.eof then some count
    else
      countItemsLoop recordSize fuel
        (theFile.getline record (recordSize + 1) newline).1
        (theFile.getline record (recordSize + 1) newline).2
        (if (theFile.getline record (recordSize + 1) newline).1.eof then count else count + 1)

/-- Member `countItems`, on the content of the file at `filePath`. -/
def countItems (recordSize : Nat) (mem : List Byte) (fuel : Nat) (content : List Byte) :
    Option Nat :=
  countItemsLoop recordSize fuel (IStream.ofFile content) (newBuffer mem (recordSize + 1)) 0

/-- Member `countItems` by path: `assert(theFile.is_open())` fails when no file is there. -/
def fileSort.countItems (fs : fileSort) (mem : List Byte) (fuel : Nat) (filePath : String) :
    Outcome Nat :=
  match fs.disk.files filePath with
  | none => .assertFailed
  | some content =>
    match Filesort.countItems fs._recordSize mem fuel content with
    | none => .outOfFuel
    | some count => .returned count

/-- The loop of `verifyOrder`, `while(!theSortedFile.eof() && sorted)`. An iteration lets
`getline` store up to `_recordSize + 1` bytes in `next` and then writes `next[_recordSize]`; on
a buffer of `_recordSize` bytes or fewer that write is past the end of the array. At the end of
an iteration `current` takes the buffer of `next`, and `next` is allocated anew with
`new char[_recordSize]`. -/
def verifyOrderLoop (recordSize : Nat) (mem : List Byte) :
    Nat → IStream → List Byte → List Byte → Bool → Outcome Bool
  | 0, _, _, _, _ => .outOfFuel
  | fuel + 1, theSortedFile, current, next, sorted =>
    if !theSortedFile.eof && sorted then
      if next.length ≤ recordSize then .undefinedBehaviour
      else
        let r := theSortedFile.getline next (recordSize + 1) newline
        let next' := r.2.set recordSize 0
        verifyOrderLoop recordSize mem fuel r.1 next' (newBuffer mem recordSize)
          (if !r.1.fail && decide (strcmp current next' > 0) then false else sorted)
    else .returned sorted

/-- Member `verifyOrder`, on the content of the file at `filePath`: `current` and the first
`next` are allocated with `new char[_recordSize + 1]`. -/
def verifyOrder (recordSize : Nat) (mem : List Byte) (fuel : Nat) (content : List Byte) :
    Outcome Bool :=
  let r := (IStream.ofFile content).getline (newBuffer mem (recordSize + 1)) (recordSize + 1)
    newline
  verifyOrderLoop recordSize mem fuel r.1 (r.2.set recordSize 0)
    (newBuffer mem (recordSize + 1)) true

/-- Member `verifyOrder` by path: `assert(theSortedFile.is_open())` fails when no file is
there. -/
def fileSort.verifyOrder (fs : fileSort) (mem : List Byte) (fuel : Nat) (filePath : String) :
    Outcome Bool :=
  match fs.disk.files filePath with
  | none => .assertFailed
  | some content => Filesort.verifyOrder fs._recordSize mem fuel content

/-- The local `itemCountOk` of `verifyFile`: `countItems(_inFileName)` and
`countItems(_outFileName)` compared. -/
def itemCountOk (mem : List Byte) (fuel : Nat) (fs : fileSort) : Outcome Bool :=
  (fs.countItems mem fuel fs._inFileName).bind fun inFileItems =>
    (fs.countItems mem fuel fs._outFileName).bind fun outFileItems =>
      .returned (inFileItems == outFileItems)

/-- Member `verifyFile`. -/
def verifyFile (mem : List Byte) (fuel : Nat) (fs : fileSort) : Outcome Bool :=
  (fs.verifyOrder mem fuel fs._outFileName).bind fun isSorted =>
    (itemCountOk mem fuel fs).bind fun ok => .returned (isSorted && ok)

/-- The members of a `fileSort` object once `_inFile.open` has succeeded on a file with content
`input` and `initBlock` has run: the state in which the constructor calls `createSubfiles`. -/
def fileSort.init (recordsPerBlock recordSize : Nat) (inputName outputName path : String)
    (mem : List Byte) (disk : Disk) (input : List Byte) : fileSort :=
  { _recordSize := recordSize
    _recordsPerBlock := recordsPerBlock
    _inFile := IStream.ofFile input
    _theBlock := initBlock recordsPerBlock recordSize mem
    _subFilePaths := []
    _totalItemsExtracted := 0
    _filePath := path
    _inFileName := path ++ inputName
    _outFileName := path ++ outputName
    disk := disk }

/-- The constructor of `fileSort` up to its call of `createSubfiles`: it opens
`path + inputName`, and `assert(_inFile.is_open())` fails when no file is there. -/
def fileSort.openInFile (recordsPerBlock recordSize : Nat) (inputName outputName path : String)
    (mem : List Byte) (disk : Disk) : Outcome fileSort :=
  match disk.files (path ++ inputName) with
  | none => .assertFailed
  | some input =>
    .returned (fileSort.init recordsPerBlock recordSize inputName outputName path mem disk input)

/-- The sort proper, as the constructor of `fileSort` runs it: `createSubfiles` then
`mergeSubFiles`. -/
def fileSort.sort {H : Type} (sort : List (List Byte) → List (List Byte)) (M : MinHeap H)
    (mem : List Byte) (fuel : Nat) (fs : fileSort) : Outcome fileSort :=
  (createSubfiles sort fuel fs).bind (mergeSubFiles M mem fuel)

/-- The constructor `fileSort(recordsPerBlock, recordSize, inputName, outputName, path)`: it
opens the input, sorts, and calls `verifyFile`, whose result it discards. -/
def fileSort.new {H : Type} (sort : List (List Byte) → List (List Byte)) (M : MinHeap H)
    (mem : List Byte) (fuel : Nat) (recordsPerBlock recordSize : Nat)
    (inputName outputName path : String) (disk : Disk) : Outcome fileSort :=
  (fileSort.openInFile recordsPerBlock recordSize inputName outputName path mem disk).bind
    fun fs => (fileSort.sort sort M mem fuel fs).bind
      fun fs' => (verifyFile mem fuel fs').bind fun _ => .returned fs'

/-! ## File format -/

/-- The shared file format: every record followed by one newline. -/
def encodeFile : List (List Byte) → List Byte
  | [] => []
  | r :: rs => r ++ newline :: encodeFile rs

/-- A record of the given width that does not contain the delimiter. -/
def IsRecord (recordSize : Nat) (r : List Byte) : Prop :=
  r.length = recordSize ∧ newline ∉ r

instance (recordSize : Nat) (r : List Byte) : Decidable (IsRecord recordSize r) :=
  inferInstanceAs (Decidable (r.length = recordSize ∧ newline ∉ r))

/-- The record buffer `getNextRecord` builds for a record: its bytes and the null character. -/
def cstr (r : List Byte) : List Byte := r ++ [0]

/-- Non-decreasing order of two records under the record comparison: `strcmp` of their
null-terminated buffers is not positive. -/
def recLe (a b : List Byte) : Prop := strcmp (cstr a) (cstr b) ≤ 0

instance (a b : List Byte) : Decidable (recLe a b) :=
  inferInstanceAs (Decidable (strcmp (cstr a) (cstr b) ≤ 0))

/-! ## Concrete collaborators -/

/-- Removes a least cursor from a non-empty list of cursors. -/
def extractMin : fileObj → List fileObj → fileObj × List fileObj
  | x, [] => (x, [])
  | x, y :: ys =>
    if (extractMin y ys).1.lt x then ((extractMin y ys).1, x :: (extractMin y ys).2)
    else (x, y :: ys)

/-- Modelled from the spec: `minheap.h` is missing; a MergeHeap kept as a list, in which
`insert` appends the cursor and `pop` removes the first of the least cursors. -/
def listHeap : MinHeap (List fileObj) where
  empty := []
  insert h x := h ++ [x]
  pop h := match h with
    | [] => none
    | x :: xs => some (extractMin x xs)
  isEmpty h := h.isEmpty

/-- Insertion sort by the comparator of `createSubfiles`. -/
def insertionSortBlock (l : List (List Byte)) : List (List Byte) :=
  l.insertionSort (fun a b => strcmp a b ≤ 0)

/-! ## Definitions used to state the properties -/

/-- Byte-wise lexicographic comparison of two byte sequences, bytes taken as unsigned values:
the definition of the record ordering in the words of the specification. -/
def lexLt : List Byte → List Byte → Bool
  | [], [] => false
  | [], _ :: _ => true
  | _ :: _, [] => false
  | x :: xs, y :: ys => decide (x < y) || (decide (x = y) && lexLt xs ys)

/-- A record without a zero byte. -/
def NoZero (r : List Byte) : Prop := (0 : Byte) ∉ r

instance (r : List Byte) : Decidable (NoZero r) :=
  inferInstanceAs (Decidable ((0 : Byte) ∉ r))

/-- Non-decreasing order between two records neither of which has a zero byte. -/
def recLeNoZero (a b : List Byte) : Prop := recLe a b ∧ NoZero a ∧ NoZero b

/-- The cursor whose current record is `r` and whose run file still holds `rest` unread. -/
def cursorAt (recordSize : Nat) (r : List Byte) (rest : List (List Byte)) : fileObj :=
  { _recordSize := recordSize
    _inFile := { data := encodeFile rest, eofbit := false, failbit := false }
    _record := cstr r }

/-- The number of blocks of `recordsPerBlock` records that `n` records fill, the last one
possibly in part. -/
def numRuns (recordsPerBlock n : Nat) : Nat := (n + recordsPerBlock - 1) / recordsPerBlock

/-- Every row of the block is a buffer of `recordSize + 1` bytes. -/
def BlockOk (recordSize : Nat) (blk : List (List Byte)) : Prop :=
  ∀ row ∈ blk, row.length = recordSize + 1

/-- The run file `createSubfiles` writes for a block of records: the rows sorted by `sort` and
written out. -/
def runContent (sort : List (List Byte) → List (List Byte)) (recordSize : Nat)
    (block : List (List Byte)) : List Byte :=
  writeRecords recordSize (sort (block.map cstr))

/-- The records of the run file `createSubfiles` writes for a block of records, in the order
they are written. -/
def runRecords (sort : List (List Byte) → List (List Byte)) (block : List (List Byte)) :
    List (List Byte) :=
  (sort (block.map cstr)).map List.dropLast

/-- The blocks of `recordsPerBlock` consecutive records `createSubfiles` reads from the
records `recs`. -/
def blocksOf (recordsPerBlock : Nat) (recs : List (List Byte)) : List (List (List Byte)) :=
  (List.range (numRuns recordsPerBlock recs.length)).map
    (fun i => (recs.drop (i * recordsPerBlock)).take recordsPerBlock)

/-- The `fileObj` as its constructor has it before the first read: the stream just opened on
the file and the buffer just allocated. The constructor then calls `getNextRecord`. -/
def fileObj.opened (content : List Byte) (recordSize : Nat) (mem : List Byte) : fileObj :=
  { _recordSize := recordSize
    _inFile := IStream.ofFile content
    _record := newBuffer mem (recordSize + 1) }

/-- What the read attempt that `getNextRecord` makes on `f` returns, in the words of the
specification: the record, when the stream is good and delivers `_recordSize` bytes with no
delimiter among them, and no record otherwise. -/
def fileObj.readResult (f : fileObj) : Option (List Byte) :=
  if f._inFile.good && (extract newline f._recordSize f._inFile.data).1.length == f._recordSize
  then some (extract newline f._recordSize f._inFile.data).1
  else none

/-- A line of at most `recordSize` bytes that does not contain the delimiter. -/
def IsLine (recordSize : Nat) (l : List Byte) : Prop :=
  l.length ≤ recordSize ∧ newline ∉ l

instance (recordSize : Nat) (l : List Byte) : Decidable (IsLine recordSize l) :=
  inferInstanceAs (Decidable (l.length ≤ recordSize ∧ newline ∉ l))

/-- A disk on which no file exists and every path can be written. -/
def Disk.empty : Disk := { files := fun _ => none, writable := fun _ => true }

/-- The disk after the listed files are written one after the other. -/
def Disk.writeAll (d : Disk) (files : List (String × List Byte)) : Disk :=
  files.foldl (fun disk f => disk.write f.1 f.2) d

/-- The run files can be created next to the input: every run-file path can be written and
none of them is the path of the input file. -/
def SubFilePathsOk (disk : Disk) (inputName path : String) : Prop :=
  ∀ i : Nat, disk.writable (subFileName path i) = true ∧ subFileName path i ≠ path ++ inputName

/-- The output file can be created next to the input and the run files: its path can be
written, and it is neither the path of the input file nor that of a run file. -/
def OutFilePathOk (disk : Disk) (inputName outputName path : String) : Prop :=
  disk.writable (path ++ outputName) = true ∧ path ++ outputName ≠ path ++ inputName ∧
    ∀ i : Nat, subFileName path i ≠ path ++ outputName

/-- The disk `createSubfiles` leaves when it has written the runs of the records `recs`: run
`i` holds the records of block `i` in the order `sort` gave them. -/
def diskWithRuns (sort : List (List Byte) → List (List Byte)) (recordsPerBlock : Nat)
    (path : String) (disk : Disk) (recs : List (List Byte)) : Disk :=
  disk.writeAll
    ((List.range (numRuns recordsPerBlock recs.length)).map
      (fun i => (subFileName path i,
        encodeFile (runRecords sort ((recs.drop (i * recordsPerBlock)).take recordsPerBlock)))))

/-! ## constants.h, filesort_util.h and main.cpp -/

/-- The 8 GB memory limit of `constants.h`. -/
def MAX_MEMORY : Nat := 8000000000

/-- The 250 file limit of `constants.h`. -/
def MAX_SUBFILES : Nat := 250

/-- The largest record width of `constants.h`. -/
def MAX_RECORD_SIZE : Nat := 1024

/-- The path prefix of `constants.h`. -/
def FILE_PATH_PREFIX : String := ""

/-- The input file name of `constants.h`. -/
def INPUT_FILE_NAME : String := "inputfile.txt"

/-- The output file name of `constants.h`. -/
def OUTPUT_FILE_NAME : String := "outputfile.txt"

/-- Reduction of a number to the type `size_t`, 64 bits wide. -/
def sizeT (n : Nat) : Nat := n % 2 ^ 64

/-- The call `getNumInRange(message, min, max)`, given the number the user enters: the function
returns it when it lies in the range and asks again otherwise (`none`). -/
def getNumInRange (min max entered : Nat) : Option Nat :=
  if min ≤ entered ∧ entered ≤ max then some entered else none

/-- The values `interactiveFileSortTest` computes before it writes any file. -/
structure DriverConfig where
  recordSize : Nat
  totalRecords : Nat
  inputFileSize : Nat
  minReqMem : Nat
  maxMemory : Nat
  totalSubfiles : Nat
  recordsPerBlock : Nat
deriving DecidableEq, Repr

/-- The function `interactiveFileSortTest` up to the point where it generates the input file,
given the three numbers the user enters: `none` when an entry is refused or an `assert`
fails, and otherwise the configuration with which the input file is generated and `fileSort`
is constructed. -/
def interactiveFileSortTest (recordSizeIn totalRecordsIn maxMemoryIn : Nat) :
    Option DriverConfig :=
  (getNumInRange 1 MAX_RECORD_SIZE recordSizeIn).bind fun recordSize =>
  (getNumInRange 1 (sizeT (MAX_MEMORY * MAX_SUBFILES) / MAX_RECORD_SIZE) totalRecordsIn).bind
    fun totalRecords =>
  let inputFileSize := sizeT (totalRecords * recordSize)
  let minReqMem := max (inputFileSize / MAX_SUBFILES) recordSize
  if minReqMem ≤ MAX_MEMORY then
    (getNumInRange minReqMem MAX_MEMORY maxMemoryIn).bind fun maxMemory =>
    let totalSubfiles :=
      if inputFileSize / maxMemory = 0 then 1 else inputFileSize / maxMemory
    let recordsPerBlock := totalRecords / totalSubfiles
    if inputFileSize / maxMemory ≤ MAX_SUBFILES then
      some
        { recordSize := recordSize
          totalRecords := totalRecords
          inputFileSize := inputFileSize
          minReqMem := minReqMem
          maxMemory := maxMemory
          totalSubfiles := totalSubfiles
          recordsPerBlock := recordsPerBlock }
    else none
  else none

/-- The inner loop of `generateInputFile`: the last `itemSize` bytes of the block become random
digits; `k` is the number of calls of `rand()` made before. -/
def randomizeBlock (blockSize itemSize : Nat) (rand : Nat → Nat) (k : Nat)
    (theBlock : List Byte) : List Byte :=
  (List.range itemSize).foldl
    (fun blk j => blk.set (blockSize - 1 - j) (Fin.ofNat (48 + rand (k + j) % 10))) theBlock

/-- The outer loop of `generateInputFile`, returning the bytes written to the file. -/
def generateInputFileLoop (blockSize itemSize : Nat) (rand : Nat → Nat) :
    Nat → Nat → List Byte → List Byte
  | 0, _, _ => []
  | n + 1, k, theBlock =>
    (randomizeBlock blockSize itemSize rand k theBlock).take blockSize ++
      newline :: generateInputFileLoop blockSize itemSize rand n (k + itemSize)
        (randomizeBlock blockSize itemSize rand k theBlock)

/-- The function `generateInputFile(path, blockSize, itemSize, n)`, returning the content of
the file it writes; `rand i` is the value of the call number `i` of `rand()`. -/
def generateInputFile (blockSize itemSize n : Nat) (rand : Nat → Nat) : List Byte :=
  generateInputFileLoop blockSize itemSize rand n 0 (List.replicate blockSize 48 ++ [0])

/-- The lines of a file content: the byte sequences ended by a newline, in order, and the bytes
after the last newline. -/
def splitLines : List Byte → List (List Byte) × List Byte
  | [] => ([], [])
  | c :: cs =>
    if c = newline then ([] :: (splitLines cs).1, (splitLines cs).2)
    else
      match (splitLines cs).1 with
      | [] => ([], c :: (splitLines cs).2)
      | l :: ls => ((c :: l) :: ls, (splitLines cs).2)

/-- The state of a stream after one more `getline` for a record of the given width; the state
does not depend on the buffer. -/
def IStream.afterGetline (recordSize : Nat) (s : IStream) : IStream :=
  (s.getline [] (recordSize + 1) newline).1

/-- The local `minReqMem` of `interactiveFileSortTest`, from the accepted record size and
number of records. -/
def driverMinReqMem (recordSize totalRecords : Nat) : Nat :=
  max (sizeT (totalRecords * recordSize) / MAX_SUBFILES) recordSize

/-- The local `totalSubfiles` of `interactiveFileSortTest`, from the three accepted numbers. -/
def driverTotalSubfiles (recordSize totalRecords maxMemory : Nat) : Nat :=
  if sizeT (totalRecords * recordSize) / maxMemory = 0 then 1
  else sizeT (totalRecords * recordSize) / maxMemory

/-- The local `recordsPerBlock` of `interactiveFileSortTest`, computed before the last
`assert`. -/
def driverRecordsPerBlock (recordSize totalRecords maxMemory : Nat) : Nat :=
  totalRecords / driverTotalSubfiles recordSize totalRecords maxMemory

/-! ## Properties of `strcmp` -/

theorem strcmp_swap (a b : List Byte) : strcmp b a = - strcmp a b := by
  induction a generalizing b with
  | nil => cases b <;> simp [strcmp]
  | cons x xs ih =>
    cases b with
    | nil => simp [strcmp]
    | cons y ys =>
      simp only [strcmp]
      by_cases h : x = y
      · subst h
        by_cases h0 : x = 0
        · simp [h0]
        · simp [h0, ih]
      · have h' : ¬ y = x := fun e => h e.symm
        simp [h, h']

theorem strcmp_trans (a b c : List Byte) (h1 : strcmp a b ≤ 0) (h2 : strcmp b c ≤ 0) :
    strcmp a c ≤ 0 := by
  induction a generalizing b c with
  | nil =>
    cases c with
    | nil => simp [strcmp]
    | cons z zs => simp [strcmp]
  | cons x xs ih =>
    cases b with
    | nil =>
      cases c with
      | nil => simpa [strcmp] using h1
      | cons z zs =>
        simp only [strcmp] at h1 h2 ⊢
        have hx : x = 0 := by ext; simp; omega
        subst hx
        by_cases hz : (0 : Byte) = z
        · simp [hz.symm]
        · simp [hz]
    | cons y ys =>
      cases c with
      | nil =>
        simp only [strcmp] at h1 h2 ⊢
        have hy : y = 0 := by ext; simp; omega
        subst hy
        by_cases hxy : x = 0
        · simp [hxy]
        · simp [hxy] at h1
          omega
      | cons z zs =>
        simp only [strcmp] at h1 h2 ⊢
        by_cases hxy : x = y
        · subst hxy
          by_cases hxz : x = z
          · subst hxz
            by_cases h0 : x = 0
            · simp [h0]
            · simp [h0] at h1 h2 ⊢
              exact ih _ _ h1 h2
          · simpa [hxz] using h2
        · by_cases hyz : y = z
          · subst hyz
            simpa [hxy] using h1
          · simp [hxy] at h1
            simp [hyz] at h2
            have hne : x ≠ z := by
              intro e; subst e
              have : x.val = y.val := by omega
              exact hxy (Fin.ext this)
            simp [hne]
            omega


theorem strcmp_self (a : List Byte) : strcmp a a = 0 := by
  have := strcmp_swap a a
  omega

theorem recLe_refl (a : List Byte) : recLe a a := by
  simp [recLe, strcmp_self]

theorem recLe_trans {a b c : List Byte} (h1 : recLe a b) (h2 : recLe b c) : recLe a c :=
  strcmp_trans _ _ _ h1 h2

theorem recLe_total (a b : List Byte) : recLe a b ∨ recLe b a := by
  unfold recLe
  have := strcmp_swap (cstr a) (cstr b)
  omega

/-- On records without a zero byte `strcmp` is negative exactly when the first is
lexicographically less. -/
theorem strcmp_cstr_neg_iff (a b : List Byte) (ha : NoZero a) (hb : NoZero b) :
    strcmp (cstr a) (cstr b) < 0 ↔ lexLt a b = true := by
  induction a generalizing b with
  | nil =>
    cases b with
    | nil => simp [cstr, strcmp, lexLt]
    | cons y ys =>
      have hy : (0 : Byte) ≠ y := fun e => hb (by simp [e])
      have hy' : 0 < y.val := by
        rcases Nat.eq_zero_or_pos y.val with h | h
        · exact absurd (Fin.ext h.symm) hy
        · exact h
      simp [cstr, strcmp, lexLt, hy]
      omega
  | cons x xs ih =>
    have hx : x ≠ 0 := fun e => ha (by simp [e])
    have hxs : NoZero xs := fun h => ha (List.mem_cons_of_mem _ h)
    cases b with
    | nil =>
      simp [cstr, strcmp, lexLt, hx]
    | cons y ys =>
      have hys : NoZero ys := fun h => hb (List.mem_cons_of_mem _ h)
      by_cases hxy : x = y
      · subst hxy
        have := ih ys hxs hys
        simpa [cstr, strcmp, lexLt, hx] using this
      · simp [cstr, strcmp, lexLt, hxy]

/-- On records without a zero byte `strcmp` is zero exactly on identical records. -/
theorem strcmp_cstr_eq_zero_iff (a b : List Byte) (ha : NoZero a) (hb : NoZero b) :
    strcmp (cstr a) (cstr b) = 0 ↔ a = b := by
  induction a generalizing b with
  | nil =>
    cases b with
    | nil => simp [cstr, strcmp]
    | cons y ys =>
      have hy : (0 : Byte) ≠ y := fun e => hb (by simp [e])
      have hy' : y.val ≠ 0 := fun h => hy (Fin.ext h.symm)
      simp [cstr, strcmp, hy]
      omega
  | cons x xs ih =>
    have hx : x ≠ 0 := fun e => ha (by simp [e])
    have hxs : NoZero xs := fun h => ha (List.mem_cons_of_mem _ h)
    cases b with
    | nil =>
      have hx' : x.val ≠ 0 := fun h => hx (Fin.ext h)
      simp [cstr, strcmp, hx]
      omega
    | cons y ys =>
      have hys : NoZero ys := fun h => hb (List.mem_cons_of_mem _ h)
      by_cases hxy : x = y
      · subst hxy
        have := ih ys hxs hys
        simpa [cstr, strcmp, hx] using this
      · simp [cstr, strcmp, hxy]
        intro h
        exact hxy (Fin.ext (by omega))

/-! ## Streams on well-formed files -/

theorem extract_record (r rest : List Byte) (hr : newline ∉ r) :
    extract newline r.length (r ++ newline :: rest) = (r, newline :: rest) := by
  induction r with
  | nil => simp [extract]
  | cons c cs ih =>
    have hc : c ≠ newline := fun e => hr (by simp [e])
    have hcs : newline ∉ cs := fun h => hr (List.mem_cons_of_mem _ h)
    simp [extract, hc, ih hcs]

theorem length_newBuffer (mem : List Byte) (n : Nat) : (newBuffer mem n).length = n := by
  simp [newBuffer]

/-- Storing a whole record in a buffer of `recordSize + 1` bytes leaves the record and its
terminator. -/
theorem store_record (recordSize : Nat) (buf r : List Byte) (hb : buf.length = recordSize + 1)
    (hr : r.length = recordSize) : (store buf r).set recordSize 0 = cstr r := by
  have : buf.drop (r.length + 1) = [] := by
    apply List.drop_eq_nil_of_le
    omega
  simp [store, cstr, this, ← hr, List.set_append]

/-- Reading a record from a good stream positioned at it. -/
theorem getline_record (recordSize : Nat) (buf r rest : List Byte) (hr : IsRecord recordSize r) :
    IStream.getline { data := r ++ newline :: rest, eofbit := false, failbit := false } buf
      (recordSize + 1) newline =
    ({ data := rest, eofbit := false, failbit := false }, store buf r) := by
  obtain ⟨hl, hn⟩ := hr
  have := extract_record r rest hn
  rw [hl] at this
  simp [IStream.getline, IStream.good, this]

/-- Reading from a good stream at the end of the file. -/
theorem getline_nil (n : Nat) (buf : List Byte) :
    IStream.getline { data := [], eofbit := false, failbit := false } buf (n + 1) newline =
    ({ data := [], eofbit := true, failbit := true }, store buf []) := by
  cases n <;> simp [IStream.getline, IStream.good, extract]


/-! ## Run cursors on well-formed run files -/

theorem fileObj_new_cons (recordSize : Nat) (mem r : List Byte) (rest : List (List Byte))
    (hr : IsRecord recordSize r) :
    fileObj.new (encodeFile (r :: rest)) recordSize mem = cursorAt recordSize r rest := by
  simp only [fileObj.new, fileObj.getNextRecord, IStream.ofFile, encodeFile, cursorAt]
  rw [getline_record recordSize _ r _ hr]
  simp [store_record recordSize _ r (length_newBuffer _ _) hr.1]

theorem fileObj_new_nil (recordSize : Nat) (mem : List Byte) :
    (fileObj.new (encodeFile []) recordSize mem).fileEmpty = true := by
  simp [fileObj.new, fileObj.getNextRecord, IStream.ofFile, encodeFile, getline_nil,
    fileObj.fileEmpty, IStream.eof]

theorem getNextRecord_cursorAt_cons (recordSize : Nat) (r r' : List Byte)
    (rest : List (List Byte)) (hr : r.length = recordSize) (hr' : IsRecord recordSize r') :
    (cursorAt recordSize r (r' :: rest)).getNextRecord = cursorAt recordSize r' rest := by
  simp only [fileObj.getNextRecord, encodeFile, cursorAt]
  rw [getline_record recordSize _ r' _ hr']
  simp [store_record recordSize (cstr r) r' (by simp [cstr, hr]) hr'.1]

theorem getNextRecord_cursorAt_nil (recordSize : Nat) (r : List Byte) :
    (cursorAt recordSize r []).getNextRecord.fileEmpty = true := by
  simp [fileObj.getNextRecord, encodeFile, cursorAt, getline_nil, fileObj.fileEmpty,
    IStream.eof]

theorem fileEmpty_cursorAt (recordSize : Nat) (r : List Byte) (rest : List (List Byte)) :
    (cursorAt recordSize r rest).fileEmpty = false := rfl

theorem item_cursorAt (recordSize : Nat) (r : List Byte) (rest : List (List Byte)) :
    (cursorAt recordSize r rest).item = cstr r := rfl

/-- The state of a cursor after `k` further reads, while records remain. -/
theorem iterate_getNextRecord_cursorAt (recordSize : Nat) (k : Nat) (r : List Byte)
    (rest : List (List Byte)) (hr : r.length = recordSize)
    (hrest : ∀ x ∈ rest, IsRecord recordSize x) (x : List Byte)
    (hx : (r :: rest)[k]? = some x) :
    fileObj.getNextRecord^[k] (cursorAt recordSize r rest) =
      cursorAt recordSize x ((r :: rest).drop (k + 1)) := by
  induction k generalizing r rest with
  | zero =>
    simp at hx
    simp [hx]
  | succ k ih =>
    cases rest with
    | nil => simp at hx
    | cons r' rest' =>
      have hr' : IsRecord recordSize r' := hrest r' (by simp)
      rw [Function.iterate_succ_apply, getNextRecord_cursorAt_cons recordSize r r' rest' hr hr']
      have := ih r' rest' hr'.1 (fun y hy => hrest y (List.mem_cons_of_mem _ hy))
        (by simpa using hx)
      simpa using this

/-- After as many further reads as records remain the cursor is exhausted. -/
theorem iterate_getNextRecord_cursorAt_length (recordSize : Nat) (r : List Byte)
    (rest : List (List Byte)) (hr : r.length = recordSize)
    (hrest : ∀ x ∈ rest, IsRecord recordSize x) :
    (fileObj.getNextRecord^[rest.length + 1] (cursorAt recordSize r rest)).fileEmpty = true := by
  induction rest generalizing r with
  | nil => simpa using getNextRecord_cursorAt_nil recordSize r
  | cons r' rest' ih =>
    have hr' : IsRecord recordSize r' := hrest r' (by simp)
    rw [Function.iterate_succ_apply, getNextRecord_cursorAt_cons recordSize r r' rest' hr hr']
    exact ih r' hr'.1 (fun y hy => hrest y (List.mem_cons_of_mem _ hy))

/-- C10. Read trace of a run cursor: on a well-formed run file of records `recs` of width
`recordSize`, after the constructor and `k` calls of `getNextRecord`, if the `k`-th record
exists then `fileEmpty()` is false and `item()` is that record with its terminator, and if
`k` is the number of records then `fileEmpty()` is true; a cursor opened on an empty file is
exhausted at once. -/
theorem fileObj_read_trace (recordSize : Nat) (mem : List Byte) (recs : List (List Byte))
    (hwf : ∀ r ∈ recs, IsRecord recordSize r) (k : Nat) :
    (∀ r, recs[k]? = some r →
      (fileObj.getNextRecord^[k] (fileObj.new (encodeFile recs) recordSize mem)).fileEmpty = false
      ∧ (fileObj.getNextRecord^[k] (fileObj.new (encodeFile recs) recordSize mem)).item = cstr r
      ∧ (fileObj.getNextRecord^[k] (fileObj.new (encodeFile recs) recordSize mem)).item.take
          recordSize = r) ∧
    (k = recs.length →
      (fileObj.getNextRecord^[k] (fileObj.new (encodeFile recs) recordSize mem)).fileEmpty = true)
    ∧ (fileObj.new (encodeFile []) recordSize mem).fileEmpty = true := by
  refine ⟨?_, ?_, fileObj_new_nil recordSize mem⟩
  · intro r hk
    cases recs with
    | nil => simp at hk
    | cons r0 rest =>
      have h0 : IsRecord recordSize r0 := hwf r0 (by simp)
      have hrest : ∀ x ∈ rest, IsRecord recordSize x :=
        fun y hy => hwf y (List.mem_cons_of_mem _ hy)
      rw [fileObj_new_cons recordSize mem r0 rest h0,
        iterate_getNextRecord_cursorAt recordSize k r0 rest h0.1 hrest r hk]
      have hr : r.length = recordSize := (hwf r (List.getElem?_mem hk)).1
      simp [fileEmpty_cursorAt, item_cursorAt, cstr, ← hr]
  · intro hk
    subst hk
    cases recs with
    | nil => simpa using fileObj_new_nil recordSize mem
    | cons r0 rest =>
      have h0 : IsRecord recordSize r0 := hwf r0 (by simp)
      have hrest : ∀ x ∈ rest, IsRecord recordSize x :=
        fun y hy => hwf y (List.mem_cons_of_mem _ hy)
      rw [fileObj_new_cons recordSize mem r0 rest h0]
      exact iterate_getNextRecord_cursorAt_length recordSize r0 rest h0.1 hrest

theorem fileObj_read_trace_witness :
    (∀ r ∈ [[(49 : Byte), 50], [51, 52]], IsRecord 2 r) ∧
    (fileObj.getNextRecord^[1] (fileObj.new (encodeFile [[49, 50], [51, 52]]) 2 [7])).item
      = [51, 52, 0] ∧
    (fileObj.getNextRecord^[2] (fileObj.new (encodeFile [[49, 50], [51, 52]]) 2 [7])).fileEmpty
      = true := by
  have hwf : ∀ r ∈ [[(49 : Byte), 50], [51, 52]], IsRecord 2 r := by
    intro r hr
    simp at hr
    rcases hr with rfl | rfl <;> exact ⟨rfl, by decide⟩
  have h1 := fileObj_read_trace 2 [7] [[49, 50], [51, 52]] hwf 1
  have h2 := fileObj_read_trace 2 [7] [[49, 50], [51, 52]] hwf 2
  exact ⟨hwf, (h1.1 [51, 52] rfl).2.1, h2.2.1 rfl⟩


/-! ## Run generation on well-formed input -/

theorem readBlock_not_good (recordSize recordsPerBlock fuel : Nat) (s : IStream)
    (blk : List (List Byte)) (k : Nat) (hs : s.good = false) :
    readBlock recordSize recordsPerBlock fuel s blk k = (s, blk, k) := by
  cases fuel <;> simp [readBlock, hs]

/-- The inner loop of `createSubfiles` reaches its exit within `recordsPerBlock + 1 - k`
iterations on every stream: more fuel does not change its result. -/
theorem readBlock_fuel_succ (recordSize recordsPerBlock : Nat) :
    ∀ (fuel : Nat) (s : IStream) (blk : List (List Byte)) (k : Nat),
      recordsPerBlock + 1 - k ≤ fuel →
      readBlock recordSize recordsPerBlock (fuel + 1) s blk k =
        readBlock recordSize recordsPerBlock fuel s blk k := by
  intro fuel
  induction fuel with
  | zero =>
    intro s blk k hk
    have : ¬ k < recordsPerBlock := by omega
    simp [readBlock, this]
  | succ fuel ih =>
    intro s blk k hk
    conv_lhs => rw [readBlock]
    conv_rhs => rw [readBlock]
    by_cases hc : (s.good && decide (k < recordsPerBlock)) = true
    · have hk' : k < recordsPerBlock := by
        simp only [Bool.and_eq_true, decide_eq_true_eq] at hc
        exact hc.2
      simp only [hc, ↓reduceIte]
      by_cases hg : (s.getline (blk.getD k []) (recordSize + 1) newline).1.good = true
      · simp only [hg, ↓reduceIte]
        exact ih _ _ (k + 1) (by omega)
      · have hg' : (s.getline (blk.getD k []) (recordSize + 1) newline).1.good = false := by
          simpa using hg
        simp only [hg', Bool.false_eq_true, ↓reduceIte]
        rw [readBlock_not_good _ _ _ _ _ _ hg', readBlock_not_good _ _ _ _ _ _ hg']
    · simp only [hc, Bool.false_eq_true, ↓reduceIte]

theorem length_store_nil (buf : List Byte) (h : 0 < buf.length) :
    (store buf []).length = buf.length := by
  simp [store]
  omega

theorem getD_mem {α : Type} (l : List α) (k : Nat) (d : α) (h : k < l.length) :
    l.getD k d ∈ l := by
  rw [List.getD_eq_getElem l d h]
  exact List.getElem_mem h

theorem blockOk_set {recordSize : Nat} {blk : List (List Byte)} (h : BlockOk recordSize blk)
    (k : Nat) (row : List Byte) (hrow : row.length = recordSize + 1) :
    BlockOk recordSize (blk.set k row) := by
  intro x hx
  rcases List.mem_or_eq_of_mem_set hx with h1 | h1
  · exact h x h1
  · rw [h1]; exact hrow

theorem take_succ_set {α : Type} (l : List α) (k : Nat) (x : α) (h : k < l.length) :
    (l.set k x).take (k + 1) = l.take k ++ [x] := by
  induction l generalizing k with
  | nil => simp at h
  | cons a l ih =>
    cases k with
    | zero => simp
    | succ k =>
      simp at h
      simp [ih k (by omega)]

theorem take_set_self {α : Type} (l : List α) (k : Nat) (x : α) :
    (l.set k x).take k = l.take k := by
  induction l generalizing k with
  | nil => simp
  | cons a l ih =>
    cases k with
    | zero => simp
    | succ k => simp [ih k]

/-- The inner loop on a good stream positioned at the records `recs`: it stores
`min (recordsPerBlock - k) recs.length` of them in the rows from `k` on. The stream stays good
if the block was filled and is at end of file otherwise. -/
theorem readBlock_spec (recordSize recordsPerBlock : Nat) :
    ∀ (fuel : Nat) (recs blk : List (List Byte)) (k : Nat),
      (∀ r ∈ recs, IsRecord recordSize r) → blk.length = recordsPerBlock →
      BlockOk recordSize blk → k ≤ recordsPerBlock → recordsPerBlock - k + 1 ≤ fuel →
      ∃ blk', readBlock recordSize recordsPerBlock fuel
          { data := encodeFile recs, eofbit := false, failbit := false } blk k =
          ((if recordsPerBlock - k ≤ recs.length then
              { data := encodeFile (recs.drop (recordsPerBlock - k)),
                eofbit := false, failbit := false }
            else { data := [], eofbit := true, failbit := true }),
            blk', k + min (recordsPerBlock - k) recs.length) ∧
        blk'.length = recordsPerBlock ∧ BlockOk recordSize blk' ∧
        blk'.take (k + min (recordsPerBlock - k) recs.length) =
          blk.take k ++ (recs.take (min (recordsPerBlock - k) recs.length)).map cstr := by
  intro fuel
  induction fuel with
  | zero => intro recs blk k _ _ _ _ hf; omega
  | succ fuel ih =>
    intro recs blk k hwf hlen hok hk hf
    by_cases hkB : k < recordsPerBlock
    · have hrow : (blk.getD k []).length = recordSize + 1 :=
        hok _ (getD_mem blk k [] (by omega))
      cases recs with
      | nil =>
        refine ⟨blk.set k (store (blk.getD k []) []), ?_, by simpa using hlen, ?_, ?_⟩
        · have hne : ¬ recordsPerBlock - k ≤ 0 := by omega
          simp only [readBlock, IStream.good, encodeFile, getline_nil]
          simp [hkB, readBlock_not_good, IStream.good, hne]
        · exact blockOk_set hok k _ (by rw [length_store_nil _ (by omega)]; exact hrow)
        · simp [take_set_self]
      | cons r recs' =>
        have hr : IsRecord recordSize r := hwf r (by simp)
        have hwf' : ∀ x ∈ recs', IsRecord recordSize x :=
          fun y hy => hwf y (List.mem_cons_of_mem _ hy)
        have hst := store_record recordSize (blk.getD k []) r hrow hr.1
        obtain ⟨blk', h1, h2, h3, h4⟩ := ih recs' (blk.set k (cstr r)) (k + 1) hwf'
          (by simpa using hlen) (blockOk_set hok k _ (by simp [cstr, hr.1])) (by omega) (by omega)
        refine ⟨blk', ?_, h2, h3, ?_⟩
        · simp only [readBlock, IStream.good, encodeFile, getline_record recordSize _ r _ hr, hst]
          simp only [Bool.not_false, Bool.and_self, hkB, decide_True, ↓reduceIte]
          rw [h1]
          have e1 : recordsPerBlock - k = (recordsPerBlock - (k + 1)) + 1 := by omega
          have e2 : min (recordsPerBlock - k) (recs'.length + 1)
              = min (recordsPerBlock - (k + 1)) recs'.length + 1 := by omega
          simp only [List.length_cons, e2]
          rw [e1]
          simp [Nat.add_assoc, Nat.add_comm 1]
        · have e2 : min (recordsPerBlock - k) (recs'.length + 1)
              = min (recordsPerBlock - (k + 1)) recs'.length + 1 := by omega
          simp only [List.length_cons, e2]
          rw [show k + (min (recordsPerBlock - (k + 1)) recs'.length + 1)
            = k + 1 + min (recordsPerBlock - (k + 1)) recs'.length by omega, h4,
            take_succ_set blk k _ (by omega)]
          simp
    · have hk' : k = recordsPerBlock := by omega
      subst hk'
      exact ⟨blk, by simp [readBlock], hlen, hok, by simp⟩


theorem numRuns_zero (B : Nat) : numRuns B 0 = 0 := by
  unfold numRuns
  rcases Nat.eq_zero_or_pos B with h | h
  · simp [h]
  · exact Nat.div_eq_of_lt (by omega)

theorem numRuns_step (B n : Nat) (hB : 1 ≤ B) (hn : 1 ≤ n) :
    numRuns B n = numRuns B (n - B) + 1 := by
  unfold numRuns
  by_cases h : B ≤ n
  · have : n + B - 1 = (n - B + B - 1) + B := by omega
    rw [this, Nat.add_div_right _ (by omega)]
  · have h1 : (n + B - 1) / B = 1 := by
      apply Nat.div_eq_of_lt_le <;> omega
    have h2 : n - B = 0 := by omega
    have h3 : (0 + B - 1) / B = 0 := Nat.div_eq_of_lt (by omega)
    rw [h1, h2, h3]

theorem numRuns_le (B n : Nat) (hB : 1 ≤ B) : numRuns B n ≤ n := by
  induction n using Nat.strong_induction_on with
  | _ n ih =>
    rcases Nat.eq_zero_or_pos n with h | h
    · subst h; simp [numRuns_zero]
    · rw [numRuns_step B n hB h]
      have := ih (n - B) (by omega)
      omega

theorem createSubfilesLoop_eof (sort : List (List Byte) → List (List Byte)) (fuel : Nat)
    (fs : fileSort) (j : Nat) (h : fs._inFile.eof = true) :
    createSubfilesLoop sort (fuel + 1) fs j = .returned fs := by
  simp [createSubfilesLoop, h]

theorem blockOk_of_perm {recordSize : Nat} {l l' : List (List Byte)} (h : l'.Perm l)
    (hok : BlockOk recordSize l) : BlockOk recordSize l' :=
  fun row hrow => hok row (h.subset hrow)

theorem blockOk_append {recordSize : Nat} {l l' : List (List Byte)}
    (h : BlockOk recordSize l) (h' : BlockOk recordSize l') : BlockOk recordSize (l ++ l') := by
  intro row hrow
  rcases List.mem_append.mp hrow with h1 | h1
  · exact h row h1
  · exact h' row h1


theorem writeRecords_map_cstr (recordSize : Nat) (l : List (List Byte))
    (h : ∀ r ∈ l, r.length = recordSize) :
    writeRecords recordSize (l.map cstr) = encodeFile l := by
  induction l with
  | nil => rfl
  | cons r l ih =>
    have hr : r.length = recordSize := h r (by simp)
    have ih' := ih (fun x hx => h x (List.mem_cons_of_mem _ hx))
    simp only [List.map_cons, writeRecords, encodeFile, ih']
    simp [cstr, ← hr]

theorem dropLast_cstr (r : List Byte) : (cstr r).dropLast = r := by
  simp [cstr]

theorem blockLess_cstr_false_iff (a b : List Byte) :
    blockLess (cstr b) (cstr a) = false ↔ recLe a b := by
  have := strcmp_swap (cstr a) (cstr b)
  simp only [blockLess, recLe, decide_eq_false_iff_not]
  omega

theorem runRecords_perm (sort : List (List Byte) → List (List Byte))
    (hsort : ∀ l, (sort l).Perm l) (block : List (List Byte)) :
    (runRecords sort block).Perm block := by
  have := (hsort (block.map cstr)).map List.dropLast
  rw [List.map_map] at this
  have e : block.map (List.dropLast ∘ cstr) = block := by
    conv_rhs => rw [← List.map_id block]
    apply List.map_congr_left
    intro r _
    simp [dropLast_cstr]
  rwa [e] at this

theorem map_cstr_runRecords (sort : List (List Byte) → List (List Byte))
    (hsort : ∀ l, (sort l).Perm l) (block : List (List Byte)) :
    (runRecords sort block).map cstr = sort (block.map cstr) := by
  unfold runRecords
  rw [List.map_map]
  conv_rhs => rw [← List.map_id (sort (block.map cstr))]
  apply List.map_congr_left
  intro row hrow
  obtain ⟨r, -, rfl⟩ := List.mem_map.mp ((hsort _).subset hrow)
  simp [dropLast_cstr]

/-- A block sorted by `std::sort` and written out is a run in the file format. -/
theorem runContent_eq (sort : List (List Byte) → List (List Byte))
    (hsort : ∀ l, (sort l).Perm l) (recordSize : Nat) (block : List (List Byte))
    (h : ∀ r ∈ block, r.length = recordSize) :
    runContent sort recordSize block = encodeFile (runRecords sort block) := by
  unfold runContent
  rw [← map_cstr_runRecords sort hsort block]
  exact writeRecords_map_cstr recordSize _
    (fun r hr => h r ((runRecords_perm sort hsort block).subset hr))

/-- The records of a run are in non-decreasing order. -/
theorem runRecords_sorted (sort : List (List Byte) → List (List Byte)) (hsort : IsStdSort sort)
    (block : List (List Byte)) : (runRecords sort block).Pairwise recLe := by
  have hsorted := (hsort (block.map cstr)).2
  rw [← map_cstr_runRecords sort (fun l => (hsort l).1) block, List.pairwise_map] at hsorted
  exact hsorted.imp (fun {a b} hab => (blockLess_cstr_false_iff a b).mp hab)

theorem isStdSort_insertionSortBlock : IsStdSort insertionSortBlock := by
  intro l
  refine ⟨List.perm_insertionSort _ l, ?_⟩
  have htot : IsTotal (List Byte) (fun a b => strcmp a b ≤ 0) :=
    ⟨fun a b => by have := strcmp_swap a b; omega⟩
  have htrans : IsTrans (List Byte) (fun a b => strcmp a b ≤ 0) :=
    ⟨fun a b c => strcmp_trans a b c⟩
  have := List.sorted_insertionSort (fun a b => strcmp a b ≤ 0) l
  refine List.Pairwise.imp ?_ this
  intro a b hab
  have := strcmp_swap a b
  simp only [blockLess, decide_eq_false_iff_not]
  omega


/-! ## The merge on well-formed runs -/

theorem take_cstr (r : List Byte) : (cstr r).take r.length = r := by
  simp [cstr]

/-- The merge loop on a heap of active cursors: with enough fuel it appends to the output, in
the file format, a rearrangement of all the records the cursors still hold; if `pop` returns a
least cursor and every cursor's records are in order, so is what it appends. -/
theorem mergeLoop_spec {H : Type} (M : MinHeap H) (bag : H → Multiset fileObj)
    (hbag : M.IsBag bag) (recordSize : Nat) :
    ∀ (n : Nat) (ms : Multiset (List Byte × List (List Byte))) (fuel : Nat) (h : H)
      (out : List Byte),
      bag h = ms.map (fun p => cursorAt recordSize p.1 p.2) →
      (∀ p ∈ ms, ∀ r ∈ p.1 :: p.2, IsRecord recordSize r) →
      (ms.map (fun p => p.2.length + 1)).sum = n → n + 1 ≤ fuel →
      ∃ recs', mergeLoop M recordSize fuel h out = some (out ++ encodeFile recs') ∧
        (recs' : Multiset (List Byte)) =
          ms.bind (fun p => ((p.1 :: p.2 : List (List Byte)) : Multiset (List Byte))) ∧
        (M.IsMin bag → (∀ p ∈ ms, (p.1 :: p.2).Pairwise recLe) → recs'.Pairwise recLe) := by
  obtain ⟨-, hins, hemp, hpop⟩ := hbag
  intro n
  induction n with
  | zero =>
    intro ms fuel h out hb _ hsum hfuel
    obtain ⟨fuel, rfl⟩ : ∃ f, fuel = f + 1 := ⟨fuel - 1, by omega⟩
    have hms : ms = 0 := by
      rcases Multiset.empty_or_exists_mem ms with h0 | ⟨p, hp⟩
      · exact h0
      · obtain ⟨t, rfl⟩ := Multiset.exists_cons_of_mem hp
        simp at hsum
    subst hms
    have he : M.isEmpty h = true := (hemp h).mpr (by simpa using hb)
    exact ⟨[], by simp [mergeLoop, he, encodeFile], by simp, fun _ _ => List.Pairwise.nil⟩
  | succ n ih =>
    intro ms fuel h out hb hwf hsum hfuel
    obtain ⟨fuel, rfl⟩ : ∃ f, fuel = f + 1 := ⟨fuel - 1, by omega⟩
    have hms : ms ≠ 0 := by
      intro h0; subst h0; simp at hsum
    have hne : bag h ≠ 0 := by
      rw [hb]; exact fun e => hms (Multiset.map_eq_zero.mp e)
    have he : M.isEmpty h = false := by
      cases hc : M.isEmpty h
      · rfl
      · exact absurd ((hemp h).mp hc) hne
    obtain ⟨x, h', hx, hbh⟩ := hpop h hne
    rw [hb] at hbh
    obtain ⟨p, hp, hpx, hrest⟩ := (Multiset.map_eq_cons _ ms (bag h') x).mpr hbh
    obtain ⟨r, rest⟩ := p
    have hmseq : ms = (r, rest) ::ₘ ms.erase (r, rest) := (Multiset.cons_erase hp).symm
    have hr : IsRecord recordSize r := hwf _ hp r (by simp)
    have hwfrest : ∀ y ∈ rest, IsRecord recordSize y :=
      fun y hy => hwf _ hp y (List.mem_cons_of_mem _ hy)
    have hwf' : ∀ q ∈ ms.erase (r, rest), ∀ y ∈ q.1 :: q.2, IsRecord recordSize y :=
      fun q hq => hwf q (Multiset.mem_of_mem_erase hq)
    have hsum' : ((ms.erase (r, rest)).map (fun p => p.2.length + 1)).sum + (rest.length + 1)
        = n + 1 := by
      rw [hmseq] at hsum
      simp only [Multiset.map_cons, Multiset.sum_cons] at hsum
      omega
    simp only at hpx
    have hitem : x.item.take recordSize = r := by
      rw [← hpx, item_cursorAt, ← hr.1, take_cstr]
    have hxe : x.fileEmpty = false := by rw [← hpx]; rfl
    -- what the minimality of the popped cursor gives
    have hmin : M.IsMin bag → (∀ q ∈ ms, (q.1 :: q.2).Pairwise recLe) →
        ∀ q ∈ ms.erase (r, rest), ∀ y ∈ q.1 :: q.2, recLe r y := by
      intro hm hsorted q hq y hy
      have hq1 : recLe r q.1 := by
        have hmem : cursorAt recordSize q.1 q.2 ∈ bag h' := by
          rw [← hrest]; exact Multiset.mem_map_of_mem _ hq
        have := hm h x h' hx _ hmem
        rw [← hpx] at this
        simpa [fileObj.gt, cursorAt, recLe] using this
      rcases List.mem_cons.mp hy with rfl | hy
      · exact hq1
      · have := hsorted q (Multiset.mem_of_mem_erase hq)
        exact recLe_trans hq1 ((List.pairwise_cons.mp this).1 y hy)
    cases rest with
    | nil =>
      have hnext : x.getNextRecord.fileEmpty = true := by
        rw [← hpx]; exact getNextRecord_cursorAt_nil recordSize r
      obtain ⟨recs', h1, h2, h3⟩ := ih (ms.erase (r, [])) fuel h'
        (out ++ (r ++ [newline])) hrest.symm hwf' (by simpa using hsum') (by omega)
      refine ⟨r :: recs', ?_, ?_, ?_⟩
      · rw [mergeLoop]
        simp only [he, hx, hxe, hnext, hitem, Bool.false_eq_true, ↓reduceIte, Bool.not_true]
        rw [h1]
        simp [encodeFile]
      · conv_rhs => rw [hmseq]
        rw [Multiset.cons_bind, ← h2]
        simp
      · intro hm hsorted
        refine List.pairwise_cons.mpr ⟨?_, h3 hm (fun q hq =>
          hsorted q (Multiset.mem_of_mem_erase hq))⟩
        intro y hy
        have hy' : y ∈ (recs' : Multiset (List Byte)) := Multiset.mem_coe.mpr hy
        rw [h2] at hy'
        obtain ⟨q, hq, hyq⟩ := Multiset.mem_bind.mp hy'
        exact hmin hm hsorted q hq y (Multiset.mem_coe.mp hyq)
    | cons r' rest' =>
      have hr' : IsRecord recordSize r' := hwfrest r' (by simp)
      have hnext : x.getNextRecord = cursorAt recordSize r' rest' := by
        rw [← hpx]; exact getNextRecord_cursorAt_cons recordSize r r' rest' hr.1 hr'
      obtain ⟨recs', h1, h2, h3⟩ := ih ((r', rest') ::ₘ ms.erase (r, r' :: rest')) fuel
        (M.insert h' (cursorAt recordSize r' rest')) (out ++ (r ++ [newline]))
        (by rw [hins, ← hrest, Multiset.map_cons])
        (by
          intro q hq
          rcases Multiset.mem_cons.mp hq with rfl | hq
          · exact fun y hy => hwfrest y hy
          · exact hwf' q hq)
        (by
          simp only [Multiset.map_cons, Multiset.sum_cons, List.length_cons] at hsum' ⊢
          omega)
        (by omega)
      refine ⟨r :: recs', ?_, ?_, ?_⟩
      · rw [mergeLoop]
        simp only [he, hx, hxe, hnext, hitem, fileEmpty_cursorAt, Bool.false_eq_true,
          ↓reduceIte, Bool.not_false]
        rw [h1]
        simp [encodeFile]
      · conv_rhs => rw [hmseq]
        rw [Multiset.cons_bind, ← Multiset.cons_coe, h2, Multiset.cons_bind]
        simp only [← Multiset.cons_coe, Multiset.cons_add]
      · intro hm hsorted
        have hp_sorted := hsorted _ hp
        refine List.pairwise_cons.mpr ⟨?_, h3 hm ?_⟩
        · intro y hy
          have hy' : y ∈ (recs' : Multiset (List Byte)) := Multiset.mem_coe.mpr hy
          rw [h2, Multiset.cons_bind, Multiset.mem_add] at hy'
          rcases hy' with hy' | hy'
          · exact (List.pairwise_cons.mp hp_sorted).1 y (Multiset.mem_coe.mp hy')
          · obtain ⟨q, hq, hyq⟩ := Multiset.mem_bind.mp hy'
            exact hmin hm hsorted q hq y (Multiset.mem_coe.mp hyq)
        · intro q hq
          rcases Multiset.mem_cons.mp hq with rfl | hq
          · exact (List.pairwise_cons.mp hp_sorted).2
          · exact hsorted q (Multiset.mem_of_mem_erase hq)


/-! ## Blocks of the input -/

theorem blocksOf_nil (B : Nat) : blocksOf B [] = [] := by
  simp [blocksOf, numRuns_zero]

theorem blocksOf_step (B : Nat) (hB : 1 ≤ B) (recs : List (List Byte)) (h : recs ≠ []) :
    blocksOf B recs = recs.take B :: blocksOf B (recs.drop B) := by
  have hlen : 1 ≤ recs.length := List.length_pos.mpr h
  simp only [blocksOf, numRuns_step B recs.length hB hlen, List.range_succ_eq_map,
    List.map_cons, List.map_map, Nat.zero_mul, List.drop_zero, List.length_drop]
  congr 1
  apply List.map_congr_left
  intro i _
  simp [Nat.succ_mul, Nat.add_comm]

theorem flatten_blocksOf (B : Nat) (hB : 1 ≤ B) :
    ∀ (n : Nat) (recs : List (List Byte)), recs.length = n → (blocksOf B recs).flatten = recs := by
  intro n
  induction n using Nat.strong_induction_on with
  | _ n ih =>
    intro recs hn
    cases recs with
    | nil => simp [blocksOf_nil]
    | cons r recs' =>
      rw [blocksOf_step B hB _ (by simp), List.flatten_cons,
        ih ((r :: recs').drop B).length (by simp at hn ⊢; omega) _ rfl, List.take_append_drop]

theorem mem_blocksOf (B : Nat) (hB : 1 ≤ B) (recs block : List (List Byte))
    (h : block ∈ blocksOf B recs) : block ≠ [] ∧ block.length ≤ B ∧ ∀ r ∈ block, r ∈ recs := by
  obtain ⟨i, hi, rfl⟩ := List.mem_map.mp h
  have hi' : i < numRuns B recs.length := List.mem_range.mp hi
  have hlt : i * B < recs.length := by
    unfold numRuns at hi'
    have := (Nat.le_div_iff_mul_le (by omega : 0 < B)).mp (Nat.succ_le_of_lt hi')
    have e : i.succ * B = i * B + B := Nat.succ_mul i B
    omega
  refine ⟨?_, ?_, fun r hr => List.mem_of_mem_drop (List.mem_of_mem_take hr)⟩
  · intro hnil
    have := congrArg List.length hnil
    simp at this
    omega
  · simp

/-! ## Cursors in the heap -/

theorem openSubFiles_bag {H : Type} (M : MinHeap H) (bag : H → Multiset fileObj)
    (hbag : M.IsBag bag) (recordSize : Nat) (mem : List Byte) (contents : List (List Byte))
    (h0 : H) :
    bag (contents.foldl (fun h c => M.insert h (fileObj.new c recordSize mem)) h0) =
      bag h0 + ((contents.map (fun c => fileObj.new c recordSize mem) : List fileObj) :
        Multiset fileObj) := by
  induction contents generalizing h0 with
  | nil => simp
  | cons c cs ih =>
    rw [List.foldl_cons, ih, hbag.2.1]
    simp only [List.map_cons, ← Multiset.cons_coe]
    rw [Multiset.add_cons, Multiset.cons_add]


/-! ## Records of the runs -/

theorem flatten_map_runRecords_perm (sort : List (List Byte) → List (List Byte))
    (hsort : ∀ l, (sort l).Perm l) (blocks : List (List (List Byte))) :
    ((blocks.map (runRecords sort)).flatten).Perm blocks.flatten := by
  induction blocks with
  | nil => simp
  | cons b bs ih =>
    simp only [List.map_cons, List.flatten_cons]
    exact (runRecords_perm sort hsort b).append ih

/-- The run files `createSubfiles` leaves on disk are the sorted blocks of the input, each in
the file format. -/
theorem createSubfiles_runs (sort : List (List Byte) → List (List Byte))
    (hsort : ∀ l, (sort l).Perm l) (recordsPerBlock recordSize : Nat)
    (recs : List (List Byte)) (hwf : ∀ r ∈ recs, IsRecord recordSize r) :
    (List.range (numRuns recordsPerBlock recs.length)).map
        (fun i => runContent sort recordSize
          ((recs.drop (i * recordsPerBlock)).take recordsPerBlock)) =
      ((blocksOf recordsPerBlock recs).map (runRecords sort)).map encodeFile := by
  simp only [blocksOf, List.map_map]
  apply List.map_congr_left
  intro i _
  simp only [Function.comp]
  exact runContent_eq sort hsort recordSize _
    (fun r hr => (hwf r (List.mem_of_mem_drop (List.mem_of_mem_take hr))).1)


/-! ## The concrete heap -/

theorem extractMin_perm (x : fileObj) (xs : List fileObj) :
    ((extractMin x xs).1 :: (extractMin x xs).2).Perm (x :: xs) := by
  induction xs generalizing x with
  | nil => simp [extractMin]
  | cons y ys ih =>
    rw [extractMin]
    split
    · exact (List.Perm.swap _ _ _).trans ((ih y).cons x)
    · exact List.Perm.refl _

theorem extractMin_min (x : fileObj) (xs : List fileObj) :
    ∀ z ∈ (extractMin x xs).2, strcmp (extractMin x xs).1._record z._record ≤ 0 := by
  induction xs generalizing x with
  | nil => simp [extractMin]
  | cons y ys ih =>
    rw [extractMin]
    split
    · rename_i hlt
      intro z hz
      simp only [fileObj.lt, decide_eq_true_eq] at hlt
      rcases List.mem_cons.mp hz with rfl | hz
      · exact Int.le_of_lt hlt
      · exact ih y z hz
    · rename_i hlt
      simp only [fileObj.lt, decide_eq_true_eq] at hlt
      have hx : strcmp x._record (extractMin y ys).1._record ≤ 0 := by
        have := strcmp_swap x._record (extractMin y ys).1._record
        omega
      intro z hz
      have hz' : z ∈ (extractMin y ys).1 :: (extractMin y ys).2 :=
        (extractMin_perm y ys).symm.subset hz
      rcases List.mem_cons.mp hz' with rfl | hz'
      · exact hx
      · exact strcmp_trans _ _ _ hx (ih y z hz')

theorem listHeap_isBag : listHeap.IsBag (fun h => Multiset.ofList h) := by
  refine ⟨rfl, ?_, ?_, ?_⟩
  · intro h x
    simp only [listHeap, ← Multiset.singleton_add, ← Multiset.coe_add, ← Multiset.coe_singleton]
    exact Multiset.coe_eq_coe.mpr List.perm_append_comm
  · intro h
    cases h <;> simp [listHeap]
  · intro h hne
    cases h with
    | nil => simp at hne
    | cons x xs =>
      refine ⟨(extractMin x xs).1, (extractMin x xs).2, rfl, ?_⟩
      rw [Multiset.cons_coe]
      exact Multiset.coe_eq_coe.mpr (extractMin_perm x xs).symm

theorem listHeap_isMin : listHeap.IsMin (fun h => Multiset.ofList h) := by
  intro h x h' hpop y hy
  cases h with
  | nil => simp [listHeap] at hpop
  | cons a as =>
    simp only [listHeap, Option.some.injEq] at hpop
    have := extractMin_min a as y (by rw [hpop]; exact Multiset.mem_coe.mp hy)
    rw [hpop] at this
    simp only [fileObj.gt, decide_eq_false_iff_not]
    exact Int.not_lt.mpr this


/-! ## The record ordering -/

/-- The function `lexLt` is the lexicographic order of lists of bytes. -/
theorem lexLt_iff_lt (a b : List Byte) : lexLt a b = true ↔ a < b := by
  induction a generalizing b with
  | nil =>
    cases b with
    | nil => simp [lexLt]
    | cons y ys =>
      simp only [lexLt, true_iff]
      exact List.Lex.nil
  | cons x xs ih =>
    cases b with
    | nil => simp [lexLt]
    | cons y ys =>
      simp only [lexLt, Bool.or_eq_true, Bool.and_eq_true, decide_eq_true_eq, ih ys]
      constructor
      · rintro (h | ⟨rfl, h⟩)
        · exact List.Lex.rel h
        · exact List.Lex.cons h
      · intro h
        cases h with
        | rel h => exact Or.inl h
        | cons h => exact Or.inr ⟨rfl, h⟩

/-- C8. For records without a zero byte the record comparison is byte-wise lexicographic
comparison with bytes taken as unsigned values: on cursors holding the records `a` and `b`,
`operator<` holds iff `a` is lexicographically less than `b` and `operator>` holds iff `b` is
lexicographically less than `a`; the comparator of the in-memory sort (`strcmp(lhs, rhs) < 0`)
and the inversion test of `verifyOrder` (`strcmp(current, next) > 0`) decide the same order. -/
theorem record_comparison_is_lexicographic (a b : List Byte) (ha : NoZero a) (hb : NoZero b)
    (f g : fileObj) (hf : f._record = cstr a) (hg : g._record = cstr b) :
    (fileObj.lt f g = true ↔ lexLt a b = true) ∧
    (fileObj.gt f g = true ↔ lexLt b a = true) ∧
    (blockLess (cstr a) (cstr b) = true ↔ lexLt a b = true) ∧
    (strcmp (cstr a) (cstr b) > 0 ↔ lexLt b a = true) ∧
    (strcmp (cstr a) (cstr b) > 0 ↔ blockLess (cstr b) (cstr a) = true) ∧
    (lexLt a b = true ↔ a < b) := by
  have h1 := strcmp_cstr_neg_iff a b ha hb
  have h2 := strcmp_cstr_neg_iff b a hb ha
  have h3 := strcmp_swap (cstr a) (cstr b)
  have h4 : strcmp (cstr a) (cstr b) > 0 ↔ strcmp (cstr b) (cstr a) < 0 := by omega
  refine ⟨?_, ?_, ?_, ?_, ?_, lexLt_iff_lt a b⟩
  · simp only [fileObj.lt, hf, hg, decide_eq_true_eq]; exact h1
  · simp only [fileObj.gt, hf, hg, decide_eq_true_eq]; exact h4.trans h2
  · simp only [blockLess, decide_eq_true_eq]; exact h1
  · exact h4.trans h2
  · simp only [blockLess, decide_eq_true_eq]; exact h4

theorem record_comparison_is_lexicographic_witness :
    fileObj.lt (fileObj.new (encodeFile [[48, 57]]) 2 []) (fileObj.new (encodeFile [[49, 48]]) 2 [])
      = true ∧ lexLt [48, 57] [49, 48] = true := by
  have h := record_comparison_is_lexicographic [48, 57] [49, 48] (by decide) (by decide)
    (fileObj.new (encodeFile [[48, 57]]) 2 []) (fileObj.new (encodeFile [[49, 48]]) 2 [])
    (by decide) (by decide)
  exact ⟨h.1.mpr (by decide), by decide⟩

/-- C9, counterexample. The records `[0, 1]` and `[0, 2]` of width 2, read by cursors from
their run files, are different, yet neither cursor is less than the other under `operator<`:
none of `a < b`, `a = b`, `b < a` holds, although `[0, 1]` is lexicographically less. -/
theorem record_ordering_not_total :
    fileObj.lt (fileObj.new (encodeFile [[0, 1]]) 2 []) (fileObj.new (encodeFile [[0, 2]]) 2 [])
      = false ∧
    ([0, 1] : List Byte) ≠ [0, 2] ∧
    fileObj.lt (fileObj.new (encodeFile [[0, 2]]) 2 []) (fileObj.new (encodeFile [[0, 1]]) 2 [])
      = false ∧
    (fileObj.new (encodeFile [[0, 1]]) 2 []).item.take 2 = [0, 1] ∧
    (fileObj.new (encodeFile [[0, 2]]) 2 []).item.take 2 = [0, 2] ∧
    lexLt [0, 1] [0, 2] = true := by
  decide

/-- C9, amended. On records that contain no zero byte the record ordering is total: for two
such records `a` and `b`, held by cursors as `getNextRecord` stores them, exactly one of
`a < b`, `a = b`, `b < a` holds under `operator<`, and `operator<` coincides with byte-wise
lexicographic comparison over all bytes. -/
theorem record_ordering_total_of_noZero (a b : List Byte) (ha : NoZero a) (hb : NoZero b)
    (f g : fileObj) (hf : f._record = cstr a) (hg : g._record = cstr b) :
    ((fileObj.lt f g = true ∧ a ≠ b ∧ fileObj.lt g f = false) ∨
      (fileObj.lt f g = false ∧ a = b ∧ fileObj.lt g f = false) ∨
      (fileObj.lt f g = false ∧ a ≠ b ∧ fileObj.lt g f = true)) ∧
    (fileObj.lt f g = true ↔ lexLt a b = true) ∧
    (fileObj.lt g f = true ↔ lexLt b a = true) := by
  have h1 := strcmp_cstr_neg_iff a b ha hb
  have h2 := strcmp_cstr_neg_iff b a hb ha
  have h3 := strcmp_swap (cstr a) (cstr b)
  have h4 := strcmp_cstr_eq_zero_iff a b ha hb
  simp only [fileObj.lt, hf, hg, decide_eq_true_eq, decide_eq_false_iff_not]
  refine ⟨?_, h1, h2⟩
  rcases Int.lt_trichotomy (strcmp (cstr a) (cstr b)) 0 with h | h | h
  · exact Or.inl ⟨h, fun e => by have := h4.mpr e; omega, by omega⟩
  · exact Or.inr (Or.inl ⟨by omega, h4.mp h, by omega⟩)
  · exact Or.inr (Or.inr ⟨by omega, fun e => by have := h4.mpr e; omega, by omega⟩)

theorem record_ordering_total_of_noZero_witness :
    fileObj.lt (fileObj.new (encodeFile [[49, 48]]) 2 []) (fileObj.new (encodeFile [[48, 57]]) 2 [])
      = false ∧
    fileObj.lt (fileObj.new (encodeFile [[48, 57]]) 2 []) (fileObj.new (encodeFile [[49, 48]]) 2 [])
      = true := by
  have h := record_ordering_total_of_noZero [49, 48] [48, 57] (by decide) (by decide)
    (fileObj.new (encodeFile [[49, 48]]) 2 []) (fileObj.new (encodeFile [[48, 57]]) 2 [])
    (by decide) (by decide)
  exact ⟨by
    rcases h.1 with h' | h' | h'
    · exact absurd h'.1 (by decide)
    · exact h'.1
    · exact h'.1, h.2.2.mpr (by decide)⟩


/-! ## Exhaustion of a cursor -/

theorem fileObj_new_eq (content : List Byte) (recordSize : Nat) (mem : List Byte) :
    fileObj.new content recordSize mem =
      (fileObj.opened content recordSize mem).getNextRecord := rfl

theorem getline_eof_of_eof (s : IStream) (buf : List Byte) (n : Nat) (h : s.eofbit = true) :
    (s.getline buf n newline).1.eofbit = true := by
  simp [IStream.getline, IStream.good, h]

/-- C13. EXHAUSTED is terminal: for every cursor, whatever its file, once `fileEmpty()` is true
it is true after any further number of `getNextRecord()` calls; in particular this holds for
the cursor opened on any file content after any number of reads. -/
theorem fileEmpty_terminal (f : fileObj) (h : f.fileEmpty = true) (k : Nat) :
    (fileObj.getNextRecord^[k] f).fileEmpty = true ∧
    ∀ (content : List Byte) (recordSize : Nat) (mem : List Byte) (j : Nat),
      (fileObj.getNextRecord^[j] (fileObj.new content recordSize mem)).fileEmpty = true →
      (fileObj.getNextRecord^[j + k] (fileObj.new content recordSize mem)).fileEmpty = true := by
  have key : ∀ (k : Nat) (g : fileObj), g.fileEmpty = true →
      (fileObj.getNextRecord^[k] g).fileEmpty = true := by
    intro k
    induction k with
    | zero => intro g hg; exact hg
    | succ k ih =>
      intro g hg
      rw [Function.iterate_succ_apply]
      apply ih
      exact getline_eof_of_eof _ _ _ hg
  refine ⟨key k f h, ?_⟩
  intro content recordSize mem j hj
  rw [Nat.add_comm, Function.iterate_add_apply]
  exact key k _ hj

theorem fileEmpty_terminal_witness :
    (fileObj.new [49, 50, 10] 2 []).getNextRecord.fileEmpty = true ∧
    (fileObj.getNextRecord^[3] (fileObj.new [49, 50, 10] 2 []).getNextRecord).fileEmpty = true :=
  ⟨by decide, (fileEmpty_terminal (fileObj.new [49, 50, 10] 2 []).getNextRecord (by decide) 3).1⟩

/-- A read attempt that returns a record leaves it in the buffer. -/
theorem item_of_readResult (f : fileObj) (r : List Byte) (h : f.readResult = some r) :
    f.getNextRecord.item.take f._recordSize = r := by
  unfold fileObj.readResult at h
  split at h
  · rename_i hc
    simp only [Bool.and_eq_true, beq_iff_eq] at hc
    obtain ⟨hg, hlen⟩ := hc
    simp only [Option.some.injEq] at h
    rw [h] at hlen
    have hst : ((store f._record r).set f._recordSize 0).take f._recordSize = r := by
      rw [take_set_self, ← hlen]
      simp [store]
    simp only [fileObj.getNextRecord, fileObj.item, IStream.getline, hg, ↓reduceIte,
      Nat.add_sub_cancel]
    rcases hx : extract newline f._recordSize f._inFile.data with ⟨got, rest⟩
    rw [hx] at h
    simp only at h
    subst h
    cases rest with
    | nil => exact hst
    | cons c cs =>
      simp only
      split <;> exact hst
  · simp at h

/-- C11, counterexample. On the file `ab` (recordSize 2, the record not followed by a
delimiter) the constructor's read returns the record `ab`, which is in the buffer, and yet
`fileEmpty()` is true. On the file `abc\n` the read after the first returns no record and yet
`fileEmpty()` is false. -/
theorem fileEmpty_not_last_read :
    (fileObj.opened [97, 98] 2 []).readResult = some [97, 98] ∧
    (fileObj.new [97, 98] 2 []).item.take 2 = [97, 98] ∧
    (fileObj.new [97, 98] 2 []).fileEmpty = true ∧
    (fileObj.new [97, 98, 99, 10] 2 []).readResult = none ∧
    (fileObj.new [97, 98, 99, 10] 2 []).getNextRecord.fileEmpty = false := by
  decide


theorem recordSize_iterate_getNextRecord (k : Nat) (f : fileObj) :
    (fileObj.getNextRecord^[k] f)._recordSize = f._recordSize := by
  induction k generalizing f with
  | zero => rfl
  | succ k ih => rw [Function.iterate_succ_apply, ih]; rfl

/-- The stream of a cursor on a well-formed file before its read number `k`. -/
theorem inFile_iterate_opened (recordSize : Nat) (mem : List Byte) (recs : List (List Byte))
    (hwf : ∀ r ∈ recs, IsRecord recordSize r) (k : Nat) (hk : k ≤ recs.length) :
    (fileObj.getNextRecord^[k] (fileObj.opened (encodeFile recs) recordSize mem))._inFile =
      { data := encodeFile (recs.drop k), eofbit := false, failbit := false } := by
  induction k with
  | zero => rfl
  | succ k ih =>
    have hlt : k < recs.length := hk
    have hd : recs.drop k = recs[k] :: recs.drop (k + 1) := List.drop_eq_getElem_cons hlt
    have hr : IsRecord recordSize recs[k] := hwf _ (List.getElem_mem hlt)
    rw [Function.iterate_succ_apply']
    simp only [fileObj.getNextRecord, ih (by omega), hd, encodeFile,
      recordSize_iterate_getNextRecord]
    rw [show (fileObj.opened (encodeFile recs) recordSize mem)._recordSize = recordSize from rfl,
      getline_record recordSize _ _ _ hr]

/-- C11, amended. For every file in the shared format (records of `recordSize ≥ 1` bytes, each
followed by a delimiter) and every number `k` of advances, `fileEmpty()` is true if and only if
the most recent read attempt, the constructor's for `k = 0` and the latest `getNextRecord`
otherwise, returned no record; a read that returns a record leaves it in the buffer. -/
theorem fileEmpty_iff_last_read_of_wellFormed (recordSize : Nat) (hrs : 1 ≤ recordSize)
    (mem : List Byte) (recs : List (List Byte)) (hwf : ∀ r ∈ recs, IsRecord recordSize r)
    (k : Nat) :
    ((fileObj.getNextRecord^[k] (fileObj.new (encodeFile recs) recordSize mem)).fileEmpty = true
      ↔ (fileObj.getNextRecord^[k]
          (fileObj.opened (encodeFile recs) recordSize mem)).readResult = none) ∧
    (∀ r, (fileObj.getNextRecord^[k]
          (fileObj.opened (encodeFile recs) recordSize mem)).readResult = some r →
      (fileObj.getNextRecord^[k] (fileObj.new (encodeFile recs) recordSize mem)).item.take
        recordSize = r) := by
  have hnew : fileObj.getNextRecord^[k] (fileObj.new (encodeFile recs) recordSize mem) =
      (fileObj.getNextRecord^[k] (fileObj.opened (encodeFile recs) recordSize mem)).getNextRecord
      := by
    rw [fileObj_new_eq, ← Function.iterate_succ_apply, Function.iterate_succ_apply']
  rw [hnew]
  constructor
  · rcases Nat.lt_or_ge k recs.length with hlt | hge
    · -- a record is left: the read returns it
      have hs := inFile_iterate_opened recordSize mem recs hwf k (by omega)
      have hd : recs.drop k = recs[k] :: recs.drop (k + 1) := List.drop_eq_getElem_cons hlt
      have hr : IsRecord recordSize recs[k] := hwf _ (List.getElem_mem hlt)
      have hx := extract_record recs[k] (encodeFile (recs.drop (k + 1))) hr.2
      rw [hr.1] at hx
      have h1 : ((fileObj.getNextRecord^[k] (fileObj.opened (encodeFile recs) recordSize
          mem)).getNextRecord).fileEmpty = false := by
        simp only [fileObj.getNextRecord, fileObj.fileEmpty, hs, hd, encodeFile,
          recordSize_iterate_getNextRecord]
        rw [show (fileObj.opened (encodeFile recs) recordSize mem)._recordSize = recordSize
          from rfl, getline_record recordSize _ _ _ hr]
        rfl
      have h2 : (fileObj.getNextRecord^[k] (fileObj.opened (encodeFile recs) recordSize
          mem)).readResult = some recs[k] := by
        simp only [fileObj.readResult, hs, hd, encodeFile, recordSize_iterate_getNextRecord]
        rw [show (fileObj.opened (encodeFile recs) recordSize mem)._recordSize = recordSize
          from rfl, hx]
        simp [IStream.good, hr.1]
      rw [h1, h2]
      simp
    · -- no record is left
      have hs := inFile_iterate_opened recordSize mem recs hwf recs.length (le_refl _)
      rw [List.drop_length] at hs
      obtain ⟨j, rfl⟩ : ∃ j, k = recs.length + j := ⟨k - recs.length, by omega⟩
      rw [Nat.add_comm, Function.iterate_add_apply]
      generalize hg : fileObj.getNextRecord^[recs.length]
        (fileObj.opened (encodeFile recs) recordSize mem) = g at hs
      have hgr : g._recordSize = recordSize := by
        rw [← hg, recordSize_iterate_getNextRecord]; rfl
      have key : ∀ (j : Nat) (g : fileObj), g._recordSize = recordSize →
          (g._inFile = { data := encodeFile [], eofbit := false, failbit := false } ∨
            g._inFile.eofbit = true) →
          (fileObj.getNextRecord^[j] g).getNextRecord.fileEmpty = true ∧
          (fileObj.getNextRecord^[j] g).readResult = none := by
        intro j
        induction j with
        | zero =>
          intro g hgr hs
          rcases hs with hs | hs
          · constructor
            · simp [fileObj.getNextRecord, fileObj.fileEmpty, hs, encodeFile, getline_nil,
                IStream.eof]
            · cases hrs' : recordSize with
              | zero => omega
              | succ n =>
                simp [fileObj.readResult, hs, encodeFile, hgr, hrs', extract]
          · constructor
            · exact getline_eof_of_eof _ _ _ hs
            · simp [fileObj.readResult, IStream.good, hs]
        | succ j ih =>
          intro g hgr hs
          rw [Function.iterate_succ_apply]
          apply ih _ (by simpa [fileObj.getNextRecord] using hgr)
          right
          rcases hs with hs | hs
          · simp [fileObj.getNextRecord, hs, encodeFile, getline_nil]
          · exact getline_eof_of_eof _ _ _ hs
      obtain ⟨h1, h2⟩ := key j g hgr (Or.inl hs)
      rw [h1, h2]
      simp
  · intro r hr
    have := item_of_readResult _ r hr
    rwa [recordSize_iterate_getNextRecord] at this

theorem fileEmpty_iff_last_read_of_wellFormed_witness :
    (fileObj.new (encodeFile [[49, 50]]) 2 []).getNextRecord.fileEmpty = true ∧
    (fileObj.new (encodeFile [[49, 50]]) 2 []).readResult = none := by
  have h := (fileEmpty_iff_last_read_of_wellFormed 2 (by decide) [] [[49, 50]] (by decide) 1).1
  exact ⟨h.mpr (by decide), by decide⟩


/-! ## Streams on lines of any width up to `recordSize` -/

theorem extract_line (room : Nat) (l rest : List Byte) (hn : newline ∉ l)
    (hl : l.length ≤ room) :
    extract newline room (l ++ newline :: rest) = (l, newline :: rest) := by
  induction l generalizing room with
  | nil => cases room <;> simp [extract]
  | cons c cs ih =>
    have hc : c ≠ newline := fun e => hn (by simp [e])
    have hcs : newline ∉ cs := fun h => hn (List.mem_cons_of_mem _ h)
    obtain ⟨room, rfl⟩ : ∃ m, room = m + 1 := ⟨room - 1, by simp at hl; omega⟩
    simp [extract, hc, ih room hcs (by simpa using hl)]

theorem extract_all (room : Nat) (l : List Byte) (hn : newline ∉ l) (hl : l.length ≤ room) :
    extract newline room l = (l, []) := by
  induction l generalizing room with
  | nil => cases room <;> simp [extract]
  | cons c cs ih =>
    have hc : c ≠ newline := fun e => hn (by simp [e])
    have hcs : newline ∉ cs := fun h => hn (List.mem_cons_of_mem _ h)
    obtain ⟨room, rfl⟩ : ∃ m, room = m + 1 := ⟨room - 1, by simp at hl; omega⟩
    simp [extract, hc, ih room hcs (by simpa using hl)]

/-- Reading a delimited line of at most `recordSize` bytes from a good stream. -/
theorem getline_line (recordSize : Nat) (buf l rest : List Byte) (hl : IsLine recordSize l) :
    IStream.getline { data := l ++ newline :: rest, eofbit := false, failbit := false } buf
      (recordSize + 1) newline =
    ({ data := rest, eofbit := false, failbit := false }, store buf l) := by
  simp [IStream.getline, IStream.good, extract_line recordSize l rest hl.2 hl.1]

/-- Reading the bytes left at the end of a file, none of them a delimiter, sets `eofbit`. -/
theorem getline_tail (recordSize : Nat) (buf tail : List Byte) (ht : IsLine recordSize tail) :
    IStream.getline { data := tail, eofbit := false, failbit := false } buf
      (recordSize + 1) newline =
    ({ data := [], eofbit := true, failbit := tail.isEmpty }, store buf tail) := by
  simp [IStream.getline, IStream.good, extract_all recordSize tail ht.2 ht.1]

theorem count_newline_encodeFile (lines : List (List Byte)) (tail : List Byte)
    (hl : ∀ l ∈ lines, newline ∉ l) (ht : newline ∉ tail) :
    (encodeFile lines ++ tail).count newline = lines.length := by
  induction lines with
  | nil => simpa [encodeFile] using List.count_eq_zero_of_not_mem ht
  | cons l lines ih =>
    have h1 : l.count newline = 0 := List.count_eq_zero_of_not_mem (hl l (by simp))
    simp [encodeFile, List.count_append, h1, List.count_cons,
      ih (fun x hx => hl x (List.mem_cons_of_mem _ hx))]

/-! ## The verifier's count on any file -/

theorem countItemsLoop_lines (recordSize : Nat) (lines : List (List Byte)) (tail : List Byte)
    (hl : ∀ l ∈ lines, IsLine recordSize l) (ht : IsLine recordSize tail) (fuel : Nat)
    (hfuel : lines.length + 2 ≤ fuel) (record : List Byte) (count : Nat) :
    countItemsLoop recordSize fuel
      { data := encodeFile lines ++ tail, eofbit := false, failbit := false } record count =
      some (count + lines.length) := by
  induction lines generalizing fuel record count with
  | nil =>
    obtain ⟨fuel, rfl⟩ : ∃ f, fuel = f + 2 := ⟨fuel - 2, by simp at hfuel; omega⟩
    simp [countItemsLoop, encodeFile, getline_tail recordSize _ tail ht, IStream.eof]
  | cons l lines ih =>
    obtain ⟨fuel, rfl⟩ : ∃ f, fuel = f + 1 := ⟨fuel - 1, by omega⟩
    have hl0 : IsLine recordSize l := hl l (by simp)
    rw [countItemsLoop]
    simp only [encodeFile, List.append_assoc, List.cons_append,
      getline_line recordSize _ l _ hl0, IStream.eof, Bool.false_eq_true, ↓reduceIte]
    rw [ih (fun x hx => hl x (List.mem_cons_of_mem _ hx)) fuel (by simp at hfuel; omega)]
    simp [Nat.add_assoc, Nat.add_comm 1]

/-- Once `failbit` is set without `eofbit`, the loop of `countItems` never ends. -/
theorem countItemsLoop_stuck (recordSize : Nat) :
    ∀ (fuel : Nat) (s : IStream) (record : List Byte) (count : Nat),
      s.eofbit = false → s.failbit = true →
      countItemsLoop recordSize fuel s record count = none := by
  intro fuel
  induction fuel with
  | zero => intro s record count _ _; rfl
  | succ fuel ih =>
    intro s record count he hf
    rw [countItemsLoop]
    have hg : s.getline record (recordSize + 1) newline =
        ({ s with failbit := true }, store record []) := by
      simp [IStream.getline, IStream.good, he, hf]
    simp only [IStream.eof, he, Bool.false_eq_true, ↓reduceIte, hg]
    exact ih _ _ _ rfl rfl

/-- C15, counterexample. On the file `abc\n` with recordSize 2 the first `getline` stops after
`ab` with `failbit` set and `eofbit` clear; every later `getline` fails at once, `eof()` stays
false, and `countItems` returns for no amount of fuel, although the file holds one
newline-terminated record. -/
theorem countItems_long_line_diverges :
    (¬ ∃ fuel n, countItems 2 [] fuel [97, 98, 99, 10] = some n) ∧
    ([97, 98, 99, 10] : List Byte).count newline = 1 ∧
    ((IStream.ofFile [97, 98, 99, 10]).getline (newBuffer [] 3) 3 newline).1
      = { data := [99, 10], eofbit := false, failbit := true } := by
  refine ⟨?_, by decide, by decide⟩
  rintro ⟨fuel, n, h⟩
  cases fuel with
  | zero => simp [countItems, countItemsLoop] at h
  | succ fuel =>
    rw [countItems, countItemsLoop] at h
    have hg : ((IStream.ofFile [97, 98, 99, 10]).getline (newBuffer [] (2 + 1)) (2 + 1)
        newline).1 = { data := [99, 10], eofbit := false, failbit := true } := by decide
    simp only [IStream.eof, IStream.ofFile, Bool.false_eq_true, ↓reduceIte] at h
    rw [countItemsLoop_stuck 2 fuel _ _ _ (by rw [← IStream.ofFile, hg])
      (by rw [← IStream.ofFile, hg])] at h
    exact Option.noConfusion h

/-- C15, amended. For every file content in which no line has more than `recordSize` bytes
before its newline or before the end of the file, whatever the number of bytes between
consecutive newlines (fewer than or equal to `recordSize`), `countItems` scans to the end of the
file and returns the number of newline-terminated records in it. The content is given as its
lines and the bytes after the last newline. -/
theorem countItems_counts_newlines (recordSize : Nat) (mem : List Byte)
    (lines : List (List Byte)) (tail : List Byte) (hl : ∀ l ∈ lines, IsLine recordSize l)
    (ht : IsLine recordSize tail) (fuel : Nat) (hfuel : lines.length + 2 ≤ fuel) :
    countItems recordSize mem fuel (encodeFile lines ++ tail) = some lines.length ∧
    countItems recordSize mem fuel (encodeFile lines ++ tail) =
      some ((encodeFile lines ++ tail).count newline) := by
  have h : countItems recordSize mem fuel (encodeFile lines ++ tail) = some lines.length := by
    unfold countItems IStream.ofFile
    rw [countItemsLoop_lines recordSize lines tail hl ht fuel hfuel]
    simp
  exact ⟨h, by rw [h, count_newline_encodeFile lines tail (fun l h' => (hl l h').2) ht.2]⟩

theorem countItems_counts_newlines_witness :
    countItems 3 [] 5 (encodeFile [[97], [], [97, 98, 99]] ++ [100, 101]) = some 3 ∧
    countItems 3 [] 5 (encodeFile [[97], [], [97, 98, 99]] ++ [100, 101]) =
      some ((encodeFile [[97], [], [97, 98, 99]] ++ [100, 101]).count newline) :=
  countItems_counts_newlines 3 [] [[97], [], [97, 98, 99]] [100, 101] (by decide) (by decide)
    5 (by decide)


/-! ## The verifier's count on well-formed files -/

/-- The loop of `countItems` on a good stream positioned at `recs` adds their number to the
count. -/
theorem countItemsLoop_encodeFile (recordSize : Nat) (recs : List (List Byte))
    (hwf : ∀ r ∈ recs, IsRecord recordSize r) (fuel : Nat) (hfuel : recs.length + 2 ≤ fuel)
    (record : List Byte) (count : Nat) :
    countItemsLoop recordSize fuel { data := encodeFile recs, eofbit := false, failbit := false }
      record count = some (count + recs.length) := by
  induction recs generalizing fuel record count with
  | nil =>
    obtain ⟨fuel, rfl⟩ : ∃ f, fuel = f + 2 := ⟨fuel - 2, by simp at hfuel; omega⟩
    simp [countItemsLoop, encodeFile, getline_nil, IStream.eof]
  | cons r recs ih =>
    obtain ⟨fuel, rfl⟩ : ∃ f, fuel = f + 1 := ⟨fuel - 1, by omega⟩
    have hr : IsRecord recordSize r := hwf r (by simp)
    rw [countItemsLoop]
    simp only [encodeFile, getline_record recordSize _ r _ hr, IStream.eof, Bool.false_eq_true,
      ↓reduceIte]
    rw [ih (fun x hx => hwf x (List.mem_cons_of_mem _ hx)) fuel (by simp at hfuel; omega)]
    simp [Nat.add_assoc, Nat.add_comm 1]

theorem countItems_encodeFile (recordSize : Nat) (mem : List Byte) (recs : List (List Byte))
    (hwf : ∀ r ∈ recs, IsRecord recordSize r) (fuel : Nat) (hfuel : recs.length + 2 ≤ fuel) :
    countItems recordSize mem fuel (encodeFile recs) = some recs.length := by
  unfold countItems IStream.ofFile
  rw [countItemsLoop_encodeFile recordSize recs hwf fuel hfuel]
  simp

/-! ## The driver -/

theorem digit_ne_newline (x : Nat) : (Fin.ofNat (48 + x % 10) : Byte) ≠ newline := by
  intro h
  have := congrArg Fin.val h
  simp only [Fin.ofNat, newline] at this
  have h10 : x % 10 < 10 := Nat.mod_lt _ (by decide)
  have : (48 + x % 10) % 256 = 10 := this
  omega

theorem randomizeBlock_inv (blockSize itemSize : Nat) (rand : Nat → Nat) (k : Nat)
    (theBlock : List Byte) (hn : newline ∉ theBlock) :
    (randomizeBlock blockSize itemSize rand k theBlock).length = theBlock.length ∧
    newline ∉ randomizeBlock blockSize itemSize rand k theBlock := by
  unfold randomizeBlock
  induction itemSize generalizing theBlock with
  | zero => exact ⟨rfl, hn⟩
  | succ m ih =>
    rw [List.range_succ, List.foldl_append]
    obtain ⟨h1, h2⟩ := ih theBlock hn
    simp only [List.foldl_cons, List.foldl_nil, List.length_set]
    refine ⟨h1, fun hmem => ?_⟩
    rcases List.mem_or_eq_of_mem_set hmem with h | h
    · exact h2 h
    · exact digit_ne_newline _ h.symm

/-- The file `generateInputFile` writes is in the shared file format. -/
theorem generateInputFileLoop_wf (blockSize itemSize : Nat) (rand : Nat → Nat) :
    ∀ (n k : Nat) (theBlock : List Byte), theBlock.length = blockSize + 1 →
      newline ∉ theBlock →
      ∃ recs, generateInputFileLoop blockSize itemSize rand n k theBlock = encodeFile recs ∧
        recs.length = n ∧ ∀ r ∈ recs, IsRecord blockSize r := by
  intro n
  induction n with
  | zero => intro k theBlock _ _; exact ⟨[], rfl, rfl, by simp⟩
  | succ n ih =>
    intro k theBlock hlen hn
    obtain ⟨h1, h2⟩ := randomizeBlock_inv blockSize itemSize rand k theBlock hn
    obtain ⟨recs, e, hl, hwf⟩ := ih (k + itemSize) _ (h1.trans hlen) h2
    refine ⟨(randomizeBlock blockSize itemSize rand k theBlock).take blockSize :: recs, ?_, ?_,
      ?_⟩
    · rw [generateInputFileLoop, e]; rfl
    · simp [hl]
    · intro r hr
      rcases List.mem_cons.mp hr with rfl | hr
      · exact ⟨by simp [h1, hlen], fun hmem => h2 (List.mem_of_mem_take hmem)⟩
      · exact hwf r hr

theorem generateInputFile_wf (blockSize itemSize n : Nat) (rand : Nat → Nat) :
    ∃ recs, generateInputFile blockSize itemSize n rand = encodeFile recs ∧
      recs.length = n ∧ ∀ r ∈ recs, IsRecord blockSize r := by
  apply generateInputFileLoop_wf
  · simp
  · intro h
    rcases List.mem_append.mp h with h | h
    · have := List.eq_of_mem_replicate h
      exact absurd this (by decide)
    · simp at h
      exact absurd h (by decide)

/-- C18, failing input. With record size 1, 3 records and 2 bytes of memory the driver accepts
the configuration and passes `recordsPerBlock = 3`: a block of 3 bytes for a budget of 2. With
record size 1024, 15000000 records and the whole of `MAX_MEMORY` as budget it passes
`recordsPerBlock = 15000000`: a block of 15360000000 bytes of records, above `MAX_MEMORY`. -/
theorem driver_block_exceeds_budget :
    interactiveFileSortTest 1 3 2 = some
      { recordSize := 1, totalRecords := 3, inputFileSize := 3, minReqMem := 1,
        maxMemory := 2, totalSubfiles := 1, recordsPerBlock := 3 } ∧
    (2 : Nat) < 3 * 1 ∧
    interactiveFileSortTest 1024 15000000 8000000000 = some
      { recordSize := 1024, totalRecords := 15000000, inputFileSize := 15360000000,
        minReqMem := 61440000, maxMemory := 8000000000, totalSubfiles := 1,
        recordsPerBlock := 15000000 } ∧
    MAX_MEMORY < 15000000 * 1024 := by
  decide


/-! ## Run generation on a file whose last record has no delimiter -/

theorem length_store_le (recordSize : Nat) (buf got : List Byte)
    (hb : buf.length = recordSize + 1) (hg : got.length ≤ recordSize) :
    (store buf got).length = recordSize + 1 := by
  simp [store]
  omega

/-- The inner loop on a good stream positioned at the records `recs` followed by the bytes
`tail` that no delimiter ends: it stores `min (recordsPerBlock - k) recs.length` records in the
rows from `k` on. The stream stays good if the block was filled and has `eofbit` set
otherwise: the read that meets the end of the file counts no record, even when it extracted
`tail`. -/
theorem readBlock_spec_tail (recordSize recordsPerBlock : Nat) (tail : List Byte)
    (ht : IsLine recordSize tail) :
    ∀ (fuel : Nat) (recs blk : List (List Byte)) (k : Nat),
      (∀ r ∈ recs, IsRecord recordSize r) → blk.length = recordsPerBlock →
      BlockOk recordSize blk → k ≤ recordsPerBlock → recordsPerBlock - k + 1 ≤ fuel →
      ∃ s' blk', readBlock recordSize recordsPerBlock fuel
          { data := encodeFile recs ++ tail, eofbit := false, failbit := false } blk k =
          (s', blk', k + min (recordsPerBlock - k) recs.length) ∧
        (recordsPerBlock - k ≤ recs.length →
          s' = { data := encodeFile (recs.drop (recordsPerBlock - k)) ++ tail,
                 eofbit := false, failbit := false }) ∧
        (recs.length < recordsPerBlock - k → s'.eofbit = true) ∧
        blk'.length = recordsPerBlock ∧ BlockOk recordSize blk' ∧
        blk'.take (k + min (recordsPerBlock - k) recs.length) =
          blk.take k ++ (recs.take (min (recordsPerBlock - k) recs.length)).map cstr := by
  intro fuel
  induction fuel with
  | zero => intro recs blk k _ _ _ _ hf; omega
  | succ fuel ih =>
    intro recs blk k hwf hlen hok hk hf
    by_cases hkB : k < recordsPerBlock
    · have hrow : (blk.getD k []).length = recordSize + 1 :=
        hok _ (getD_mem blk k [] (by omega))
      cases recs with
      | nil =>
        refine ⟨{ data := [], eofbit := true, failbit := tail.isEmpty },
          blk.set k (store (blk.getD k []) tail), ?_, ?_, fun _ => rfl, by simpa using hlen,
          ?_, ?_⟩
        · simp only [readBlock, IStream.good, encodeFile, List.nil_append,
            getline_tail recordSize _ tail ht]
          simp [hkB, readBlock_not_good, IStream.good]
        · intro h; simp at h; omega
        · exact blockOk_set hok k _ (length_store_le recordSize _ tail hrow ht.1)
        · simp [take_set_self]
      | cons r recs' =>
        have hr : IsRecord recordSize r := hwf r (by simp)
        have hwf' : ∀ x ∈ recs', IsRecord recordSize x :=
          fun y hy => hwf y (List.mem_cons_of_mem _ hy)
        have hst := store_record recordSize (blk.getD k []) r hrow hr.1
        obtain ⟨s', blk', h1, hgood, heof, h2, h3, h4⟩ := ih recs' (blk.set k (cstr r)) (k + 1)
          hwf' (by simpa using hlen) (blockOk_set hok k _ (by simp [cstr, hr.1])) (by omega)
          (by omega)
        have e1 : recordsPerBlock - k = (recordsPerBlock - (k + 1)) + 1 := by omega
        have e2 : min (recordsPerBlock - k) (recs'.length + 1)
            = min (recordsPerBlock - (k + 1)) recs'.length + 1 := by omega
        refine ⟨s', blk', ?_, ?_, ?_, h2, h3, ?_⟩
        · simp only [readBlock, IStream.good, encodeFile, List.append_assoc, List.cons_append,
            getline_record recordSize _ r _ hr, hst]
          simp only [Bool.not_false, Bool.and_self, hkB, decide_True, ↓reduceIte]
          rw [h1]
          simp only [List.length_cons, e2]
          simp [Nat.add_assoc, Nat.add_comm 1]
        · intro hle
          rw [hgood (by simp at hle; omega), e1]
          simp
        · intro hlt
          exact heof (by simp at hlt; omega)
        · simp only [List.length_cons, e2]
          rw [show k + (min (recordsPerBlock - (k + 1)) recs'.length + 1)
            = k + 1 + min (recordsPerBlock - (k + 1)) recs'.length by omega, h4,
            take_succ_set blk k _ (by omega)]
          simp
    · have hk' : k = recordsPerBlock := by omega
      subst hk'
      exact ⟨{ data := encodeFile recs ++ tail, eofbit := false, failbit := false }, blk,
        by simp [readBlock], fun _ => by simp, fun h => by simp at h, hlen, hok, by simp⟩

/-! ## Files on disk -/

theorem writeAll_writable (files : List (String × List Byte)) (d : Disk) :
    (d.writeAll files).writable = d.writable := by
  induction files generalizing d with
  | nil => rfl
  | cons f files ih =>
    rw [Disk.writeAll, List.foldl_cons]
    exact ih (d.write f.1 f.2)

/-- Writing files leaves every other path as it was. -/
theorem writeAll_files_of_not_mem (files : List (String × List Byte)) (d : Disk) (q : String)
    (hq : q ∉ files.map Prod.fst) : (d.writeAll files).files q = d.files q := by
  induction files generalizing d with
  | nil => rfl
  | cons f files ih =>
    simp only [List.map_cons, List.mem_cons, not_or] at hq
    rw [Disk.writeAll, List.foldl_cons]
    have := ih (d.write f.1 f.2) hq.2
    rw [Disk.writeAll] at this
    rw [this]
    simp [Disk.write, hq.1]

/-- Files written to pairwise distinct paths are all on disk afterwards. -/
theorem writeAll_files_of_mem (files : List (String × List Byte)) (d : Disk)
    (hnd : (files.map Prod.fst).Nodup) (p : String) (c : List Byte) (hp : (p, c) ∈ files) :
    (d.writeAll files).files p = some c := by
  induction files generalizing d with
  | nil => simp at hp
  | cons f files ih =>
    simp only [List.map_cons, List.nodup_cons] at hnd
    rw [Disk.writeAll, List.foldl_cons]
    rcases List.mem_cons.mp hp with h | h
    · have h1 : f.1 = p := by rw [← h]
      have h2 : f.2 = c := by rw [← h]
      have := writeAll_files_of_not_mem files (d.write f.1 f.2) p (by rw [← h1]; exact hnd.1)
      rw [Disk.writeAll] at this
      rw [this]
      simp [Disk.write, h1, h2]
    · have := ih (d.write f.1 f.2) hnd.2 h
      rw [Disk.writeAll] at this
      exact this

theorem removeAll_writable (paths : List String) (d : Disk) :
    (paths.foldl Disk.remove d).writable = d.writable := by
  induction paths generalizing d with
  | nil => rfl
  | cons p paths ih =>
    rw [List.foldl_cons]
    exact ih (d.remove p)

/-- After the run files are removed, no file is left at their paths and every other path is
as it was. -/
theorem removeAll_files (paths : List String) (d : Disk) (q : String) :
    (paths.foldl Disk.remove d).files q = if q ∈ paths then none else d.files q := by
  induction paths generalizing d with
  | nil => simp
  | cons p paths ih =>
    rw [List.foldl_cons, ih]
    by_cases h1 : q ∈ paths
    · simp [h1]
    · by_cases h2 : q = p
      · simp [h1, h2, Disk.remove]
      · simp [h1, h2, Disk.remove]

/-! ## Run-file names -/

theorem digitChar_toNat (k : Nat) (h : k < 10) : (Nat.digitChar k).toNat - 48 = k := by
  interval_cases k <;> rfl

/-- Reading the decimal digits `toDigitsCore` produces gives the number back. -/
theorem foldl_toDigitsCore (fuel : Nat) : ∀ (n : Nat) (ds : List Char), n < fuel →
    (Nat.toDigitsCore 10 fuel n ds).foldl (fun a c => 10 * a + (c.toNat - 48)) 0 =
      ds.foldl (fun a c => 10 * a + (c.toNat - 48)) n := by
  induction fuel with
  | zero => intro n ds h; omega
  | succ fuel ih =>
    intro n ds h
    rw [Nat.toDigitsCore]
    have hd := digitChar_toNat (n % 10) (Nat.mod_lt _ (by decide))
    split
    · rename_i h0
      have hn : n % 10 = n := by omega
      rw [hn] at hd
      simp only [List.foldl_cons, Nat.mul_zero, Nat.zero_add, hn, hd]
    · rename_i h0
      rw [ih (n / 10) _ (by omega)]
      simp only [List.foldl_cons, hd]
      congr 1
      omega

/-- The function `to_string` is injective on indices. -/
theorem repr_data_inj (i j : Nat) (h : (Nat.repr i).data = (Nat.repr j).data) : i = j := by
  have hi := foldl_toDigitsCore (i + 1) i [] (by omega)
  have hj := foldl_toDigitsCore (j + 1) j [] (by omega)
  simp only [List.foldl_nil] at hi hj
  have e : ∀ n, (Nat.repr n).data = Nat.toDigitsCore 10 (n + 1) n [] := fun n => rfl
  rw [e, e] at h
  rw [← hi, ← hj, h]

/-- Run files with different indices have different names. -/
theorem subFileName_inj (filePath : String) (i j : Nat)
    (h : subFileName filePath i = subFileName filePath j) : i = j := by
  have := congrArg String.data h
  simp only [subFileName, String.data_append] at this
  exact repr_data_inj i j (List.append_cancel_left (List.append_cancel_right this))

theorem subFileName_injective (filePath : String) :
    Function.Injective (subFileName filePath) :=
  fun i j h => subFileName_inj filePath i j h

/-- A file name that does not begin with an underscore is the name of no run file. -/
theorem subFileName_ne (filePath name : String) (i : Nat)
    (hn : name.data.head? ≠ some '_') : subFileName filePath i ≠ filePath ++ name := by
  intro h
  have := congrArg String.data h
  simp only [subFileName, String.data_append, List.append_assoc] at this
  have h1 := List.append_cancel_left this
  apply hn
  rw [← h1]
  rfl

/-- On a disk where every path can be written, an input name that does not begin with an
underscore leaves the run-file paths free. -/
theorem subFilePathsOk_of_head (disk : Disk) (inputName path : String)
    (hw : ∀ p, disk.writable p = true) (hin : inputName.data.head? ≠ some '_') :
    SubFilePathsOk disk inputName path :=
  fun i => ⟨hw _, subFileName_ne path inputName i hin⟩

/-- On a disk where every path can be written, an output name that does not begin with an
underscore and differs from the input name leaves the output path free. -/
theorem outFilePathOk_of_head (disk : Disk) (inputName outputName path : String)
    (hw : ∀ p, disk.writable p = true) (hout : outputName.data.head? ≠ some '_')
    (hne : outputName ≠ inputName) : OutFilePathOk disk inputName outputName path := by
  refine ⟨hw _, fun h => hne ?_, fun i => subFileName_ne path outputName i hout⟩
  have := congrArg String.data h
  simp only [String.data_append] at this
  exact String.ext (List.append_cancel_left this)

/-! ## Run generation on the disk -/

/-- The outer loop of `createSubfiles` from a stream positioned at the records `recs` followed
by the bytes `tail` that no delimiter ends (good, or with `eofbit` set and no record left),
when every run-file path can be written and none is the input path: with enough fuel it
returns, having written one run per block of `recordsPerBlock` records to the disk and counted
the records `recs`; the bytes `tail` are in no run. -/
theorem createSubfilesLoop_spec_tail (sort : List (List Byte) → List (List Byte))
    (hsort : ∀ l, (sort l).Perm l) (tail : List Byte) :
    ∀ (n : Nat) (recs : List (List Byte)) (fuel : Nat) (fs : fileSort) (j : Nat),
      recs.length = n → (∀ r ∈ recs, IsRecord fs._recordSize r) → IsLine fs._recordSize tail →
      1 ≤ fs._recordsPerBlock →
      (fs._inFile = { data := encodeFile recs ++ tail, eofbit := false, failbit := false } ∨
        (fs._inFile.eof = true ∧ recs = [])) →
      fs._theBlock.length = fs._recordsPerBlock → BlockOk fs._recordSize fs._theBlock →
      (∀ i, fs.disk.writable (subFileName fs._filePath i) = true ∧
        subFileName fs._filePath i ≠ fs._inFileName) →
      n + 2 ≤ fuel →
      ∃ s' blk', createSubfilesLoop sort fuel fs j = .returned
        { fs with
          _inFile := s'
          _theBlock := blk'
          _totalItemsExtracted := fs._totalItemsExtracted + n
          _subFilePaths := fs._subFilePaths ++
            (List.range (numRuns fs._recordsPerBlock n)).map
              (fun i => subFileName fs._filePath (j + i))
          disk := fs.disk.writeAll
            ((List.range (numRuns fs._recordsPerBlock n)).map
              (fun i => (subFileName fs._filePath (j + i), runContent sort fs._recordSize
                ((recs.drop (i * fs._recordsPerBlock)).take fs._recordsPerBlock)))) } := by
  intro n
  induction n using Nat.strong_induction_on with
  | _ n ih =>
    intro recs fuel fs j hn hwf ht hB hs hlen hok hnames hfuel
    obtain ⟨fuel, rfl⟩ : ∃ f, fuel = f + 1 := ⟨fuel - 1, by omega⟩
    rcases hs with hs | ⟨hs, hnil⟩
    · -- the stream is good: one more block is read
      have heof : fs._inFile.eof = false := by rw [hs]; rfl
      obtain ⟨s1, blk', h1, hgood, heofbit, h2, h3, h4⟩ := readBlock_spec_tail fs._recordSize
        fs._recordsPerBlock tail ht (fs._recordsPerBlock + 1) recs fs._theBlock 0 hwf hlen hok
        (by omega) (by omega)
      rw [← hs] at h1
      simp only [Nat.sub_zero, Nat.zero_add, List.take_zero, List.nil_append] at h1 h4
      simp only [Nat.sub_zero] at hgood heofbit
      rcases Nat.eq_zero_or_pos n with hn0 | hnpos
      · -- no record left: the read meets the end of the file and the loop ends
        subst hn0
        have hrecs : recs = [] := List.eq_nil_of_length_eq_zero hn
        subst hrecs
        obtain ⟨fuel, rfl⟩ : ∃ f, fuel = f + 1 := ⟨fuel - 1, by omega⟩
        have hs1 : s1.eofbit = true := heofbit (by simpa using hB)
        simp only [List.length_nil, Nat.min_zero] at h1
        refine ⟨s1, blk', ?_⟩
        rw [createSubfilesLoop]
        simp only [heof, h1, numRuns_zero]
        simp [createSubfilesLoop, IStream.eof, hs1, Disk.writeAll]
      · -- a block of `min recordsPerBlock n` records
        have hm : 0 < min fs._recordsPerBlock recs.length := by omega
        have hsortlen : (sort (blk'.take (min fs._recordsPerBlock recs.length))).length
            = min fs._recordsPerBlock recs.length := by
          rw [(hsort _).length_eq, h4]; simp
        have hdrop : ∀ r ∈ recs.drop fs._recordsPerBlock, IsRecord fs._recordSize r :=
          fun r hr => hwf r (List.mem_of_mem_drop hr)
        have hblk : BlockOk fs._recordSize
            (sort (blk'.take (min fs._recordsPerBlock recs.length)) ++
              blk'.drop (min fs._recordsPerBlock recs.length)) :=
          blockOk_append
            (blockOk_of_perm (hsort _) (fun row hrow => h3 row (List.mem_of_mem_take hrow)))
            (fun row hrow => h3 row (List.mem_of_mem_drop hrow))
        have hblklen : (sort (blk'.take (min fs._recordsPerBlock recs.length)) ++
              blk'.drop (min fs._recordsPerBlock recs.length)).length = fs._recordsPerBlock := by
          rw [List.length_append, hsortlen, List.length_drop, h2]; omega
        obtain ⟨s'', blk'', hrec⟩ := ih (n - fs._recordsPerBlock) (by omega)
          (recs.drop fs._recordsPerBlock) fuel
          { fs with
            _inFile := s1
            _theBlock := sort (blk'.take (min fs._recordsPerBlock recs.length)) ++
              blk'.drop (min fs._recordsPerBlock recs.length)
            _totalItemsExtracted :=
              fs._totalItemsExtracted + min fs._recordsPerBlock recs.length
            _subFilePaths := fs._subFilePaths ++ [subFileName fs._filePath j]
            disk := fs.disk.write (subFileName fs._filePath j)
              (writeRecords fs._recordSize
                ((sort (blk'.take (min fs._recordsPerBlock recs.length)) ++
                  blk'.drop (min fs._recordsPerBlock recs.length)).take
                    (min fs._recordsPerBlock recs.length))) }
          (j + 1) (by simp [hn]) hdrop ht hB
          (by
            by_cases hle : fs._recordsPerBlock ≤ recs.length
            · left; exact hgood hle
            · right
              exact ⟨heofbit (by omega), List.drop_eq_nil_of_le (by omega)⟩)
          hblklen hblk hnames (by omega)
        refine ⟨s'', blk'', ?_⟩
        rw [createSubfilesLoop]
        simp only [heof, h1, hm, gt_iff_lt, ↓reduceIte, Bool.false_eq_true, (hnames j).1,
          (hnames j).2, Bool.true_eq_false]
        rw [hrec]
        congr 1
        have htake : (sort (blk'.take (min fs._recordsPerBlock recs.length)) ++
              blk'.drop (min fs._recordsPerBlock recs.length)).take
                (min fs._recordsPerBlock recs.length)
            = sort ((recs.take fs._recordsPerBlock).map cstr) := by
          rw [List.take_left' hsortlen, h4]
          congr 2
          rw [List.take_eq_take]
          omega
        have hmin : min fs._recordsPerBlock recs.length + (n - fs._recordsPerBlock) = n := by
          omega
        simp only [htake, numRuns_step fs._recordsPerBlock n hB hnpos, List.range_succ_eq_map,
          List.map_cons, List.map_map, List.append_assoc, List.singleton_append, Nat.add_assoc,
          hmin, Nat.zero_mul, List.drop_zero, Nat.add_zero, runContent, Disk.writeAll,
          List.foldl_cons]
        congr 4
        · funext i
          simp [Nat.add_comm 1, Nat.add_assoc]
        · funext i
          simp [runContent, Nat.succ_mul, Nat.add_comm]
    · subst hnil
      simp at hn
      subst hn
      exact ⟨fs._inFile, fs._theBlock, by
        rw [createSubfilesLoop_eof sort fuel fs j hs]; simp [numRuns_zero, Disk.writeAll]⟩

/-- When `createSubfiles` returns, its input stream is at end of file. -/
theorem createSubfilesLoop_some_eof (sort : List (List Byte) → List (List Byte)) :
    ∀ (fuel : Nat) (fs : fileSort) (j : Nat) (fs' : fileSort),
      createSubfilesLoop sort fuel fs j = .returned fs' → fs'._inFile.eof = true := by
  intro fuel
  induction fuel with
  | zero => intro fs j fs' h; simp [createSubfilesLoop] at h
  | succ fuel ih =>
    intro fs j fs' h
    rw [createSubfilesLoop] at h
    split at h
    · rename_i he
      simp only [Outcome.returned.injEq] at h
      rw [← h]; exact he
    · simp only at h
      split at h
      · split at h
        · exact Outcome.noConfusion h
        · split at h
          · exact Outcome.noConfusion h
          · exact ih _ _ _ h
      · exact ih _ _ _ h

/-- The state `createSubfiles` returns on the records `recs` followed by the bytes `tail` that
no delimiter ends, when the run-file paths are free: the runs of the records are on the
disk. -/
theorem createSubfiles_spec_tail (sort : List (List Byte) → List (List Byte))
    (hsort : ∀ l, (sort l).Perm l) (recordsPerBlock recordSize : Nat)
    (inputName outputName path : String) (mem : List Byte) (disk : Disk)
    (recs : List (List Byte)) (tail : List Byte) (hB : 1 ≤ recordsPerBlock)
    (hwf : ∀ r ∈ recs, IsRecord recordSize r) (ht : IsLine recordSize tail)
    (hsub : SubFilePathsOk disk inputName path) (fuel : Nat)
    (hfuel : recs.length + 2 ≤ fuel) :
    ∃ s' blk', createSubfiles sort fuel
        (fileSort.init recordsPerBlock recordSize inputName outputName path mem disk
          (encodeFile recs ++ tail)) = .returned
      { fileSort.init recordsPerBlock recordSize inputName outputName path mem disk
          (encodeFile recs ++ tail) with
        _inFile := s'
        _theBlock := blk'
        _totalItemsExtracted := recs.length
        _subFilePaths := (List.range (numRuns recordsPerBlock recs.length)).map
          (fun i => subFileName path i)
        disk := diskWithRuns sort recordsPerBlock path disk recs } ∧
      s'.eof = true := by
  obtain ⟨s', blk', h⟩ := createSubfilesLoop_spec_tail sort hsort tail recs.length recs fuel
    (fileSort.init recordsPerBlock recordSize inputName outputName path mem disk
      (encodeFile recs ++ tail)) 0
    rfl hwf ht hB (Or.inl rfl) (by simp [fileSort.init, initBlock])
    (by
      intro row hrow
      simp only [fileSort.init, initBlock] at hrow
      rw [List.eq_of_mem_replicate hrow, length_newBuffer]
      rfl)
    hsub hfuel
  have hruns : (List.range (numRuns recordsPerBlock recs.length)).map
      (fun i => (subFileName path (0 + i), runContent sort recordSize
        ((recs.drop (i * recordsPerBlock)).take recordsPerBlock))) =
      (List.range (numRuns recordsPerBlock recs.length)).map
      (fun i => (subFileName path i,
        encodeFile (runRecords sort ((recs.drop (i * recordsPerBlock)).take recordsPerBlock)))) := by
    apply List.map_congr_left
    intro i _
    rw [Nat.zero_add, runContent_eq sort hsort recordSize _
      (fun r hr => (hwf r (List.mem_of_mem_drop (List.mem_of_mem_take hr))).1)]
  have h' : createSubfiles sort fuel
      (fileSort.init recordsPerBlock recordSize inputName outputName path mem disk
        (encodeFile recs ++ tail)) = .returned
      { fileSort.init recordsPerBlock recordSize inputName outputName path mem disk
          (encodeFile recs ++ tail) with
        _inFile := s'
        _theBlock := blk'
        _totalItemsExtracted := recs.length
        _subFilePaths := (List.range (numRuns recordsPerBlock recs.length)).map
          (fun i => subFileName path i)
        disk := diskWithRuns sort recordsPerBlock path disk recs } := by
    unfold createSubfiles
    rw [h]
    simp only [fileSort.init] at hruns ⊢
    rw [hruns]
    simp [diskWithRuns]
  exact ⟨s', blk', h', createSubfilesLoop_some_eof sort fuel _ 0 _ h'⟩

/-- The disk `createSubfiles` leaves: every run file holds its run, every path that is not a
run-file path is as it was, and the paths that can be written are the same. -/
theorem diskWithRuns_spec (sort : List (List Byte) → List (List Byte))
    (recordsPerBlock : Nat) (path : String) (disk : Disk) (recs : List (List Byte)) :
    (∀ i, i < numRuns recordsPerBlock recs.length →
      (diskWithRuns sort recordsPerBlock path disk recs).files (subFileName path i) =
        some (encodeFile
          (runRecords sort ((recs.drop (i * recordsPerBlock)).take recordsPerBlock)))) ∧
    ((List.range (numRuns recordsPerBlock recs.length)).map (fun i => subFileName path i)).map
        (diskWithRuns sort recordsPerBlock path disk recs).files =
      ((blocksOf recordsPerBlock recs).map (runRecords sort)).map
        (fun run => some (encodeFile run)) ∧
    (∀ q, (∀ i, subFileName path i ≠ q) →
      (diskWithRuns sort recordsPerBlock path disk recs).files q = disk.files q) ∧
    (diskWithRuns sort recordsPerBlock path disk recs).writable = disk.writable := by
  have hnd : (((List.range (numRuns recordsPerBlock recs.length)).map
      (fun i => (subFileName path i, encodeFile (runRecords sort
        ((recs.drop (i * recordsPerBlock)).take recordsPerBlock))))).map Prod.fst).Nodup := by
    rw [List.map_map]
    exact List.Nodup.map (subFileName_injective path) (List.nodup_range _)
  have hfile : ∀ i, i < numRuns recordsPerBlock recs.length →
      (diskWithRuns sort recordsPerBlock path disk recs).files (subFileName path i) =
        some (encodeFile
          (runRecords sort ((recs.drop (i * recordsPerBlock)).take recordsPerBlock))) :=
    fun i hi => writeAll_files_of_mem _ _ hnd _ _
      (List.mem_map.mpr ⟨i, List.mem_range.mpr hi, rfl⟩)
  refine ⟨hfile, ?_, ?_, writeAll_writable _ _⟩
  · simp only [blocksOf, List.map_map]
    apply List.map_congr_left
    intro i hi
    simp only [Function.comp]
    exact hfile i (List.mem_range.mp hi)
  · intro q hq
    apply writeAll_files_of_not_mem
    rw [List.map_map]
    intro hmem
    obtain ⟨i, -, hi⟩ := List.mem_map.mp hmem
    exact hq i hi

/-! ## The merge of the run files -/

/-- When every path of `_subFilePaths` holds a file, the first loop of `mergeSubFiles` returns
the heap with one cursor per file, inserted in order. -/
theorem openSubFiles_eq {H : Type} (M : MinHeap H) (recordSize : Nat) (mem : List Byte)
    (disk : Disk) (paths : List String) (contents : List (List Byte))
    (h : paths.map disk.files = contents.map some) (h0 : H) :
    openSubFiles M recordSize mem disk paths h0 =
      .returned (contents.foldl (fun h c => M.insert h (fileObj.new c recordSize mem)) h0) := by
  induction paths generalizing contents h0 with
  | nil =>
    cases contents with
    | nil => rfl
    | cons c cs => simp at h
  | cons p ps ih =>
    cases contents with
    | nil => simp at h
    | cons c cs =>
      simp only [List.map_cons, List.cons.injEq] at h
      rw [openSubFiles, h.1]
      exact ih cs h.2 _

/-- The merge of non-empty well-formed runs, when the output path can be written and is not
the path of a run file: with enough fuel `mergeSubFiles` returns, the output file holds a
rearrangement of the records of all runs in the file format, and the run files are removed.
If `pop` returns a least cursor and every run is in order, so is the output. -/
theorem mergeSubFiles_spec {H : Type} (M : MinHeap H) (bag : H → Multiset fileObj)
    (hbag : M.IsBag bag) (mem : List Byte) (fs : fileSort) (runs : List (List (List Byte)))
    (hruns : fs._subFilePaths.map fs.disk.files = runs.map (fun run => some (encodeFile run)))
    (hw : fs.disk.writable fs._outFileName = true) (hout : fs._outFileName ∉ fs._subFilePaths)
    (hne : ∀ run ∈ runs, run ≠ [])
    (hwf : ∀ run ∈ runs, ∀ r ∈ run, IsRecord fs._recordSize r) (fuel : Nat)
    (hfuel : runs.flatten.length + 1 ≤ fuel) :
    ∃ recs', mergeSubFiles M mem fuel fs = .returned
        { fs with
          disk := fs._subFilePaths.foldl Disk.remove
            (fs.disk.write fs._outFileName (encodeFile recs')) } ∧
      recs'.Perm runs.flatten ∧
      (M.IsMin bag → (∀ run ∈ runs, run.Pairwise recLe) → recs'.Pairwise recLe) := by
  have hrun : ∀ run ∈ runs, run = run.headD [] :: run.tail := by
    intro run hr
    cases run with
    | nil => exact absurd rfl (hne _ hr)
    | cons a l => rfl
  have hopen := openSubFiles_eq M fs._recordSize mem fs.disk fs._subFilePaths
    (runs.map encodeFile) (by rw [hruns, List.map_map]; rfl) M.empty
  have hb : bag ((runs.map encodeFile).foldl
      (fun h c => M.insert h (fileObj.new c fs._recordSize mem)) M.empty) =
      Multiset.map (fun p => cursorAt fs._recordSize p.1 p.2)
        (Multiset.ofList (runs.map (fun run => (run.headD [], run.tail)))) := by
    rw [openSubFiles_bag M bag hbag, hbag.1, Multiset.map_coe, List.map_map, List.map_map,
      zero_add]
    congr 1
    apply List.map_congr_left
    intro run hr
    have e := hrun run hr
    simp only [Function.comp]
    conv_lhs => rw [e]
    exact fileObj_new_cons _ mem _ _ (hwf run hr _ (by rw [e]; simp))
  have hall : ∀ (l : List (List (List Byte))), (∀ run ∈ l, run = run.headD [] :: run.tail) →
      (Multiset.bind (Multiset.ofList (l.map (fun run => (run.headD [], run.tail))))
        (fun p => Multiset.ofList (p.1 :: p.2)) = Multiset.ofList l.flatten
      ∧ (Multiset.map (fun p => p.2.length + 1)
        (Multiset.ofList (l.map (fun run => (run.headD [], run.tail))))).sum
          = l.flatten.length) := by
    intro l
    induction l with
    | nil => intro _; simp
    | cons run l ih =>
      intro hl
      obtain ⟨ih1, ih2⟩ := ih (fun x hx => hl x (List.mem_cons_of_mem _ hx))
      have e := hl run (by simp)
      constructor
      · rw [List.map_cons, ← Multiset.cons_coe, Multiset.cons_bind, ih1]
        simp only [← e, List.flatten_cons, Multiset.coe_add]
      · rw [List.map_cons, ← Multiset.cons_coe, Multiset.map_cons, Multiset.sum_cons, ih2]
        conv_rhs => rw [List.flatten_cons, List.length_append, e]
        simp
  obtain ⟨hall1, hall2⟩ := hall runs hrun
  obtain ⟨recs', h1, h2, h3⟩ := mergeLoop_spec M bag hbag fs._recordSize runs.flatten.length _
    fuel ((runs.map encodeFile).foldl
      (fun h c => M.insert h (fileObj.new c fs._recordSize mem)) M.empty) [] hb
    (by
      intro p hp r hr
      obtain ⟨run, hrun', rfl⟩ := List.mem_map.mp (Multiset.mem_coe.mp hp)
      exact hwf run hrun' r (by rw [hrun run hrun']; exact hr))
    hall2 hfuel
  refine ⟨recs', ?_, ?_, ?_⟩
  · unfold mergeSubFiles
    rw [hopen]
    simp only [Outcome.bind, hw, hout, Bool.true_eq_false, ↓reduceIte]
    rw [h1]
    simp
  · rw [hall1] at h2
    exact Multiset.coe_eq_coe.mp h2
  · intro hm hsorted
    apply h3 hm
    intro p hp
    obtain ⟨run, hrun', rfl⟩ := List.mem_map.mp (Multiset.mem_coe.mp hp)
    have := hsorted run hrun'
    rwa [hrun run hrun'] at this

/-! ## The whole sort on the disk -/

/-- The constructor opens the input file when it is on the disk. -/
theorem openInFile_eq (recordsPerBlock recordSize : Nat) (inputName outputName path : String)
    (mem : List Byte) (disk : Disk) (input : List Byte)
    (hin : disk.files (path ++ inputName) = some input) :
    fileSort.openInFile recordsPerBlock recordSize inputName outputName path mem disk =
      .returned
        (fileSort.init recordsPerBlock recordSize inputName outputName path mem disk input) := by
  simp [fileSort.openInFile, hin]

theorem sort_eq_of_createSubfiles {H : Type} (sort : List (List Byte) → List (List Byte))
    (M : MinHeap H) (mem : List Byte) (fuel : Nat) (fs fs1 : fileSort) (o : Outcome fileSort)
    (h1 : createSubfiles sort fuel fs = .returned fs1) (h2 : mergeSubFiles M mem fuel fs1 = o) :
    fileSort.sort sort M mem fuel fs = o := by
  unfold fileSort.sort
  rw [h1]
  exact h2

/-- The sort on the records `recs` followed by the bytes `tail` that no delimiter ends, when
the run-file paths and the output path are free: `createSubfiles` returns with the runs of the
records on the disk, and `mergeSubFiles` returns with an output file that holds a
rearrangement `out` of the records, in order if `std::sort` and `pop` obey the record
comparison; the run files are removed and the input file is as it was. -/
theorem sort_spec_tail (sort : List (List Byte) → List (List Byte))
    (hsort : ∀ l, (sort l).Perm l) {H : Type} (M : MinHeap H) (bag : H → Multiset fileObj)
    (hbag : M.IsBag bag) (recordsPerBlock recordSize : Nat) (inputName outputName path : String)
    (mem : List Byte) (disk : Disk) (recs : List (List Byte)) (tail : List Byte)
    (hB : 1 ≤ recordsPerBlock) (hwf : ∀ r ∈ recs, IsRecord recordSize r)
    (ht : IsLine recordSize tail)
    (hin : disk.files (path ++ inputName) = some (encodeFile recs ++ tail))
    (hsub : SubFilePathsOk disk inputName path)
    (hout : OutFilePathOk disk inputName outputName path) (fuel : Nat)
    (hfuel : recs.length + 2 ≤ fuel) :
    ∃ (fs0 fs1 fs2 : fileSort) (out : List (List Byte)),
      fileSort.openInFile recordsPerBlock recordSize inputName outputName path mem disk =
        .returned fs0 ∧
      createSubfiles sort fuel fs0 = .returned fs1 ∧
      fileSort.sort sort M mem fuel fs0 = .returned fs2 ∧
      fs1._inFile.eof = true ∧ fs1._totalItemsExtracted = recs.length ∧
      fs1._subFilePaths = (List.range (numRuns recordsPerBlock recs.length)).map
        (fun i => subFileName path i) ∧
      fs1._subFilePaths.map fs1.disk.files =
        ((blocksOf recordsPerBlock recs).map (runRecords sort)).map
          (fun run => some (encodeFile run)) ∧
      fs2._recordSize = recordSize ∧ fs2._inFileName = path ++ inputName ∧
      fs2._outFileName = path ++ outputName ∧ fs2._totalItemsExtracted = recs.length ∧
      fs2._subFilePaths = fs1._subFilePaths ∧
      fs2.disk.files (path ++ outputName) = some (encodeFile out) ∧
      fs2.disk.files (path ++ inputName) = some (encodeFile recs ++ tail) ∧
      (∀ p ∈ fs2._subFilePaths, fs2.disk.files p = none) ∧
      out.Perm recs ∧ (IsStdSort sort → M.IsMin bag → out.Pairwise recLe) := by
  obtain ⟨s1, blk1, h1, heof⟩ := createSubfiles_spec_tail sort hsort recordsPerBlock recordSize
    inputName outputName path mem disk recs tail hB hwf ht hsub fuel hfuel
  obtain ⟨-, hd1, hd2, hd3⟩ := diskWithRuns_spec sort recordsPerBlock path disk recs
  have hflat : ((blocksOf recordsPerBlock recs).map (runRecords sort)).flatten.Perm recs := by
    have := flatten_map_runRecords_perm sort hsort (blocksOf recordsPerBlock recs)
    rwa [flatten_blocksOf recordsPerBlock hB recs.length recs rfl] at this
  have hmem : ∀ run ∈ (blocksOf recordsPerBlock recs).map (runRecords sort),
      run ≠ [] ∧ ∀ r ∈ run, IsRecord recordSize r := by
    intro run hrun
    obtain ⟨block, hblock, rfl⟩ := List.mem_map.mp hrun
    obtain ⟨hne, -, hsub'⟩ := mem_blocksOf recordsPerBlock hB recs block hblock
    have hp := runRecords_perm sort hsort block
    refine ⟨fun e => hne ?_, fun r hr => hwf r (hsub' r (hp.subset hr))⟩
    rw [e] at hp
    exact hp.symm.eq_nil
  have hnotout : path ++ outputName ∉
      (List.range (numRuns recordsPerBlock recs.length)).map (fun i => subFileName path i) := by
    intro hm
    obtain ⟨i, -, hi⟩ := List.mem_map.mp hm
    exact hout.2.2 i hi
  have hnotin : path ++ inputName ∉
      (List.range (numRuns recordsPerBlock recs.length)).map (fun i => subFileName path i) := by
    intro hm
    obtain ⟨i, -, hi⟩ := List.mem_map.mp hm
    exact (hsub i).2 hi
  obtain ⟨out, h2, h3, h4⟩ := mergeSubFiles_spec M bag hbag mem
    { fileSort.init recordsPerBlock recordSize inputName outputName path mem disk
        (encodeFile recs ++ tail) with
      _inFile := s1
      _theBlock := blk1
      _totalItemsExtracted := recs.length
      _subFilePaths := (List.range (numRuns recordsPerBlock recs.length)).map
        (fun i => subFileName path i)
      disk := diskWithRuns sort recordsPerBlock path disk recs }
    ((blocksOf recordsPerBlock recs).map (runRecords sort)) hd1
    (by
      show (diskWithRuns sort recordsPerBlock path disk recs).writable (path ++ outputName)
        = true
      rw [hd3]; exact hout.1)
    hnotout (fun run hrun => (hmem run hrun).1) (fun run hrun => (hmem run hrun).2) fuel
    (by rw [hflat.length_eq]; omega)
  refine ⟨_, _, _, out, openInFile_eq recordsPerBlock recordSize inputName outputName path mem
    disk _ hin, h1, sort_eq_of_createSubfiles sort M mem fuel _ _ _ h1 h2, heof, rfl, rfl,
    hd1, rfl, rfl, rfl, rfl, rfl, ?_, ?_, ?_, h3.trans hflat, ?_⟩
  · show (List.foldl Disk.remove _ _).files (path ++ outputName) = _
    rw [removeAll_files, if_neg hnotout]
    simp [Disk.write, fileSort.init]
  · show (List.foldl Disk.remove _ _).files (path ++ inputName) = _
    rw [removeAll_files, if_neg hnotin]
    have hne : path ++ inputName ≠ path ++ outputName := fun e => hout.2.1 e.symm
    simp only [Disk.write, fileSort.init, hne, ↓reduceIte]
    rw [hd2 _ (fun i => (hsub i).2)]
    exact hin
  · intro p hp
    show (List.foldl Disk.remove _ _).files p = _
    rw [removeAll_files, if_pos hp]
  · intro hs hm
    apply h4 hm
    intro run hrun
    obtain ⟨block, -, rfl⟩ := List.mem_map.mp hrun
    exact runRecords_sorted sort hs block

/-- The function `countItems` by path on a file of well-formed records returns their number. -/
theorem countItems_path (fs : fileSort) (mem : List Byte) (recs : List (List Byte))
    (filePath : String) (hf : fs.disk.files filePath = some (encodeFile recs))
    (hwf : ∀ r ∈ recs, IsRecord fs._recordSize r) (fuel : Nat) (hfuel : recs.length + 2 ≤ fuel) :
    fs.countItems mem fuel filePath = .returned recs.length := by
  simp [fileSort.countItems, hf, countItems_encodeFile fs._recordSize mem recs hwf fuel hfuel]

/-! ## Claims on the sort -/

/-- C1. For every record width, every `recordsPerBlock ≥ 1` and every input file of `N ≥ 0`
records in the record+newline layout, when the run-file paths and the output path are free (they
can be written, the run files are not the input or the output, the output is not the input):
the constructor opens the input, `createSubfiles` followed by `mergeSubFiles` returns (with fuel
`N + 2` or more) and leaves at the output path a file in the same layout whose multiset of
records is that of the input. Only the rearrangement property of `std::sort` and the bag
behaviour of `MinHeap` are used. -/
theorem sort_preserves_multiset (sort : List (List Byte) → List (List Byte))
    (hsort : ∀ l, (sort l).Perm l) {H : Type} (M : MinHeap H) (bag : H → Multiset fileObj)
    (hbag : M.IsBag bag) (recordsPerBlock recordSize : Nat) (inputName outputName path : String)
    (mem : List Byte) (disk : Disk) (recs : List (List Byte)) (hB : 1 ≤ recordsPerBlock)
    (hwf : ∀ r ∈ recs, IsRecord recordSize r)
    (hin : disk.files (path ++ inputName) = some (encodeFile recs))
    (hsub : SubFilePathsOk disk inputName path)
    (hout : OutFilePathOk disk inputName outputName path) (fuel : Nat)
    (hfuel : recs.length + 2 ≤ fuel) :
    ∃ (fs0 fs' : fileSort) (out : List (List Byte)),
      fileSort.openInFile recordsPerBlock recordSize inputName outputName path mem disk =
        .returned fs0 ∧
      fileSort.sort sort M mem fuel fs0 = .returned fs' ∧
      fs'.disk.files (path ++ outputName) = some (encodeFile out) ∧
      (∀ r ∈ out, IsRecord recordSize r) ∧ Multiset.ofList out = Multiset.ofList recs := by
  obtain ⟨fs0, fs1, fs2, out, h0, -, h2, -, -, -, -, -, -, -, -, -, h3, -, -, h4, -⟩ :=
    sort_spec_tail sort hsort M bag hbag recordsPerBlock recordSize inputName outputName path
      mem disk recs [] hB hwf ⟨Nat.zero_le _, List.not_mem_nil _⟩
      (by rw [List.append_nil]; exact hin) hsub hout fuel hfuel
  exact ⟨fs0, fs2, out, h0, h2, h3, fun r hr => hwf r (h4.subset hr),
    Multiset.coe_eq_coe.mpr h4⟩

theorem sort_preserves_multiset_witness :
    ∃ (fs0 fs' : fileSort) (out : List (List Byte)),
      fileSort.openInFile 3 4 "inputfile.txt" "outputfile.txt" "" []
        (Disk.empty.write "inputfile.txt"
          (encodeFile [[53, 48, 48, 48], [53, 48, 48, 48], [49, 48, 48, 48]])) =
        .returned fs0 ∧
      fileSort.sort insertionSortBlock listHeap [] 5 fs0 = .returned fs' ∧
      fs'.disk.files ("" ++ "outputfile.txt") = some (encodeFile out) ∧
      (∀ r ∈ out, IsRecord 4 r) ∧
      Multiset.ofList out =
        Multiset.ofList [[(53 : Byte), 48, 48, 48], [53, 48, 48, 48], [49, 48, 48, 48]] :=
  sort_preserves_multiset insertionSortBlock (fun l => (isStdSort_insertionSortBlock l).1)
    listHeap (fun h => Multiset.ofList h) listHeap_isBag 3 4 "inputfile.txt" "outputfile.txt" ""
    [] (Disk.empty.write "inputfile.txt"
      (encodeFile [[53, 48, 48, 48], [53, 48, 48, 48], [49, 48, 48, 48]]))
    [[53, 48, 48, 48], [53, 48, 48, 48], [49, 48, 48, 48]] (by decide) (by decide) (by decide)
    (subFilePathsOk_of_head _ _ _ (fun _ => rfl) (by decide))
    (outFilePathOk_of_head _ _ _ _ (fun _ => rfl) (by decide) (by decide)) 5 (by decide)

/-- C2. For every well-formed input and `recordsPerBlock ≥ 1`, when the run-file paths and the
output path are free: if `std::sort` obeys its contract and `MinHeap::pop` returns a cursor
whose record is not greater than that of any other cursor in the heap, the sort returns and the
file at the output path holds the records of the input (the same multiset, each of
`recordSize` bytes) with every adjacent pair in non-decreasing order under `strcmp` (indeed
every earlier record is `≤` every later one). -/
theorem sort_output_sorted (sort : List (List Byte) → List (List Byte))
    (hsort : IsStdSort sort) {H : Type} (M : MinHeap H) (bag : H → Multiset fileObj)
    (hbag : M.IsBag bag) (hmin : M.IsMin bag) (recordsPerBlock recordSize : Nat)
    (inputName outputName path : String) (mem : List Byte) (disk : Disk)
    (recs : List (List Byte)) (hB : 1 ≤ recordsPerBlock)
    (hwf : ∀ r ∈ recs, IsRecord recordSize r)
    (hin : disk.files (path ++ inputName) = some (encodeFile recs))
    (hsub : SubFilePathsOk disk inputName path)
    (hout : OutFilePathOk disk inputName outputName path) (fuel : Nat)
    (hfuel : recs.length + 2 ≤ fuel) :
    ∃ (fs0 fs' : fileSort) (out : List (List Byte)),
      fileSort.openInFile recordsPerBlock recordSize inputName outputName path mem disk =
        .returned fs0 ∧
      fileSort.sort sort M mem fuel fs0 = .returned fs' ∧
      fs'.disk.files (path ++ outputName) = some (encodeFile out) ∧
      (∀ r ∈ out, IsRecord recordSize r) ∧ Multiset.ofList out = Multiset.ofList recs ∧
      out.Chain' recLe ∧ out.Pairwise recLe := by
  obtain ⟨fs0, fs1, fs2, out, h0, -, h2, -, -, -, -, -, -, -, -, -, h3, -, -, h4, h5⟩ :=
    sort_spec_tail sort (fun l => (hsort l).1) M bag hbag recordsPerBlock recordSize inputName
      outputName path mem disk recs [] hB hwf ⟨Nat.zero_le _, List.not_mem_nil _⟩
      (by rw [List.append_nil]; exact hin) hsub hout fuel hfuel
  exact ⟨fs0, fs2, out, h0, h2, h3, fun r hr => hwf r (h4.subset hr),
    Multiset.coe_eq_coe.mpr h4, (h5 hsort hmin).chain', h5 hsort hmin⟩

theorem sort_output_sorted_witness :
    ∃ (fs0 fs' : fileSort) (out : List (List Byte)),
      fileSort.openInFile 2 2 "inputfile.txt" "outputfile.txt" "" []
        (Disk.empty.write "inputfile.txt"
          (encodeFile [[57, 51], [48, 48], [53, 53], [49, 49], [51, 51]])) = .returned fs0 ∧
      fileSort.sort insertionSortBlock listHeap [] 7 fs0 = .returned fs' ∧
      fs'.disk.files ("" ++ "outputfile.txt") = some (encodeFile out) ∧
      (∀ r ∈ out, IsRecord 2 r) ∧
      Multiset.ofList out =
        Multiset.ofList [[(57 : Byte), 51], [48, 48], [53, 53], [49, 49], [51, 51]] ∧
      out.Chain' recLe ∧ out.Pairwise recLe :=
  sort_output_sorted insertionSortBlock isStdSort_insertionSortBlock listHeap
    (fun h => Multiset.ofList h) listHeap_isBag listHeap_isMin 2 2 "inputfile.txt"
    "outputfile.txt" "" [] (Disk.empty.write "inputfile.txt"
      (encodeFile [[57, 51], [48, 48], [53, 53], [49, 49], [51, 51]]))
    [[57, 51], [48, 48], [53, 53], [49, 49], [51, 51]] (by decide) (by decide) (by decide)
    (subFilePathsOk_of_head _ _ _ (fun _ => rfl) (by decide))
    (outFilePathOk_of_head _ _ _ _ (fun _ => rfl) (by decide) (by decide)) 7 (by decide)

/-- C3, counterexample. Three records of width 2 that begin with a zero byte compare equal
under `strcmp`, so the input is in non-decreasing order; the input is `inputfile.txt` on an
otherwise empty disk, so the run-file paths and the output path are free. With blocks of two
records, insertion sort for `std::sort` and the list heap (both within their contracts), the
output file differs from the input file: the second run's record is written before the second
record of the first run. -/
theorem sort_not_idempotent :
    IsStdSort insertionSortBlock ∧
    listHeap.IsBag (fun h => Multiset.ofList h) ∧ listHeap.IsMin (fun h => Multiset.ofList h) ∧
    (∀ r ∈ [[(0 : Byte), 1], [0, 2], [0, 3]], IsRecord 2 r) ∧
    [[(0 : Byte), 1], [0, 2], [0, 3]].Pairwise recLe ∧
    SubFilePathsOk (Disk.empty.write "inputfile.txt" (encodeFile [[0, 1], [0, 2], [0, 3]]))
      "inputfile.txt" "" ∧
    OutFilePathOk (Disk.empty.write "inputfile.txt" (encodeFile [[0, 1], [0, 2], [0, 3]]))
      "inputfile.txt" "outputfile.txt" "" ∧
    (((fileSort.openInFile 2 2 "inputfile.txt" "outputfile.txt" "" []
        (Disk.empty.write "inputfile.txt" (encodeFile [[0, 1], [0, 2], [0, 3]]))).bind
      (fileSort.sort insertionSortBlock listHeap [] 5)).toOption.map
        (fun fs => (fs.disk.files "inputfile.txt", fs.disk.files "outputfile.txt")))
      = some (some (encodeFile [[0, 1], [0, 2], [0, 3]]),
          some (encodeFile [[0, 1], [0, 3], [0, 2]])) ∧
    encodeFile [[(0 : Byte), 1], [0, 3], [0, 2]] ≠ encodeFile [[0, 1], [0, 2], [0, 3]] := by
  exact ⟨isStdSort_insertionSortBlock, listHeap_isBag, listHeap_isMin, by decide, by decide,
    subFilePathsOk_of_head _ _ _ (fun _ => rfl) (by decide),
    outFilePathOk_of_head _ _ _ _ (fun _ => rfl) (by decide) (by decide),
    by decide, by decide⟩

theorem recLeNoZero_antisymm (a b : List Byte) (h1 : recLeNoZero a b) (h2 : recLeNoZero b a) :
    a = b := by
  obtain ⟨hab, ha, hb⟩ := h1
  have hba := h2.1
  unfold recLe at hab hba
  have := strcmp_swap (cstr a) (cstr b)
  exact (strcmp_cstr_eq_zero_iff a b ha hb).mp (by omega)

theorem pairwise_recLeNoZero {l : List (List Byte)} (h : l.Pairwise recLe)
    (hz : ∀ r ∈ l, NoZero r) : l.Pairwise recLeNoZero := by
  induction l with
  | nil => exact List.Pairwise.nil
  | cons a l ih =>
    obtain ⟨h1, h2⟩ := List.pairwise_cons.mp h
    exact List.pairwise_cons.mpr ⟨fun b hb => ⟨h1 b hb, hz a (by simp),
      hz b (List.mem_cons_of_mem _ hb)⟩, ih h2 (fun r hr => hz r (List.mem_cons_of_mem _ hr))⟩

/-- C3, amended. For every well-formed input whose records contain no zero byte and are
already in non-decreasing order, and every `recordsPerBlock ≥ 1`, when the run-file paths and
the output path are free: the file the full sort leaves at the output path is byte for byte the
input file, which is itself unchanged (`std::sort` and `MinHeap` obeying their contracts). -/
theorem sort_idempotent_of_noZero (sort : List (List Byte) → List (List Byte))
    (hsort : IsStdSort sort) {H : Type} (M : MinHeap H) (bag : H → Multiset fileObj)
    (hbag : M.IsBag bag) (hmin : M.IsMin bag) (recordsPerBlock recordSize : Nat)
    (inputName outputName path : String) (mem : List Byte) (disk : Disk)
    (recs : List (List Byte)) (hB : 1 ≤ recordsPerBlock)
    (hwf : ∀ r ∈ recs, IsRecord recordSize r)
    (hz : ∀ r ∈ recs, NoZero r) (hsorted : recs.Pairwise recLe)
    (hin : disk.files (path ++ inputName) = some (encodeFile recs))
    (hsub : SubFilePathsOk disk inputName path)
    (hout : OutFilePathOk disk inputName outputName path) (fuel : Nat)
    (hfuel : recs.length + 2 ≤ fuel) :
    ∃ (fs0 fs' : fileSort),
      fileSort.openInFile recordsPerBlock recordSize inputName outputName path mem disk =
        .returned fs0 ∧
      fileSort.sort sort M mem fuel fs0 = .returned fs' ∧
      fs'.disk.files (path ++ outputName) = some (encodeFile recs) ∧
      fs'.disk.files (path ++ inputName) = disk.files (path ++ inputName) ∧
      fs'.disk.files (path ++ outputName) = fs'.disk.files (path ++ inputName) := by
  obtain ⟨fs0, fs1, fs2, out, h0, -, h2, -, -, -, -, -, -, -, -, -, h3, hi, -, h4, h5⟩ :=
    sort_spec_tail sort (fun l => (hsort l).1) M bag hbag recordsPerBlock recordSize inputName
      outputName path mem disk recs [] hB hwf ⟨Nat.zero_le _, List.not_mem_nil _⟩
      (by rw [List.append_nil]; exact hin) hsub hout fuel hfuel
  have hout' : out = recs := by
    have hanti : IsAntisymm (List Byte) recLeNoZero := ⟨recLeNoZero_antisymm⟩
    exact List.eq_of_perm_of_sorted h4
      (pairwise_recLeNoZero (h5 hsort hmin) (fun r hr => hz r (h4.subset hr)))
      (pairwise_recLeNoZero hsorted hz)
  subst hout'
  rw [List.append_nil] at hi
  exact ⟨fs0, fs2, h0, h2, h3, by rw [hi, hin], by rw [h3, hi]⟩

theorem sort_idempotent_of_noZero_witness :
    ∃ (fs0 fs' : fileSort),
      fileSort.openInFile 2 2 "inputfile.txt" "outputfile.txt" "" []
        (Disk.empty.write "inputfile.txt" (encodeFile [[48, 49], [48, 49], [50, 48]])) =
        .returned fs0 ∧
      fileSort.sort insertionSortBlock listHeap [] 5 fs0 = .returned fs' ∧
      fs'.disk.files ("" ++ "outputfile.txt") =
        some (encodeFile [[48, 49], [48, 49], [50, 48]]) ∧
      fs'.disk.files ("" ++ "inputfile.txt") =
        (Disk.empty.write "inputfile.txt"
          (encodeFile [[48, 49], [48, 49], [50, 48]])).files ("" ++ "inputfile.txt") ∧
      fs'.disk.files ("" ++ "outputfile.txt") = fs'.disk.files ("" ++ "inputfile.txt") :=
  sort_idempotent_of_noZero insertionSortBlock isStdSort_insertionSortBlock listHeap
    (fun h => Multiset.ofList h) listHeap_isBag listHeap_isMin 2 2 "inputfile.txt"
    "outputfile.txt" "" [] (Disk.empty.write "inputfile.txt"
      (encodeFile [[48, 49], [48, 49], [50, 48]]))
    [[48, 49], [48, 49], [50, 48]] (by decide) (by decide) (by decide) (by decide) (by decide)
    (subFilePathsOk_of_head _ _ _ (fun _ => rfl) (by decide))
    (outFilePathOk_of_head _ _ _ _ (fun _ => rfl) (by decide) (by decide)) 5 (by decide)

/-- C4. For every well-formed input of `N` records and `recordsPerBlock = B ≥ 1`, when every
run-file path can be written and none is the input path: `createSubfiles` returns having
written exactly `⌈N / B⌉` run files, recorded in `_subFilePaths` in block order as
`<path>_subFile0.txt`, `<path>_subFile1.txt`, ..., pairwise distinct; the file at run path `i`
is in the file format and holds the input records with indices `[i * B, min ((i + 1) * B) N)`
as a multiset, so every run is non-empty and every run but possibly the last has `B` records;
every path that is not a run-file path is left as it was, and no run is written when
`N = 0`. -/
theorem createSubfiles_one_run_per_block (sort : List (List Byte) → List (List Byte))
    (hsort : ∀ l, (sort l).Perm l) (recordsPerBlock recordSize : Nat)
    (inputName outputName path : String) (mem : List Byte) (disk : Disk)
    (recs : List (List Byte)) (hB : 1 ≤ recordsPerBlock)
    (hwf : ∀ r ∈ recs, IsRecord recordSize r)
    (hin : disk.files (path ++ inputName) = some (encodeFile recs))
    (hsub : SubFilePathsOk disk inputName path) (fuel : Nat)
    (hfuel : recs.length + 2 ≤ fuel) :
    ∃ (fs0 fs' : fileSort),
      fileSort.openInFile recordsPerBlock recordSize inputName outputName path mem disk =
        .returned fs0 ∧
      createSubfiles sort fuel fs0 = .returned fs' ∧
      fs'._subFilePaths = (List.range (numRuns recordsPerBlock recs.length)).map
        (fun i => path ++ "_subFile" ++ toString i ++ ".txt") ∧
      fs'._subFilePaths.length = numRuns recordsPerBlock recs.length ∧
      fs'._subFilePaths.Nodup ∧
      (recs.length ≤ recordsPerBlock * numRuns recordsPerBlock recs.length ∧
        recordsPerBlock * numRuns recordsPerBlock recs.length < recs.length + recordsPerBlock) ∧
      (∀ q, q ∉ fs'._subFilePaths → fs'.disk.files q = disk.files q) ∧
      (recs = [] → fs'._subFilePaths = [] ∧ ∀ q, fs'.disk.files q = disk.files q) ∧
      ∀ i, i < numRuns recordsPerBlock recs.length →
        ∃ run, fs'._subFilePaths[i]? = some (subFileName path i) ∧
          fs'.disk.files (subFileName path i) = some (encodeFile run) ∧
          Multiset.ofList run =
            Multiset.ofList ((recs.drop (i * recordsPerBlock)).take recordsPerBlock) ∧
          run ≠ [] ∧ run.length = min recordsPerBlock (recs.length - i * recordsPerBlock) ∧
          (i + 1 < numRuns recordsPerBlock recs.length → run.length = recordsPerBlock) := by
  obtain ⟨s', blk', h1, -⟩ := createSubfiles_spec_tail sort hsort recordsPerBlock recordSize
    inputName outputName path mem disk recs [] hB hwf ⟨Nat.zero_le _, List.not_mem_nil _⟩ hsub
    fuel hfuel
  rw [List.append_nil] at h1
  obtain ⟨hd0, -, -, -⟩ := diskWithRuns_spec sort recordsPerBlock path disk recs
  have hceil : recs.length ≤ recordsPerBlock * numRuns recordsPerBlock recs.length ∧
      recordsPerBlock * numRuns recordsPerBlock recs.length < recs.length + recordsPerBlock := by
    unfold numRuns
    have h1 := Nat.div_add_mod (recs.length + recordsPerBlock - 1) recordsPerBlock
    have h2 := Nat.mod_lt (recs.length + recordsPerBlock - 1) (by omega : recordsPerBlock > 0)
    constructor <;> omega
  have hlt : ∀ i, i < numRuns recordsPerBlock recs.length →
      i * recordsPerBlock < recs.length ∧
      (i + 1 < numRuns recordsPerBlock recs.length →
        (i + 1) * recordsPerBlock < recs.length) := by
    intro i hi
    have key : ∀ j, j < numRuns recordsPerBlock recs.length →
        j * recordsPerBlock < recs.length := by
      intro j hj
      unfold numRuns at hj
      have := (Nat.le_div_iff_mul_le (by omega : 0 < recordsPerBlock)).mp (Nat.succ_le_of_lt hj)
      have e : j.succ * recordsPerBlock = j * recordsPerBlock + recordsPerBlock :=
        Nat.succ_mul j recordsPerBlock
      omega
    exact ⟨key i hi, fun h => key (i + 1) h⟩
  refine ⟨_, _, openInFile_eq recordsPerBlock recordSize inputName outputName path mem disk _
    hin, h1, rfl, by simp, List.Nodup.map (subFileName_injective path) (List.nodup_range _),
    hceil, ?_, ?_, ?_⟩
  · intro q hq
    show (Disk.writeAll _ _).files q = _
    apply writeAll_files_of_not_mem
    rw [List.map_map]
    exact hq
  · intro hnil
    subst hnil
    refine ⟨by simp [numRuns_zero], fun q => ?_⟩
    simp [diskWithRuns, numRuns_zero, Disk.writeAll]
  · intro i hi
    obtain ⟨hlt1, hlt2⟩ := hlt i hi
    have hperm := runRecords_perm sort hsort
      ((recs.drop (i * recordsPerBlock)).take recordsPerBlock)
    have hlen : (runRecords sort
        ((recs.drop (i * recordsPerBlock)).take recordsPerBlock)).length
        = min recordsPerBlock (recs.length - i * recordsPerBlock) := by
      rw [hperm.length_eq]; simp
    refine ⟨runRecords sort ((recs.drop (i * recordsPerBlock)).take recordsPerBlock),
      ?_, hd0 i hi, Multiset.coe_eq_coe.mpr hperm, ?_, hlen, ?_⟩
    · simp only [List.getElem?_map, List.getElem?_range hi, Option.map_some']
    · intro e
      rw [e] at hlen
      simp at hlen
      omega
    · intro h
      have := hlt2 h
      have e : (i + 1) * recordsPerBlock = i * recordsPerBlock + recordsPerBlock :=
        Nat.succ_mul i recordsPerBlock
      rw [hlen]
      omega

theorem createSubfiles_one_run_per_block_witness :
    (∃ (fs0 fs' : fileSort),
      fileSort.openInFile 2 4 "inputfile.txt" "outputfile.txt" "" []
        (Disk.empty.write "inputfile.txt"
          (encodeFile [[57, 51, 56, 49], [48, 48, 52, 50], [53, 53, 54, 55], [49, 49, 57, 48],
            [51, 51, 50, 49]])) = .returned fs0 ∧
      createSubfiles insertionSortBlock 7 fs0 = .returned fs' ∧
      fs'._subFilePaths = (List.range (numRuns 2 5)).map
        (fun i => "" ++ "_subFile" ++ toString i ++ ".txt") ∧
      fs'._subFilePaths.length = numRuns 2 5 ∧ fs'._subFilePaths.Nodup) ∧
    ((fileSort.openInFile 2 4 "inputfile.txt" "outputfile.txt" "" []
        (Disk.empty.write "inputfile.txt"
          (encodeFile [[57, 51, 56, 49], [48, 48, 52, 50], [53, 53, 54, 55], [49, 49, 57, 48],
            [51, 51, 50, 49]]))).bind (createSubfiles insertionSortBlock 7)).toOption.map
      (fun fs => (fs._subFilePaths, fs._subFilePaths.map fs.disk.files))
      = some (["_subFile0.txt", "_subFile1.txt", "_subFile2.txt"],
          [some (encodeFile [[48, 48, 52, 50], [57, 51, 56, 49]]),
            some (encodeFile [[49, 49, 57, 48], [53, 53, 54, 55]]),
            some (encodeFile [[51, 51, 50, 49]])]) ∧
    numRuns 2 5 = 3 := by
  obtain ⟨fs0, fs', h0, h1, h2, h3, h4, -⟩ := createSubfiles_one_run_per_block
    insertionSortBlock (fun l => (isStdSort_insertionSortBlock l).1) 2 4 "inputfile.txt"
    "outputfile.txt" "" [] (Disk.empty.write "inputfile.txt"
      (encodeFile [[57, 51, 56, 49], [48, 48, 52, 50], [53, 53, 54, 55], [49, 49, 57, 48],
        [51, 51, 50, 49]]))
    [[57, 51, 56, 49], [48, 48, 52, 50], [53, 53, 54, 55], [49, 49, 57, 48], [51, 51, 50, 49]]
    (by decide) (by decide) (by decide)
    (subFilePathsOk_of_head _ _ _ (fun _ => rfl) (by decide)) 7 (by decide)
  exact ⟨⟨fs0, fs', h0, h1, h2, h3, h4⟩, by decide, by decide⟩

/-- C5. For every well-formed input and `recordsPerBlock ≥ 1`, when every run-file path can be
written and none is the input path: every run file `createSubfiles` leaves on the disk is in
the record+newline layout with records of exactly `recordSize` bytes, and within it every
adjacent pair of records is in non-decreasing order under the comparison handed to `std::sort`
(indeed every earlier record is `≤` every later one). -/
theorem createSubfiles_runs_sorted (sort : List (List Byte) → List (List Byte))
    (hsort : IsStdSort sort) (recordsPerBlock recordSize : Nat)
    (inputName outputName path : String) (mem : List Byte) (disk : Disk)
    (recs : List (List Byte)) (hB : 1 ≤ recordsPerBlock)
    (hwf : ∀ r ∈ recs, IsRecord recordSize r)
    (hin : disk.files (path ++ inputName) = some (encodeFile recs))
    (hsub : SubFilePathsOk disk inputName path) (fuel : Nat)
    (hfuel : recs.length + 2 ≤ fuel) :
    ∃ (fs0 fs' : fileSort),
      fileSort.openInFile recordsPerBlock recordSize inputName outputName path mem disk =
        .returned fs0 ∧
      createSubfiles sort fuel fs0 = .returned fs' ∧
      ∀ p ∈ fs'._subFilePaths, ∃ run, fs'.disk.files p = some (encodeFile run) ∧
        (∀ r ∈ run, IsRecord recordSize r) ∧ run.Chain' recLe ∧ run.Pairwise recLe ∧
        run.Pairwise (fun a b => blockLess (cstr b) (cstr a) = false) := by
  obtain ⟨s', blk', h1, -⟩ := createSubfiles_spec_tail sort (fun l => (hsort l).1)
    recordsPerBlock recordSize inputName outputName path mem disk recs [] hB hwf
    ⟨Nat.zero_le _, List.not_mem_nil _⟩ hsub fuel hfuel
  rw [List.append_nil] at h1
  obtain ⟨hd0, -, -, -⟩ := diskWithRuns_spec sort recordsPerBlock path disk recs
  refine ⟨_, _, openInFile_eq recordsPerBlock recordSize inputName outputName path mem disk _
    hin, h1, ?_⟩
  intro p hp
  obtain ⟨i, hi, rfl⟩ := List.mem_map.mp hp
  have hblock : (recs.drop (i * recordsPerBlock)).take recordsPerBlock ∈
      blocksOf recordsPerBlock recs := List.mem_map.mpr ⟨i, hi, rfl⟩
  obtain ⟨-, -, hsub'⟩ := mem_blocksOf recordsPerBlock hB recs _ hblock
  have hs := runRecords_sorted sort hsort ((recs.drop (i * recordsPerBlock)).take recordsPerBlock)
  exact ⟨_, hd0 i (List.mem_range.mp hi),
    fun r hr => hwf r (hsub' r ((runRecords_perm sort (fun l => (hsort l).1) _).subset hr)),
    hs.chain', hs, hs.imp (fun {a b} hab => (blockLess_cstr_false_iff a b).mpr hab)⟩

theorem createSubfiles_runs_sorted_witness :
    ∃ (fs0 fs' : fileSort),
      fileSort.openInFile 2 2 "inputfile.txt" "outputfile.txt" "" []
        (Disk.empty.write "inputfile.txt" (encodeFile [[57, 51], [48, 48], [53, 53]])) =
        .returned fs0 ∧
      createSubfiles insertionSortBlock 5 fs0 = .returned fs' ∧
      ∀ p ∈ fs'._subFilePaths, ∃ run, fs'.disk.files p = some (encodeFile run) ∧
        (∀ r ∈ run, IsRecord 2 r) ∧ run.Chain' recLe ∧ run.Pairwise recLe ∧
        run.Pairwise (fun a b => blockLess (cstr b) (cstr a) = false) :=
  createSubfiles_runs_sorted insertionSortBlock isStdSort_insertionSortBlock 2 2
    "inputfile.txt" "outputfile.txt" "" []
    (Disk.empty.write "inputfile.txt" (encodeFile [[57, 51], [48, 48], [53, 53]]))
    [[57, 51], [48, 48], [53, 53]] (by decide) (by decide) (by decide)
    (subFilePathsOk_of_head _ _ _ (fun _ => rfl) (by decide)) 5 (by decide)

/-! ## Claims on the verifier's count -/

/-- C6. For every run of the sort on an input file in the shared file format (`N` records,
`recordsPerBlock ≥ 1`) with the run-file paths and the output path free: after the sort
`countItems` opens the output path and returns `N`, opens the input path and returns `N`, so
`itemCountOk` in `verifyFile` is true. -/
theorem countItems_output_eq_input (sort : List (List Byte) → List (List Byte))
    (hsort : ∀ l, (sort l).Perm l) {H : Type} (M : MinHeap H) (bag : H → Multiset fileObj)
    (hbag : M.IsBag bag) (recordsPerBlock recordSize : Nat) (inputName outputName path : String)
    (mem : List Byte) (disk : Disk) (recs : List (List Byte)) (hB : 1 ≤ recordsPerBlock)
    (hwf : ∀ r ∈ recs, IsRecord recordSize r)
    (hin : disk.files (path ++ inputName) = some (encodeFile recs))
    (hsub : SubFilePathsOk disk inputName path)
    (hout : OutFilePathOk disk inputName outputName path) (fuel : Nat)
    (hfuel : recs.length + 2 ≤ fuel) :
    ∃ (fs0 fs' : fileSort),
      fileSort.openInFile recordsPerBlock recordSize inputName outputName path mem disk =
        .returned fs0 ∧
      fileSort.sort sort M mem fuel fs0 = .returned fs' ∧
      fs'.countItems mem fuel fs'._outFileName = .returned recs.length ∧
      fs'.countItems mem fuel fs'._inFileName = .returned recs.length ∧
      itemCountOk mem fuel fs' = .returned true := by
  obtain ⟨fs0, fs1, fs2, out, h0, -, h2, -, -, -, -, hrs, hiname, honame, -, -, h3, hi, -, h4,
      -⟩ :=
    sort_spec_tail sort hsort M bag hbag recordsPerBlock recordSize inputName outputName path
      mem disk recs [] hB hwf ⟨Nat.zero_le _, List.not_mem_nil _⟩
      (by rw [List.append_nil]; exact hin) hsub hout fuel hfuel
  rw [List.append_nil] at hi
  have hcout : fs2.countItems mem fuel fs2._outFileName = .returned recs.length := by
    rw [← h4.length_eq]
    exact countItems_path fs2 mem out _ (by rw [honame]; exact h3)
      (fun r hr => by rw [hrs]; exact hwf r (h4.subset hr)) fuel
      (by rw [h4.length_eq]; exact hfuel)
  have hcin : fs2.countItems mem fuel fs2._inFileName = .returned recs.length :=
    countItems_path fs2 mem recs _ (by rw [hiname]; exact hi)
      (fun r hr => by rw [hrs]; exact hwf r hr) fuel hfuel
  refine ⟨fs0, fs2, h0, h2, hcout, hcin, ?_⟩
  unfold itemCountOk
  rw [hcin, hcout]
  simp [Outcome.bind]

theorem countItems_output_eq_input_witness :
    ∃ (fs0 fs' : fileSort),
      fileSort.openInFile 2 2 "inputfile.txt" "outputfile.txt" "" []
        (Disk.empty.write "inputfile.txt" (encodeFile [[57, 51], [48, 48], [53, 53]])) =
        .returned fs0 ∧
      fileSort.sort insertionSortBlock listHeap [] 7 fs0 = .returned fs' ∧
      fs'.countItems [] 7 fs'._outFileName = .returned 3 ∧
      fs'.countItems [] 7 fs'._inFileName = .returned 3 ∧
      itemCountOk [] 7 fs' = .returned true :=
  countItems_output_eq_input insertionSortBlock (fun l => (isStdSort_insertionSortBlock l).1)
    listHeap (fun h => Multiset.ofList h) listHeap_isBag 2 2 "inputfile.txt" "outputfile.txt" ""
    [] (Disk.empty.write "inputfile.txt" (encodeFile [[57, 51], [48, 48], [53, 53]]))
    [[57, 51], [48, 48], [53, 53]] (by decide) (by decide) (by decide)
    (subFilePathsOk_of_head _ _ _ (fun _ => rfl) (by decide))
    (outFilePathOk_of_head _ _ _ _ (fun _ => rfl) (by decide) (by decide)) 7 (by decide)

/-- C7. Boundary cases, for every record width and `recordsPerBlock ≥ 1`, with the run-file
paths and the output path free: on an empty input file `createSubfiles` writes no file and
extracts 0 records, and the sort leaves an empty file at the output path; on an input file of
exactly one record the file at the output path is that record followed by a newline. -/
theorem sort_boundary_cases (sort : List (List Byte) → List (List Byte))
    (hsort : ∀ l, (sort l).Perm l) {H : Type} (M : MinHeap H) (bag : H → Multiset fileObj)
    (hbag : M.IsBag bag) (recordsPerBlock recordSize : Nat) (inputName outputName path : String)
    (mem : List Byte) (disk : Disk) (input : List Byte) (hB : 1 ≤ recordsPerBlock)
    (hin : disk.files (path ++ inputName) = some input)
    (hsub : SubFilePathsOk disk inputName path)
    (hout : OutFilePathOk disk inputName outputName path) (fuel : Nat) (hfuel : 3 ≤ fuel) :
    (input = [] → ∃ (fs0 fs1 fs2 : fileSort),
      fileSort.openInFile recordsPerBlock recordSize inputName outputName path mem disk =
        .returned fs0 ∧
      createSubfiles sort fuel fs0 = .returned fs1 ∧
      fs1._subFilePaths = [] ∧ (∀ q, fs1.disk.files q = disk.files q) ∧
      fs1.getTotalItemsExtracted = 0 ∧
      fileSort.sort sort M mem fuel fs0 = .returned fs2 ∧
      fs2.getTotalItemsExtracted = 0 ∧ fs2.disk.files (path ++ outputName) = some []) ∧
    (∀ r, IsRecord recordSize r → input = r ++ [newline] → ∃ (fs0 fs2 : fileSort),
      fileSort.openInFile recordsPerBlock recordSize inputName outputName path mem disk =
        .returned fs0 ∧
      fileSort.sort sort M mem fuel fs0 = .returned fs2 ∧
      fs2.disk.files (path ++ outputName) = some (r ++ [newline])) := by
  constructor
  · intro hnil
    subst hnil
    obtain ⟨fs0, fs1, fs2, out, h0, h1, h2, -, ht1, hp1, -, -, -, -, ht2, -, h3, -, -, h4, -⟩ :=
      sort_spec_tail sort hsort M bag hbag recordsPerBlock recordSize inputName outputName path
        mem disk [] [] hB (by simp) ⟨Nat.zero_le _, List.not_mem_nil _⟩ hin hsub hout fuel
        (by simpa using by omega)
    obtain ⟨s', blk', h1', -⟩ := createSubfiles_spec_tail sort hsort recordsPerBlock recordSize
      inputName outputName path mem disk [] [] hB (by simp)
      ⟨Nat.zero_le _, List.not_mem_nil _⟩ hsub fuel (by simpa using by omega)
    have h0' := openInFile_eq recordsPerBlock recordSize inputName outputName path mem disk _
      hin
    rw [h0'] at h0
    simp only [Outcome.returned.injEq] at h0
    subst h0
    have hout' : out = [] := h4.eq_nil
    subst hout'
    have hfs1 := h1.symm.trans h1'
    simp only [Outcome.returned.injEq] at hfs1
    refine ⟨_, fs1, fs2, h0', h1, by simpa [numRuns_zero] using hp1, ?_, ht1, h2, ht2, h3⟩
    intro q
    rw [hfs1]
    simp [diskWithRuns, numRuns_zero, Disk.writeAll]
  · intro r hr hinput
    subst hinput
    obtain ⟨fs0, fs1, fs2, out, h0, -, h2, -, -, -, -, -, -, -, -, -, h3, -, -, h4, -⟩ :=
      sort_spec_tail sort hsort M bag hbag recordsPerBlock recordSize inputName outputName path
        mem disk [r] [] hB (by simpa using hr) ⟨Nat.zero_le _, List.not_mem_nil _⟩
        (by simpa [encodeFile] using hin) hsub hout fuel (by simpa using hfuel)
    have hout' : out = [r] := List.perm_singleton.mp h4
    subst hout'
    exact ⟨fs0, fs2, h0, h2, by simpa [encodeFile] using h3⟩

theorem sort_boundary_cases_witness :
    (∃ (fs0 fs1 fs2 : fileSort),
      fileSort.openInFile 2 2 "inputfile.txt" "outputfile.txt" "" []
        (Disk.empty.write "inputfile.txt" []) = .returned fs0 ∧
      createSubfiles insertionSortBlock 3 fs0 = .returned fs1 ∧
      fs1._subFilePaths = [] ∧
      (∀ q, fs1.disk.files q = (Disk.empty.write "inputfile.txt" []).files q) ∧
      fs1.getTotalItemsExtracted = 0 ∧
      fileSort.sort insertionSortBlock listHeap [] 3 fs0 = .returned fs2 ∧
      fs2.getTotalItemsExtracted = 0 ∧ fs2.disk.files ("" ++ "outputfile.txt") = some []) ∧
    (∃ (fs0 fs2 : fileSort),
      fileSort.openInFile 2 2 "inputfile.txt" "outputfile.txt" "" []
        (Disk.empty.write "inputfile.txt" [57, 51, 10]) = .returned fs0 ∧
      fileSort.sort insertionSortBlock listHeap [] 3 fs0 = .returned fs2 ∧
      fs2.disk.files ("" ++ "outputfile.txt") = some ([57, 51] ++ [newline])) :=
  ⟨(sort_boundary_cases insertionSortBlock (fun l => (isStdSort_insertionSortBlock l).1)
      listHeap (fun h => Multiset.ofList h) listHeap_isBag 2 2 "inputfile.txt" "outputfile.txt"
      "" [] (Disk.empty.write "inputfile.txt" []) [] (by decide) (by decide)
      (subFilePathsOk_of_head _ _ _ (fun _ => rfl) (by decide))
      (outFilePathOk_of_head _ _ _ _ (fun _ => rfl) (by decide) (by decide)) 3
      (by decide)).1 rfl,
    (sort_boundary_cases insertionSortBlock (fun l => (isStdSort_insertionSortBlock l).1)
      listHeap (fun h => Multiset.ofList h) listHeap_isBag 2 2 "inputfile.txt" "outputfile.txt"
      "" [] (Disk.empty.write "inputfile.txt" [57, 51, 10]) [57, 51, 10] (by decide) (by decide)
      (subFilePathsOk_of_head _ _ _ (fun _ => rfl) (by decide))
      (outFilePathOk_of_head _ _ _ _ (fun _ => rfl) (by decide) (by decide)) 3
      (by decide)).2 [57, 51] (by decide) (by decide)⟩

/-! ## Empty run files -/

/-- C12, counterexample. With `_subFilePaths` naming an empty run file and the well-formed run
`0001` (recordSize 4), the output path free, `mergeSubFiles` inserts the cursor of the empty
file in the heap like any other, pops it and writes its buffer: the output holds two records,
the first made of the bytes the buffer happened to hold, although the run files hold one
record in all. -/
theorem mergeSubFiles_empty_run_emits_record :
    listHeap.IsBag (fun h => Multiset.ofList h) ∧ listHeap.IsMin (fun h => Multiset.ofList h) ∧
    (fileObj.new [] 4 [7, 7, 7, 7, 7]).fileEmpty = true ∧
    ["_subFile0.txt", "_subFile1.txt"].map
      (((Disk.empty.write "inputfile.txt" []).write "_subFile0.txt" []).write "_subFile1.txt"
        (encodeFile [[48, 48, 48, 49]])).files =
      [[], [[(48 : Byte), 48, 48, 49]]].map (fun run => some (encodeFile run)) ∧
    "outputfile.txt" ∉ ["_subFile0.txt", "_subFile1.txt"] ∧
    ((mergeSubFiles listHeap [7, 7, 7, 7, 7] 4
      { fileSort.init 2 4 "inputfile.txt" "outputfile.txt" "" []
          (((Disk.empty.write "inputfile.txt" []).write "_subFile0.txt" []).write
            "_subFile1.txt" (encodeFile [[48, 48, 48, 49]])) [] with
        _subFilePaths := ["_subFile0.txt", "_subFile1.txt"] }).toOption.map
        (fun fs => fs.disk.files fs._outFileName))
      = some (some (encodeFile [[0, 7, 7, 7], [48, 48, 48, 49]])) ∧
    countItems 4 [] 4 (encodeFile [[0, 7, 7, 7], [48, 48, 48, 49]]) = some 2 ∧
    ([[], [[(48 : Byte), 48, 48, 49]]] : List (List (List Byte))).flatten.length = 1 := by
  exact ⟨listHeap_isBag, listHeap_isMin, by decide, by decide, by decide, by decide, by decide,
    by decide⟩

/-- C12, amended. For every state whose `_subFilePaths` name files that are all non-empty
well-formed runs, with an output path that can be written and is not one of `_subFilePaths`:
`mergeSubFiles` returns having written to the output path exactly the records of the runs, as
a multiset and in the file format, so the number of output records is the total number of
records in the run files; the run files are removed. -/
theorem mergeSubFiles_nonempty_runs {H : Type} (M : MinHeap H) (bag : H → Multiset fileObj)
    (hbag : M.IsBag bag) (mem : List Byte) (fs : fileSort) (runs : List (List (List Byte)))
    (hruns : fs._subFilePaths.map fs.disk.files = runs.map (fun run => some (encodeFile run)))
    (hw : fs.disk.writable fs._outFileName = true) (hout : fs._outFileName ∉ fs._subFilePaths)
    (hne : ∀ run ∈ runs, run ≠ [])
    (hwf : ∀ run ∈ runs, ∀ r ∈ run, IsRecord fs._recordSize r) (fuel : Nat)
    (hfuel : (runs.map List.length).sum + 1 ≤ fuel) :
    ∃ (fs' : fileSort) (out : List (List Byte)), mergeSubFiles M mem fuel fs = .returned fs' ∧
      fs'.disk.files fs._outFileName = some (encodeFile out) ∧
      Multiset.ofList out = Multiset.ofList runs.flatten ∧
      out.length = (runs.map List.length).sum ∧
      ∀ p ∈ fs._subFilePaths, fs'.disk.files p = none := by
  have hlen : runs.flatten.length = (runs.map List.length).sum := by
    simp [List.length_flatten]
  obtain ⟨out, h1, h2, -⟩ := mergeSubFiles_spec M bag hbag mem fs runs hruns hw hout hne hwf
    fuel (by rw [hlen]; exact hfuel)
  refine ⟨_, out, h1, ?_, Multiset.coe_eq_coe.mpr h2, by rw [h2.length_eq, hlen], ?_⟩
  · show (List.foldl Disk.remove _ _).files fs._outFileName = _
    rw [removeAll_files, if_neg hout]
    simp [Disk.write]
  · intro p hp
    show (List.foldl Disk.remove _ _).files p = _
    rw [removeAll_files, if_pos hp]

theorem mergeSubFiles_nonempty_runs_witness :
    ∃ (fs' : fileSort) (out : List (List Byte)), mergeSubFiles listHeap [] 4
        { fileSort.init 2 2 "inputfile.txt" "outputfile.txt" "" []
            (((Disk.empty.write "inputfile.txt" []).write "_subFile0.txt"
              [49, 50, 10, 51, 52, 10]).write "_subFile1.txt" [50, 50, 10]) [] with
          _subFilePaths := ["_subFile0.txt", "_subFile1.txt"] } = .returned fs' ∧
      fs'.disk.files ("" ++ "outputfile.txt") = some (encodeFile out) ∧
      Multiset.ofList out = Multiset.ofList [[(49 : Byte), 50], [51, 52], [50, 50]] ∧
      out.length = 3 ∧
      ∀ p ∈ ["_subFile0.txt", "_subFile1.txt"], fs'.disk.files p = none :=
  mergeSubFiles_nonempty_runs listHeap (fun h => Multiset.ofList h) listHeap_isBag []
    { fileSort.init 2 2 "inputfile.txt" "outputfile.txt" "" []
        (((Disk.empty.write "inputfile.txt" []).write "_subFile0.txt"
          [49, 50, 10, 51, 52, 10]).write "_subFile1.txt" [50, 50, 10]) [] with
      _subFilePaths := ["_subFile0.txt", "_subFile1.txt"] }
    [[[49, 50], [51, 52]], [[50, 50]]] (by decide) (by decide) (by decide) (by decide)
    (by decide) 4 (by decide)

/-! ## The verifier's order check -/

theorem verifyOrderLoop_false (recordSize : Nat) (mem : List Byte) (fuel : Nat) (s : IStream)
    (current next : List Byte) :
    verifyOrderLoop recordSize mem (fuel + 1) s current next false = .returned false := by
  simp [verifyOrderLoop]

theorem verifyOrderLoop_eof (recordSize : Nat) (mem : List Byte) (fuel : Nat) (s : IStream)
    (current next : List Byte) (sorted : Bool) (h : s.eofbit = true) :
    verifyOrderLoop recordSize mem (fuel + 1) s current next sorted = .returned sorted := by
  simp [verifyOrderLoop, IStream.eof, h]

/-- The second iteration of the loop of `verifyOrder` runs on the buffer allocated with
`new char[_recordSize]`: whenever the loop is entered with such a buffer, the stream not at end
of file and `sorted` still true, it writes past the end of the buffer. -/
theorem verifyOrderLoop_short_buffer (recordSize : Nat) (mem : List Byte) (fuel : Nat)
    (s : IStream) (current : List Byte) (h : s.eofbit = false) :
    verifyOrderLoop recordSize mem (fuel + 1) s current (newBuffer mem recordSize) true =
      .undefinedBehaviour := by
  simp [verifyOrderLoop, IStream.eof, h, length_newBuffer]

/-- The first iteration of the loop of `verifyOrder` on a file whose first two records are `a`
and `b`, whatever follows them. -/
theorem verifyOrder_two_records (recordSize : Nat) (mem : List Byte) (a b junk : List Byte)
    (ha : IsRecord recordSize a) (hb : IsRecord recordSize b) (fuel : Nat) :
    verifyOrder recordSize mem (fuel + 1) (encodeFile [a, b] ++ junk) =
      verifyOrderLoop recordSize mem fuel { data := junk, eofbit := false, failbit := false }
        (cstr b) (newBuffer mem recordSize)
        (if strcmp (cstr a) (cstr b) > 0 then false else true) := by
  simp only [verifyOrder, IStream.ofFile, encodeFile, List.cons_append, List.append_assoc,
    List.nil_append, getline_record recordSize _ a _ ha,
    store_record recordSize _ a (length_newBuffer _ _) ha.1]
  rw [verifyOrderLoop]
  simp only [IStream.eof, Bool.not_false, Bool.and_self, ↓reduceIte, length_newBuffer,
    Nat.not_succ_le_self, getline_record recordSize _ b _ hb,
    store_record recordSize _ b (length_newBuffer _ _) hb.1, IStream.fail, Bool.true_and]
  by_cases h : strcmp (cstr a) (cstr b) > 0 <;> simp [h]

/-- C14, the slip. In `verifyOrder` the buffer `next` is first allocated with
`new char[_recordSize + 1]`, but at the end of every iteration it is replaced by
`new char[_recordSize]`, one byte short of what `getline` may store and of the index
`next[_recordSize]` written after it. On every file whose first two records `a`, `b` are well
formed and in order, whatever follows them, the second iteration writes past the end of that
buffer: the call has undefined behaviour and returns nothing the claim could speak of. The
call returns only when the loop runs at most once: false when the first pair is an inversion,
true on the empty file and on a file of one record. -/
theorem verifyOrder_second_read_overflows (recordSize : Nat) (mem : List Byte)
    (a b junk : List Byte) (ha : IsRecord recordSize a) (hb : IsRecord recordSize b)
    (fuel : Nat) (hfuel : 2 ≤ fuel) :
    (¬ strcmp (cstr a) (cstr b) > 0 →
      verifyOrder recordSize mem fuel (encodeFile [a, b] ++ junk) = .undefinedBehaviour) ∧
    (∀ rest : List (List Byte), (a :: b :: rest).Chain' recLe →
      verifyOrder recordSize mem fuel (encodeFile (a :: b :: rest)) = .undefinedBehaviour) ∧
    (strcmp (cstr a) (cstr b) > 0 →
      verifyOrder recordSize mem fuel (encodeFile [a, b] ++ junk) = .returned false) ∧
    verifyOrder recordSize mem fuel [] = .returned true ∧
    verifyOrder recordSize mem fuel (encodeFile [a]) = .returned true := by
  obtain ⟨fuel, rfl⟩ : ∃ f, fuel = f + 2 := ⟨fuel - 2, by omega⟩
  have hub : ∀ junk' : List Byte, ¬ strcmp (cstr a) (cstr b) > 0 →
      verifyOrder recordSize mem (fuel + 2) (encodeFile [a, b] ++ junk') =
        .undefinedBehaviour := by
    intro junk' h
    rw [verifyOrder_two_records recordSize mem a b junk' ha hb, if_neg h]
    exact verifyOrderLoop_short_buffer recordSize mem fuel _ _ rfl
  refine ⟨hub junk, ?_, ?_, ?_, ?_⟩
  · intro rest hchain
    have hab : recLe a b := (List.chain'_cons.mp hchain).1
    have e : encodeFile (a :: b :: rest) = encodeFile [a, b] ++ encodeFile rest := by
      simp [encodeFile]
    rw [e]
    exact hub _ (by unfold recLe at hab; omega)
  · intro h
    rw [verifyOrder_two_records recordSize mem a b junk ha hb, if_pos h]
    exact verifyOrderLoop_false _ _ _ _ _ _
  · simp only [verifyOrder, IStream.ofFile, getline_nil]
    exact verifyOrderLoop_eof _ _ _ _ _ _ _ rfl
  · simp only [verifyOrder, IStream.ofFile, encodeFile, getline_record recordSize _ a _ ha,
      store_record recordSize _ a (length_newBuffer _ _) ha.1]
    rw [verifyOrderLoop]
    simp only [IStream.eof, Bool.not_false, Bool.and_self, ↓reduceIte, length_newBuffer,
      Nat.not_succ_le_self, getline_nil, IStream.fail, Bool.not_true, Bool.false_and,
      Bool.false_eq_true]
    exact verifyOrderLoop_eof _ _ _ _ _ _ _ rfl

theorem verifyOrder_second_read_overflows_witness :
    (verifyOrder 2 [] 2 (encodeFile [[49, 50], [51, 52]] ++ []) = .undefinedBehaviour ∧
      verifyOrder 2 [] 2 (encodeFile [[49, 50]]) = .returned true) ∧
    fileSort.openInFile 2 2 "inputfile.txt" "outputfile.txt" "" []
        (Disk.empty.write "inputfile.txt" (encodeFile [[51, 52], [49, 50]])) =
      .returned (fileSort.init 2 2 "inputfile.txt" "outputfile.txt" "" []
        (Disk.empty.write "inputfile.txt" (encodeFile [[51, 52], [49, 50]]))
        (encodeFile [[51, 52], [49, 50]])) ∧
    ((fileSort.sort insertionSortBlock listHeap [] 4
      (fileSort.init 2 2 "inputfile.txt" "outputfile.txt" "" []
        (Disk.empty.write "inputfile.txt" (encodeFile [[51, 52], [49, 50]]))
        (encodeFile [[51, 52], [49, 50]]))).bind
      (fun fs => fs.verifyOrder [] 4 fs._outFileName)) = .undefinedBehaviour ∧
    ((fileSort.new insertionSortBlock listHeap [] 4 2 2 "inputfile.txt" "outputfile.txt" ""
      (Disk.empty.write "inputfile.txt" (encodeFile [[51, 52], [49, 50]]))).bind
      (fun _ => Outcome.returned ())) = .undefinedBehaviour := by
  have h := verifyOrder_second_read_overflows 2 [] [49, 50] [51, 52] [] (by decide)
    (by decide) 2 (by decide)
  exact ⟨⟨h.1 (by decide), h.2.2.2.2⟩, rfl, by decide, by decide⟩

/-! ## The extracted-record total -/

/-- C16. For every well-formed input of `N` records and `recordsPerBlock ≥ 1`, with the
run-file paths and the output path free: after the sort `getTotalItemsExtracted()` is `N`; the
run files `createSubfiles` leaves on the disk are in the file format and their record counts
sum to `N`; and the file at the output path holds `N` records. -/
theorem totalItemsExtracted_eq (sort : List (List Byte) → List (List Byte))
    (hsort : ∀ l, (sort l).Perm l) {H : Type} (M : MinHeap H) (bag : H → Multiset fileObj)
    (hbag : M.IsBag bag) (recordsPerBlock recordSize : Nat) (inputName outputName path : String)
    (mem : List Byte) (disk : Disk) (recs : List (List Byte)) (hB : 1 ≤ recordsPerBlock)
    (hwf : ∀ r ∈ recs, IsRecord recordSize r)
    (hin : disk.files (path ++ inputName) = some (encodeFile recs))
    (hsub : SubFilePathsOk disk inputName path)
    (hout : OutFilePathOk disk inputName outputName path) (fuel : Nat)
    (hfuel : recs.length + 2 ≤ fuel) :
    ∃ (fs0 fs1 fs2 : fileSort) (runs : List (List (List Byte))) (out : List (List Byte)),
      fileSort.openInFile recordsPerBlock recordSize inputName outputName path mem disk =
        .returned fs0 ∧
      createSubfiles sort fuel fs0 = .returned fs1 ∧
      fileSort.sort sort M mem fuel fs0 = .returned fs2 ∧
      fs1.getTotalItemsExtracted = recs.length ∧ fs2.getTotalItemsExtracted = recs.length ∧
      fs1._subFilePaths.map fs1.disk.files = runs.map (fun run => some (encodeFile run)) ∧
      (∀ run ∈ runs, ∀ r ∈ run, IsRecord recordSize r) ∧
      (runs.map List.length).sum = recs.length ∧
      fs2.disk.files (path ++ outputName) = some (encodeFile out) ∧
      (∀ r ∈ out, IsRecord recordSize r) ∧ out.length = recs.length := by
  obtain ⟨fs0, fs1, fs2, out, h0, h1, h2, -, ht1, -, hr1, -, -, -, ht2, -, h3, -, -, h4, -⟩ :=
    sort_spec_tail sort hsort M bag hbag recordsPerBlock recordSize inputName outputName path
      mem disk recs [] hB hwf ⟨Nat.zero_le _, List.not_mem_nil _⟩
      (by rw [List.append_nil]; exact hin) hsub hout fuel hfuel
  have hflat := flatten_map_runRecords_perm sort hsort (blocksOf recordsPerBlock recs)
  rw [flatten_blocksOf recordsPerBlock hB recs.length recs rfl] at hflat
  refine ⟨fs0, fs1, fs2, (blocksOf recordsPerBlock recs).map (runRecords sort), out, h0, h1,
    h2, ht1, ht2, hr1, ?_, ?_, h3, fun r hr => hwf r (h4.subset hr), h4.length_eq⟩
  · intro run hrun r hr
    exact hwf r (hflat.subset (List.mem_flatten.mpr ⟨run, hrun, hr⟩))
  · rw [← List.length_flatten, hflat.length_eq]

theorem totalItemsExtracted_eq_witness :
    ∃ (fs0 fs1 fs2 : fileSort) (runs : List (List (List Byte))) (out : List (List Byte)),
      fileSort.openInFile 2 2 "inputfile.txt" "outputfile.txt" "" []
        (Disk.empty.write "inputfile.txt" (encodeFile [[57, 51], [48, 48], [53, 53]])) =
        .returned fs0 ∧
      createSubfiles insertionSortBlock 5 fs0 = .returned fs1 ∧
      fileSort.sort insertionSortBlock listHeap [] 5 fs0 = .returned fs2 ∧
      fs1.getTotalItemsExtracted = 3 ∧ fs2.getTotalItemsExtracted = 3 ∧
      fs1._subFilePaths.map fs1.disk.files = runs.map (fun run => some (encodeFile run)) ∧
      (∀ run ∈ runs, ∀ r ∈ run, IsRecord 2 r) ∧
      (runs.map List.length).sum = 3 ∧
      fs2.disk.files ("" ++ "outputfile.txt") = some (encodeFile out) ∧
      (∀ r ∈ out, IsRecord 2 r) ∧ out.length = 3 :=
  totalItemsExtracted_eq insertionSortBlock (fun l => (isStdSort_insertionSortBlock l).1)
    listHeap (fun h => Multiset.ofList h) listHeap_isBag 2 2 "inputfile.txt" "outputfile.txt" ""
    [] (Disk.empty.write "inputfile.txt" (encodeFile [[57, 51], [48, 48], [53, 53]]))
    [[57, 51], [48, 48], [53, 53]] (by decide) (by decide) (by decide)
    (subFilePathsOk_of_head _ _ _ (fun _ => rfl) (by decide))
    (outFilePathOk_of_head _ _ _ _ (fun _ => rfl) (by decide) (by decide)) 5 (by decide)

/-! ## The number of run files the driver allows -/

/-- C17, failing input. With record size 1, 501 records and 2 bytes of memory the driver
accepts the configuration: its check `inputFileSize / maxMemory <= MAX_SUBFILES` sees
`501 / 2 = 250`, and it announces 250 subfiles of 2 records. On a disk that holds the input
file the driver generated, `createSubfiles` then writes `⌈501 / 2⌉ = 251` run files to 251
distinct paths, one more than `MAX_SUBFILES`, whatever the random records are. -/
theorem driver_accepts_251_runs :
    interactiveFileSortTest 1 501 2 = some
      { recordSize := 1, totalRecords := 501, inputFileSize := 501, minReqMem := 2,
        maxMemory := 2, totalSubfiles := 250, recordsPerBlock := 2 } ∧
    numRuns 2 501 = 251 ∧ MAX_SUBFILES < numRuns 2 501 ∧
    ∀ rand : Nat → Nat, ∃ (fs0 fs' : fileSort),
      fileSort.openInFile 2 1 INPUT_FILE_NAME OUTPUT_FILE_NAME FILE_PATH_PREFIX []
        (Disk.empty.write (FILE_PATH_PREFIX ++ INPUT_FILE_NAME)
          (generateInputFile 1 1 501 rand)) = .returned fs0 ∧
      createSubfiles insertionSortBlock 503 fs0 = .returned fs' ∧
      fs'._subFilePaths.length = 251 ∧ fs'._subFilePaths.Nodup ∧
      ∀ p ∈ fs'._subFilePaths, (fs'.disk.files p).isSome = true := by
  refine ⟨by decide, by decide, by decide, ?_⟩
  intro rand
  obtain ⟨recs, e, hl, hwf⟩ := generateInputFile_wf 1 1 501 rand
  have hin : (Disk.empty.write (FILE_PATH_PREFIX ++ INPUT_FILE_NAME)
      (generateInputFile 1 1 501 rand)).files (FILE_PATH_PREFIX ++ INPUT_FILE_NAME) =
      some (encodeFile recs ++ []) := by
    simp [Disk.write, e]
  obtain ⟨s', blk', h, -⟩ := createSubfiles_spec_tail insertionSortBlock
    (fun l => (isStdSort_insertionSortBlock l).1) 2 1 INPUT_FILE_NAME OUTPUT_FILE_NAME
    FILE_PATH_PREFIX [] (Disk.empty.write (FILE_PATH_PREFIX ++ INPUT_FILE_NAME)
      (generateInputFile 1 1 501 rand)) recs [] (by decide) hwf
    ⟨Nat.zero_le _, List.not_mem_nil _⟩
    (subFilePathsOk_of_head _ _ _ (fun _ => rfl) (by decide)) 503 (by omega)
  obtain ⟨hd0, -, -, -⟩ := diskWithRuns_spec insertionSortBlock 2 FILE_PATH_PREFIX
    (Disk.empty.write (FILE_PATH_PREFIX ++ INPUT_FILE_NAME) (generateInputFile 1 1 501 rand))
    recs
  have hruns : numRuns 2 recs.length = 251 := by rw [hl]; decide
  refine ⟨_, _, openInFile_eq 2 1 INPUT_FILE_NAME OUTPUT_FILE_NAME FILE_PATH_PREFIX [] _ _ hin,
    h, by simp [hruns], List.Nodup.map (subFileName_injective _) (List.nodup_range _), ?_⟩
  intro p hp
  obtain ⟨i, hi, rfl⟩ := List.mem_map.mp hp
  show (Option.isSome ((diskWithRuns _ _ _ _ _).files (subFileName FILE_PATH_PREFIX i))) = true
  rw [hd0 i (List.mem_range.mp hi)]
  rfl

/-! ## An undelimited final record -/

/-- C20. For every input of `N - 1 ≥ 0` well-formed records followed by a final record of
exactly `recordSize` bytes with no trailing newline, with the run-file paths and the output
path free: the read that returns the final record sets `eofbit`, so `createSubfiles` does not
count it and writes it to no run file: the run files and the output hold exactly the first
`N - 1` records and `getTotalItemsExtracted()` is `N - 1`; `countItems` returns `N - 1` for the
input path and for the output path, so the count comparison of `verifyFile` reports a
match. -/
theorem undelimited_final_record_lost (sort : List (List Byte) → List (List Byte))
    (hsort : ∀ l, (sort l).Perm l) {H : Type} (M : MinHeap H) (bag : H → Multiset fileObj)
    (hbag : M.IsBag bag) (recordsPerBlock recordSize : Nat) (inputName outputName path : String)
    (mem : List Byte) (disk : Disk) (recs : List (List Byte)) (final : List Byte)
    (hB : 1 ≤ recordsPerBlock) (hwf : ∀ r ∈ recs, IsRecord recordSize r)
    (hfinal : IsRecord recordSize final)
    (hin : disk.files (path ++ inputName) = some (encodeFile recs ++ final))
    (hsub : SubFilePathsOk disk inputName path)
    (hout : OutFilePathOk disk inputName outputName path) (fuel : Nat)
    (hfuel : recs.length + 2 ≤ fuel) :
    ∃ (fs0 fs1 fs2 : fileSort) (runs : List (List (List Byte))) (out : List (List Byte)),
      fileSort.openInFile recordsPerBlock recordSize inputName outputName path mem disk =
        .returned fs0 ∧
      createSubfiles sort fuel fs0 = .returned fs1 ∧
      fs1._inFile.eof = true ∧
      fs1._subFilePaths.map fs1.disk.files = runs.map (fun run => some (encodeFile run)) ∧
      Multiset.ofList runs.flatten = Multiset.ofList recs ∧
      fileSort.sort sort M mem fuel fs0 = .returned fs2 ∧
      fs2.disk.files (path ++ outputName) = some (encodeFile out) ∧
      Multiset.ofList out = Multiset.ofList recs ∧
      fs2.getTotalItemsExtracted = recs.length ∧
      fs2.countItems mem fuel fs2._inFileName = .returned recs.length ∧
      fs2.countItems mem fuel fs2._outFileName = .returned recs.length ∧
      itemCountOk mem fuel fs2 = .returned true := by
  have ht : IsLine recordSize final := ⟨le_of_eq hfinal.1, hfinal.2⟩
  obtain ⟨fs0, fs1, fs2, out, h0, h1, h2, heof, -, -, hr1, hrs, hiname, honame, ht2, -, h3, hi,
      -, h4, -⟩ :=
    sort_spec_tail sort hsort M bag hbag recordsPerBlock recordSize inputName outputName path
      mem disk recs final hB hwf ht hin hsub hout fuel hfuel
  have hflat : ((blocksOf recordsPerBlock recs).map (runRecords sort)).flatten.Perm recs := by
    have := flatten_map_runRecords_perm sort hsort (blocksOf recordsPerBlock recs)
    rwa [flatten_blocksOf recordsPerBlock hB recs.length recs rfl] at this
  have hcin' : countItems recordSize mem fuel (encodeFile recs ++ final) = some recs.length := by
    unfold countItems IStream.ofFile
    rw [countItemsLoop_lines recordSize recs final
      (fun l hl => ⟨le_of_eq (hwf l hl).1, (hwf l hl).2⟩) ht fuel hfuel]
    simp
  have hcin : fs2.countItems mem fuel fs2._inFileName = .returned recs.length := by
    simp [fileSort.countItems, hiname, hi, hrs, hcin']
  have hcout : fs2.countItems mem fuel fs2._outFileName = .returned recs.length := by
    rw [← h4.length_eq]
    exact countItems_path fs2 mem out _ (by rw [honame]; exact h3)
      (fun r hr => by rw [hrs]; exact hwf r (h4.subset hr)) fuel
      (by rw [h4.length_eq]; exact hfuel)
  refine ⟨fs0, fs1, fs2, (blocksOf recordsPerBlock recs).map (runRecords sort), out, h0, h1,
    heof, hr1, Multiset.coe_eq_coe.mpr hflat, h2, h3, Multiset.coe_eq_coe.mpr h4, ht2, hcin,
    hcout, ?_⟩
  unfold itemCountOk
  rw [hcin, hcout]
  simp [Outcome.bind]

theorem undelimited_final_record_lost_witness :
    ∃ (fs0 fs1 fs2 : fileSort) (runs : List (List (List Byte))) (out : List (List Byte)),
      fileSort.openInFile 2 2 "inputfile.txt" "outputfile.txt" "" []
        (Disk.empty.write "inputfile.txt" (encodeFile [[51, 52], [49, 50]] ++ [48, 48])) =
        .returned fs0 ∧
      createSubfiles insertionSortBlock 4 fs0 = .returned fs1 ∧
      fs1._inFile.eof = true ∧
      fs1._subFilePaths.map fs1.disk.files = runs.map (fun run => some (encodeFile run)) ∧
      Multiset.ofList runs.flatten = Multiset.ofList [[(51 : Byte), 52], [49, 50]] ∧
      fileSort.sort insertionSortBlock listHeap [] 4 fs0 = .returned fs2 ∧
      fs2.disk.files ("" ++ "outputfile.txt") = some (encodeFile out) ∧
      Multiset.ofList out = Multiset.ofList [[(51 : Byte), 52], [49, 50]] ∧
      fs2.getTotalItemsExtracted = 2 ∧
      fs2.countItems [] 4 fs2._inFileName = .returned 2 ∧
      fs2.countItems [] 4 fs2._outFileName = .returned 2 ∧
      itemCountOk [] 4 fs2 = .returned true :=
  undelimited_final_record_lost insertionSortBlock
    (fun l => (isStdSort_insertionSortBlock l).1) listHeap (fun h => Multiset.ofList h)
    listHeap_isBag 2 2 "inputfile.txt" "outputfile.txt" "" []
    (Disk.empty.write "inputfile.txt" (encodeFile [[51, 52], [49, 50]] ++ [48, 48]))
    [[51, 52], [49, 50]] [48, 48] (by decide) (by decide) (by decide) (by decide)
    (subFilePathsOk_of_head _ _ _ (fun _ => rfl) (by decide))
    (outFilePathOk_of_head _ _ _ _ (fun _ => rfl) (by decide) (by decide)) 4 (by decide)

/-! ## Termination of run generation -/

theorem splitLines_spec (content : List Byte) :
    encodeFile (splitLines content).1 ++ (splitLines content).2 = content ∧
    (∀ l ∈ (splitLines content).1, newline ∉ l) ∧ newline ∉ (splitLines content).2 := by
  induction content with
  | nil => simp [splitLines, encodeFile]
  | cons c cs ih =>
    obtain ⟨h1, h2, h3⟩ := ih
    rw [splitLines]
    by_cases hc : c = newline
    · simp only [hc, ↓reduceIte, encodeFile, List.nil_append, List.cons_append]
      refine ⟨by rw [h1], ?_, h3⟩
      intro l hl
      rcases List.mem_cons.mp hl with rfl | hl
      · simp
      · exact h2 l hl
    · simp only [hc, ↓reduceIte]
      rcases hs : (splitLines cs).1 with _ | ⟨l, ls⟩
      · rw [hs] at h1 h2
        simp only [encodeFile, List.nil_append] at h1 ⊢
        refine ⟨by rw [h1], by simp, ?_⟩
        intro hmem
        rcases List.mem_cons.mp hmem with h | h
        · exact hc h.symm
        · exact h3 h
      · rw [hs] at h1 h2
        simp only [encodeFile, List.cons_append, List.append_assoc] at h1 ⊢
        refine ⟨by rw [h1], ?_, h3⟩
        intro x hx
        rcases List.mem_cons.mp hx with rfl | hx
        · intro hmem
          rcases List.mem_cons.mp hmem with h | h
          · exact hc h.symm
          · exact h2 l (by simp) h
        · exact h2 x (List.mem_cons_of_mem _ hx)

theorem getline_fst (s : IStream) (buf : List Byte) (recordSize : Nat) :
    (s.getline buf (recordSize + 1) newline).1 = s.afterGetline recordSize := by
  unfold IStream.afterGetline IStream.getline
  split
  · rcases extract newline (recordSize + 1 - 1) s.data with ⟨got, rest⟩
    cases rest with
    | nil => rfl
    | cons c cs =>
      simp only
      split <;> rfl
  · rfl

/-- The stream the inner loop of `createSubfiles` leaves is the stream after some number of
calls of `getline`. -/
theorem readBlock_stream (recordSize recordsPerBlock : Nat) :
    ∀ (fuel : Nat) (s : IStream) (blk : List (List Byte)) (k : Nat),
      ∃ i, (readBlock recordSize recordsPerBlock fuel s blk k).1 =
        (IStream.afterGetline recordSize)^[i] s := by
  intro fuel
  induction fuel with
  | zero => intro s blk k; exact ⟨0, rfl⟩
  | succ fuel ih =>
    intro s blk k
    rw [readBlock]
    split
    · split
      · obtain ⟨i, hi⟩ := ih (s.getline (blk.getD k []) (recordSize + 1) newline).1
          (blk.set k ((s.getline (blk.getD k []) (recordSize + 1) newline).2.set recordSize 0))
          (k + 1)
        exact ⟨i + 1, by rw [hi, getline_fst, Function.iterate_succ_apply]⟩
      · obtain ⟨i, hi⟩ := ih (s.getline (blk.getD k []) (recordSize + 1) newline).1
          (blk.set k (s.getline (blk.getD k []) (recordSize + 1) newline).2) k
        exact ⟨i + 1, by rw [hi, getline_fst, Function.iterate_succ_apply]⟩
    · exact ⟨0, rfl⟩

/-- If no number of calls of `getline` sets `eofbit`, the outer loop of `createSubfiles` does
not return, whatever the fuel (the run-file paths being free). -/
theorem createSubfilesLoop_outOfFuel_of_never_eof (sort : List (List Byte) → List (List Byte)) :
    ∀ (fuel : Nat) (fs : fileSort) (j : Nat),
      (∀ i, ((IStream.afterGetline fs._recordSize)^[i] fs._inFile).eofbit = false) →
      (∀ i, fs.disk.writable (subFileName fs._filePath i) = true ∧
        subFileName fs._filePath i ≠ fs._inFileName) →
      createSubfilesLoop sort fuel fs j = .outOfFuel := by
  intro fuel
  induction fuel with
  | zero => intro fs j _ _; rfl
  | succ fuel ih =>
    intro fs j h hnames
    have h0 : fs._inFile.eof = false := h 0
    obtain ⟨i0, hi0⟩ := readBlock_stream fs._recordSize fs._recordsPerBlock
      (fs._recordsPerBlock + 1) fs._inFile fs._theBlock 0
    have hnext : ∀ i, ((IStream.afterGetline fs._recordSize)^[i]
        (readBlock fs._recordSize fs._recordsPerBlock (fs._recordsPerBlock + 1) fs._inFile
          fs._theBlock 0).1).eofbit = false := by
      intro i
      rw [hi0, ← Function.iterate_add_apply]
      exact h (i + i0)
    rw [createSubfilesLoop]
    simp only [h0, Bool.false_eq_true, ↓reduceIte, (hnames j).1, (hnames j).2,
      Bool.true_eq_false]
    split
    · exact ih _ _ hnext hnames
    · exact ih _ _ hnext hnames

theorem afterGetline_stuck (recordSize : Nat) (s : IStream) (he : s.eofbit = false)
    (hf : s.failbit = true) (i : Nat) :
    ((IStream.afterGetline recordSize)^[i] s).eofbit = false := by
  induction i generalizing s with
  | zero => exact he
  | succ i ih =>
    rw [Function.iterate_succ_apply]
    apply ih
    · simp [IStream.afterGetline, IStream.getline, IStream.good, he, hf]
    · simp [IStream.afterGetline, IStream.getline, IStream.good, he, hf]

/-- A run of more than `room` bytes without a delimiter fills the buffer and leaves a byte
that is not a delimiter. -/
theorem extract_long (room : Nat) (l rest : List Byte) (hn : newline ∉ l)
    (hl : room < l.length) :
    ∃ got c cs, extract newline room (l ++ rest) = (got, c :: cs) ∧ c ≠ newline := by
  induction l generalizing room with
  | nil => simp at hl
  | cons x xs ih =>
    have hx : x ≠ newline := fun e => hn (by simp [e])
    have hxs : newline ∉ xs := fun h => hn (List.mem_cons_of_mem _ h)
    cases room with
    | zero => exact ⟨[], x, xs ++ rest, by simp [extract], hx⟩
    | succ room =>
      obtain ⟨got, c, cs, h1, h2⟩ := ih room hxs (by simpa using hl)
      exact ⟨x :: got, c, cs, by simp [extract, hx, h1], h2⟩

theorem afterGetline_long (recordSize : Nat) (l rest : List Byte) (hn : newline ∉ l)
    (hl : recordSize < l.length) :
    (IStream.afterGetline recordSize
      { data := l ++ rest, eofbit := false, failbit := false }).eofbit = false ∧
    (IStream.afterGetline recordSize
      { data := l ++ rest, eofbit := false, failbit := false }).failbit = true := by
  obtain ⟨got, c, cs, h1, h2⟩ := extract_long recordSize l rest hn hl
  simp [IStream.afterGetline, IStream.getline, IStream.good, h1, h2]

/-- On a file with a line of more than `recordSize` bytes no number of calls of `getline`
sets `eofbit`. -/
theorem never_eof_of_long_line (recordSize : Nat) (tail : List Byte) (ht : newline ∉ tail) :
    ∀ (lines : List (List Byte)), (∀ l ∈ lines, newline ∉ l) →
      ((∃ l ∈ lines, recordSize < l.length) ∨ recordSize < tail.length) →
      ∀ i, ((IStream.afterGetline recordSize)^[i]
        { data := encodeFile lines ++ tail, eofbit := false, failbit := false }).eofbit
          = false := by
  intro lines
  induction lines with
  | nil =>
    intro _ hlong i
    have hl : recordSize < tail.length := by
      rcases hlong with ⟨l, hl, -⟩ | h
      · simp at hl
      · exact h
    cases i with
    | zero => rfl
    | succ i =>
      rw [Function.iterate_succ_apply]
      have := afterGetline_long recordSize tail [] ht hl
      simp only [List.append_nil] at this
      exact afterGetline_stuck recordSize _ this.1 this.2 i
  | cons l lines ih =>
    intro hn hlong i
    cases i with
    | zero => rfl
    | succ i =>
      rw [Function.iterate_succ_apply]
      have hnl : newline ∉ l := hn l (by simp)
      by_cases hl : recordSize < l.length
      · have := afterGetline_long recordSize l (newline :: (encodeFile lines ++ tail)) hnl hl
        simp only [encodeFile, List.cons_append, List.append_assoc]
        exact afterGetline_stuck recordSize _ this.1 this.2 i
      · have hstep : IStream.afterGetline recordSize
            { data := encodeFile (l :: lines) ++ tail, eofbit := false, failbit := false } =
            { data := encodeFile lines ++ tail, eofbit := false, failbit := false } := by
          simp only [IStream.afterGetline, encodeFile, List.cons_append, List.append_assoc]
          rw [getline_line recordSize [] l _ ⟨by omega, hnl⟩]
        rw [hstep]
        apply ih (fun x hx => hn x (List.mem_cons_of_mem _ hx))
        rcases hlong with ⟨x, hx, hxl⟩ | h
        · rcases List.mem_cons.mp hx with rfl | hx
          · exact absurd hxl hl
          · exact Or.inl ⟨x, hx, hxl⟩
        · exact Or.inr h


/-- With `recordsPerBlock = 0` the inner loop of `createSubfiles` never reads. -/
theorem readBlock_zero (recordSize fuel : Nat) (s : IStream) (blk : List (List Byte)) :
    readBlock recordSize 0 fuel s blk 0 = (s, blk, 0) := by
  cases fuel <;> simp [readBlock]

theorem createSubfilesLoop_outOfFuel_of_zero (sort : List (List Byte) → List (List Byte)) :
    ∀ (fuel : Nat) (fs : fileSort) (j : Nat), fs._recordsPerBlock = 0 →
      fs._inFile.eof = false → createSubfilesLoop sort fuel fs j = .outOfFuel := by
  intro fuel
  induction fuel with
  | zero => intro fs j _ _; rfl
  | succ fuel ih =>
    intro fs j hB he
    rw [createSubfilesLoop]
    have hr : readBlock fs._recordSize fs._recordsPerBlock (fs._recordsPerBlock + 1) fs._inFile
        fs._theBlock 0 = (fs._inFile, fs._theBlock, 0) := by
      rw [hB]; exact readBlock_zero _ _ _ _
    simp only [he, Bool.false_eq_true, ↓reduceIte, hr, gt_iff_lt, Nat.lt_irrefl]
    exact ih _ _ hB he

/-- The stream the inner loop leaves on lines of at most `recordSize` bytes: good and past the
lines read if the block was filled, with `eofbit` set otherwise. -/
theorem readBlock_lines_stream (recordSize recordsPerBlock : Nat) (tail : List Byte)
    (ht : IsLine recordSize tail) :
    ∀ (fuel : Nat) (lines blk : List (List Byte)) (k : Nat),
      (∀ l ∈ lines, IsLine recordSize l) → k ≤ recordsPerBlock →
      recordsPerBlock - k + 1 ≤ fuel →
      (recordsPerBlock - k ≤ lines.length →
        (readBlock recordSize recordsPerBlock fuel
          { data := encodeFile lines ++ tail, eofbit := false, failbit := false } blk k).1 =
          { data := encodeFile (lines.drop (recordsPerBlock - k)) ++ tail,
            eofbit := false, failbit := false }) ∧
      (lines.length < recordsPerBlock - k →
        (readBlock recordSize recordsPerBlock fuel
          { data := encodeFile lines ++ tail, eofbit := false, failbit := false } blk k).1.eofbit
          = true) := by
  intro fuel
  induction fuel with
  | zero => intro lines blk k _ _ hf; omega
  | succ fuel ih =>
    intro lines blk k hl hk hf
    by_cases hkB : k < recordsPerBlock
    · cases lines with
      | nil =>
        have hstep : readBlock recordSize recordsPerBlock (fuel + 1)
            { data := encodeFile [] ++ tail, eofbit := false, failbit := false } blk k =
            ({ data := [], eofbit := true, failbit := tail.isEmpty },
              blk.set k (store (blk.getD k []) tail), k) := by
          simp only [readBlock, IStream.good, encodeFile, List.nil_append,
            getline_tail recordSize _ tail ht]
          simp [hkB, readBlock_not_good, IStream.good]
        rw [hstep]
        exact ⟨fun h => by simp at h; omega, fun _ => rfl⟩
      | cons l ls =>
        have hl0 : IsLine recordSize l := hl l (by simp)
        have hstep : readBlock recordSize recordsPerBlock (fuel + 1)
            { data := encodeFile (l :: ls) ++ tail, eofbit := false, failbit := false } blk k =
            readBlock recordSize recordsPerBlock fuel
              { data := encodeFile ls ++ tail, eofbit := false, failbit := false }
              (blk.set k ((store (blk.getD k []) l).set recordSize 0)) (k + 1) := by
          simp only [readBlock, IStream.good, encodeFile, List.cons_append, List.append_assoc,
            getline_line recordSize _ l _ hl0]
          simp [hkB]
        rw [hstep]
        obtain ⟨h1, h2⟩ := ih ls (blk.set k ((store (blk.getD k []) l).set recordSize 0))
          (k + 1) (fun x hx => hl x (List.mem_cons_of_mem _ hx)) (by omega) (by omega)
        have e1 : recordsPerBlock - k = (recordsPerBlock - (k + 1)) + 1 := by omega
        constructor
        · intro hle
          rw [h1 (by simp at hle; omega), e1]
          simp
        · intro hlt
          exact h2 (by simp at hlt; omega)
    · have hk' : k = recordsPerBlock := by omega
      subst hk'
      exact ⟨fun _ => by simp [readBlock], fun h => by simp at h⟩

/-- On lines of at most `recordSize` bytes and with `recordsPerBlock ≥ 1` the outer loop of
`createSubfiles` returns once the fuel exceeds the number of lines by two (the run-file paths
being free). -/
theorem createSubfilesLoop_terminates (sort : List (List Byte) → List (List Byte))
    (tail : List Byte) :
    ∀ (n : Nat) (lines : List (List Byte)) (fuel : Nat) (fs : fileSort) (j : Nat),
      lines.length = n → (∀ l ∈ lines, IsLine fs._recordSize l) → IsLine fs._recordSize tail →
      1 ≤ fs._recordsPerBlock →
      (fs._inFile = { data := encodeFile lines ++ tail, eofbit := false, failbit := false } ∨
        (fs._inFile.eof = true ∧ lines = [])) →
      (∀ i, fs.disk.writable (subFileName fs._filePath i) = true ∧
        subFileName fs._filePath i ≠ fs._inFileName) →
      n + 2 ≤ fuel → ∃ fs', createSubfilesLoop sort fuel fs j = .returned fs' := by
  intro n
  induction n using Nat.strong_induction_on with
  | _ n ih =>
    intro lines fuel fs j hn hl ht hB hs hnames hfuel
    obtain ⟨fuel, rfl⟩ : ∃ f, fuel = f + 1 := ⟨fuel - 1, by omega⟩
    rcases hs with hs | ⟨hs, -⟩
    · have heof : fs._inFile.eof = false := by rw [hs]; rfl
      obtain ⟨hgood, heofbit⟩ := readBlock_lines_stream fs._recordSize fs._recordsPerBlock tail
        ht (fs._recordsPerBlock + 1) lines fs._theBlock 0 hl (by omega) (by omega)
      rw [← hs] at hgood heofbit
      simp only [Nat.sub_zero] at hgood heofbit
      have key : ∀ fs1 : fileSort, fs1._recordSize = fs._recordSize →
          fs1._recordsPerBlock = fs._recordsPerBlock →
          fs1._inFile = (readBlock fs._recordSize fs._recordsPerBlock
            (fs._recordsPerBlock + 1) fs._inFile fs._theBlock 0).1 →
          (∀ i, fs1.disk.writable (subFileName fs1._filePath i) = true ∧
            subFileName fs1._filePath i ≠ fs1._inFileName) →
          ∀ j1, ∃ fs', createSubfilesLoop sort fuel fs1 j1 = .returned fs' := by
        intro fs1 h1 h2 h3 hn1 j1
        by_cases hle : fs._recordsPerBlock ≤ lines.length
        · exact ih (n - fs._recordsPerBlock) (by omega) (lines.drop fs._recordsPerBlock) fuel
            fs1 j1 (by simp [hn])
            (fun l hl' => by rw [h1]; exact hl l (List.mem_of_mem_drop hl'))
            (by rw [h1]; exact ht) (by rw [h2]; exact hB)
            (Or.inl (by rw [h3, hgood hle])) hn1 (by omega)
        · obtain ⟨fuel, rfl⟩ : ∃ f, fuel = f + 1 := ⟨fuel - 1, by omega⟩
          exact ⟨fs1, createSubfilesLoop_eof sort fuel fs1 j1
            (by rw [h3]; exact heofbit (by omega))⟩
      rw [createSubfilesLoop]
      simp only [heof, Bool.false_eq_true, ↓reduceIte, (hnames j).1, (hnames j).2,
        Bool.true_eq_false]
      split
      · refine key _ ?_ ?_ ?_ ?_ _ <;> first | rfl | exact hnames
      · refine key _ ?_ ?_ ?_ ?_ _ <;> first | rfl | exact hnames
    · obtain ⟨fuel, rfl⟩ : ∃ f, fuel = f + 1 := ⟨fuel - 1, by omega⟩
      exact ⟨fs, by rw [createSubfilesLoop]; simp [hs]⟩

/-- C19. For every record width and every input file on the disk, when every run-file path
can be written and none is the input path: `createSubfiles` terminates (returns for some fuel)
if and only if `recordsPerBlock ≥ 1` and no line of the input has more than `recordSize` bytes
before its newline or before the end of the file; when it does, fuel exceeding the number of
lines by two is enough, and when it does not, the loop runs out of every fuel. Once `failbit`
is set the inner loop reads nothing and leaves the stream as it is, and with
`recordsPerBlock = 0` the inner loop never reads. -/
theorem createSubfiles_terminates_iff (sort : List (List Byte) → List (List Byte))
    (recordsPerBlock recordSize : Nat) (inputName outputName path : String)
    (mem content : List Byte) (disk : Disk)
    (hin : disk.files (path ++ inputName) = some content)
    (hsub : SubFilePathsOk disk inputName path) :
    ∃ fs0 : fileSort,
    fileSort.openInFile recordsPerBlock recordSize inputName outputName path mem disk =
      .returned fs0 ∧
    ((∃ fuel fs', createSubfiles sort fuel fs0 = .returned fs') ↔
      (1 ≤ recordsPerBlock ∧ (∀ l ∈ (splitLines content).1, l.length ≤ recordSize) ∧
        (splitLines content).2.length ≤ recordSize)) ∧
    ((1 ≤ recordsPerBlock ∧ (∀ l ∈ (splitLines content).1, l.length ≤ recordSize) ∧
        (splitLines content).2.length ≤ recordSize) →
      ∀ fuel, (splitLines content).1.length + 2 ≤ fuel →
        ∃ fs', createSubfiles sort fuel fs0 = .returned fs') ∧
    (¬ (1 ≤ recordsPerBlock ∧ (∀ l ∈ (splitLines content).1, l.length ≤ recordSize) ∧
        (splitLines content).2.length ≤ recordSize) →
      ∀ fuel, createSubfiles sort fuel fs0 = .outOfFuel) ∧
    (∀ (fuel : Nat) (s : IStream) (blk : List (List Byte)) (k : Nat), s.failbit = true →
      readBlock recordSize recordsPerBlock fuel s blk k = (s, blk, k)) ∧
    (∀ (fuel : Nat) (s : IStream) (blk : List (List Byte)),
      readBlock recordSize 0 fuel s blk 0 = (s, blk, 0)) := by
  obtain ⟨hc, hnl, hnt⟩ := splitLines_spec content
  have hinit : (fileSort.init recordsPerBlock recordSize inputName outputName path mem disk
      content)._inFile =
      { data := encodeFile (splitLines content).1 ++ (splitLines content).2
        eofbit := false
        failbit := false } := by
    rw [hc]; rfl
  have hterm : (1 ≤ recordsPerBlock ∧ (∀ l ∈ (splitLines content).1, l.length ≤ recordSize) ∧
        (splitLines content).2.length ≤ recordSize) →
      ∀ fuel, (splitLines content).1.length + 2 ≤ fuel →
        ∃ fs', createSubfiles sort fuel
          (fileSort.init recordsPerBlock recordSize inputName outputName path mem disk content)
          = .returned fs' := by
    rintro ⟨hB, hl, ht⟩ fuel hfuel
    exact createSubfilesLoop_terminates sort (splitLines content).2
      (splitLines content).1.length (splitLines content).1 fuel
      (fileSort.init recordsPerBlock recordSize inputName outputName path mem disk content) 0
      rfl (fun l hl' => ⟨hl l hl', hnl l hl'⟩) ⟨ht, hnt⟩ hB (Or.inl hinit) hsub hfuel
  have hloop : ¬ (1 ≤ recordsPerBlock ∧
        (∀ l ∈ (splitLines content).1, l.length ≤ recordSize) ∧
        (splitLines content).2.length ≤ recordSize) →
      ∀ fuel, createSubfiles sort fuel
        (fileSort.init recordsPerBlock recordSize inputName outputName path mem disk content)
        = .outOfFuel := by
    intro hcond fuel
    unfold createSubfiles
    rcases Nat.eq_zero_or_pos recordsPerBlock with hB | hB
    · exact createSubfilesLoop_outOfFuel_of_zero sort fuel _ 0 hB rfl
    · apply createSubfilesLoop_outOfFuel_of_never_eof
      · rw [hinit]
        apply never_eof_of_long_line recordSize _ hnt _ hnl
        by_contra hno
        apply hcond
        refine ⟨hB, fun l hl => ?_, ?_⟩
        · by_contra hlt
          exact hno (Or.inl ⟨l, hl, by omega⟩)
        · by_contra hlt
          exact hno (Or.inr (by omega))
      · exact hsub
  refine ⟨_, openInFile_eq recordsPerBlock recordSize inputName outputName path mem disk _ hin,
    ⟨?_, fun h => ?_⟩, hterm, hloop, ?_, fun fuel s blk => readBlock_zero recordSize fuel s blk⟩
  · rintro ⟨fuel, fs', h⟩
    by_contra hcond
    rw [hloop hcond fuel] at h
    exact Outcome.noConfusion h
  · obtain ⟨fs', h'⟩ := hterm h _ (le_refl _)
    exact ⟨_, fs', h'⟩
  · intro fuel s blk k hf
    exact readBlock_not_good recordSize recordsPerBlock fuel s blk k
      (by simp [IStream.good, hf])

theorem createSubfiles_terminates_iff_witness :
    ∃ fs0 : fileSort,
    fileSort.openInFile 2 2 "inputfile.txt" "outputfile.txt" "" []
      (Disk.empty.write "inputfile.txt" [49, 50, 51, 10, 52]) = .returned fs0 ∧
    (¬ ∃ fuel fs', createSubfiles insertionSortBlock fuel fs0 = .returned fs') ∧
    ∀ fuel, createSubfiles insertionSortBlock fuel fs0 = .outOfFuel := by
  obtain ⟨fs0, h0, h1, -, h3, -⟩ := createSubfiles_terminates_iff insertionSortBlock 2 2
    "inputfile.txt" "outputfile.txt" "" [] [49, 50, 51, 10, 52]
    (Disk.empty.write "inputfile.txt" [49, 50, 51, 10, 52]) (by decide)
    (subFilePathsOk_of_head _ _ _ (fun _ => rfl) (by decide))
  exact ⟨fs0, h0, fun h => absurd (h1.mp h) (by decide), h3 (by decide)⟩

/-! ## The block size the driver passes -/

/-- C21. For every `recordSize` in `[1, MAX_RECORD_SIZE]` and `totalRecords` in
`[1, MAX_MEMORY * MAX_SUBFILES / MAX_RECORD_SIZE]`, the two numbers the driver has accepted
when it reaches `assert(minReqMem <= MAX_MEMORY)`: the products the driver forms fit in 64
bits, `minReqMem` is `max (totalRecords * recordSize / MAX_SUBFILES) recordSize`, and the
`assert` holds. For every `maxMemory` the driver then accepts, that is every `maxMemory` in
`[minReqMem, MAX_MEMORY]`: `totalSubfiles` lies between 1 and `totalRecords`, and
`recordsPerBlock = totalRecords / totalSubfiles` is at least 1; these are the values of the
configuration the driver builds when its last `assert` passes. -/
theorem driver_recordsPerBlock_pos (recordSize totalRecords : Nat)
    (hr : 1 ≤ recordSize ∧ recordSize ≤ MAX_RECORD_SIZE)
    (ht : 1 ≤ totalRecords ∧ totalRecords ≤ MAX_MEMORY * MAX_SUBFILES / MAX_RECORD_SIZE) :
    (MAX_MEMORY * MAX_SUBFILES < 2 ^ 64 ∧ totalRecords * recordSize < 2 ^ 64) ∧
    driverMinReqMem recordSize totalRecords =
      max (totalRecords * recordSize / MAX_SUBFILES) recordSize ∧
    driverMinReqMem recordSize totalRecords ≤ MAX_MEMORY ∧
    ∀ maxMemory : Nat,
      driverMinReqMem recordSize totalRecords ≤ maxMemory ∧ maxMemory ≤ MAX_MEMORY →
      (1 ≤ driverTotalSubfiles recordSize totalRecords maxMemory ∧
        driverTotalSubfiles recordSize totalRecords maxMemory ≤ totalRecords) ∧
      1 ≤ driverRecordsPerBlock recordSize totalRecords maxMemory ∧
      interactiveFileSortTest recordSize totalRecords maxMemory =
        (if totalRecords * recordSize / maxMemory ≤ MAX_SUBFILES then
          some
            { recordSize := recordSize
              totalRecords := totalRecords
              inputFileSize := totalRecords * recordSize
              minReqMem := driverMinReqMem recordSize totalRecords
              maxMemory := maxMemory
              totalSubfiles := driverTotalSubfiles recordSize totalRecords maxMemory
              recordsPerBlock := driverRecordsPerBlock recordSize totalRecords maxMemory }
        else none) := by
  obtain ⟨hr1, hr2⟩ := hr
  obtain ⟨ht1, ht2⟩ := ht
  have hT : MAX_MEMORY * MAX_SUBFILES / MAX_RECORD_SIZE = 1953125000 := by decide
  have hR : MAX_RECORD_SIZE = 1024 := rfl
  have hM : MAX_MEMORY = 8000000000 := rfl
  have hS : MAX_SUBFILES = 250 := rfl
  have hmul : totalRecords * recordSize ≤ 1953125000 * 1024 := by
    rw [hT] at ht2
    rw [hR] at hr2
    exact Nat.mul_le_mul ht2 hr2
  have hlt : totalRecords * recordSize < 2 ^ 64 := by
    have : (1953125000 * 1024 : Nat) < 2 ^ 64 := by decide
    omega
  have hsize : sizeT (totalRecords * recordSize) = totalRecords * recordSize :=
    Nat.mod_eq_of_lt hlt
  have hsize2 : sizeT (MAX_MEMORY * MAX_SUBFILES) = MAX_MEMORY * MAX_SUBFILES :=
    Nat.mod_eq_of_lt (by decide)
  have hmineq : driverMinReqMem recordSize totalRecords =
      max (totalRecords * recordSize / MAX_SUBFILES) recordSize := by
    unfold driverMinReqMem
    rw [hsize]
  have hmin : driverMinReqMem recordSize totalRecords ≤ MAX_MEMORY := by
    rw [hmineq, hS, hM]
    rw [hR] at hr2
    have h1 : totalRecords * recordSize / 250 ≤ 1953125000 * 1024 / 250 :=
      Nat.div_le_div_right hmul
    have h2 : (1953125000 * 1024 / 250 : Nat) = 8000000000 := by decide
    exact max_le (by omega) (by omega)
  refine ⟨⟨by decide, hlt⟩, hmineq, hmin, ?_⟩
  rintro maxMemory ⟨hm1, hm2⟩
  have hm1' : max (totalRecords * recordSize / MAX_SUBFILES) recordSize ≤ maxMemory := by
    rw [← hmineq]; exact hm1
  have hrm : recordSize ≤ maxMemory := le_trans (le_max_right _ _) hm1'
  have hdiv : totalRecords * recordSize / maxMemory ≤ totalRecords := by
    calc totalRecords * recordSize / maxMemory
        ≤ totalRecords * recordSize / recordSize := Nat.div_le_div_left hrm (by omega)
      _ = totalRecords := Nat.mul_div_cancel _ (by omega)
  have hsub : 1 ≤ driverTotalSubfiles recordSize totalRecords maxMemory ∧
      driverTotalSubfiles recordSize totalRecords maxMemory ≤ totalRecords := by
    unfold driverTotalSubfiles
    rw [hsize]
    by_cases h0 : totalRecords * recordSize / maxMemory = 0
    · rw [if_pos h0]; exact ⟨le_refl _, ht1⟩
    · rw [if_neg h0]; exact ⟨Nat.pos_of_ne_zero h0, hdiv⟩
  have hrpb : 1 ≤ driverRecordsPerBlock recordSize totalRecords maxMemory := by
    unfold driverRecordsPerBlock
    exact (Nat.le_div_iff_mul_le hsub.1).mpr (by rw [Nat.one_mul]; exact hsub.2)
  refine ⟨hsub, hrpb, ?_⟩
  have hmin' : max (totalRecords * recordSize / MAX_SUBFILES) recordSize ≤ MAX_MEMORY := by
    rw [← hmineq]; exact hmin
  simp only [interactiveFileSortTest, getNumInRange, hr1, hr2, ht1, ht2, hsize, hsize2,
    and_self, ↓reduceIte, Option.some_bind, hmin', hm1', hm2, driverMinReqMem,
    driverTotalSubfiles, driverRecordsPerBlock]

theorem driver_recordsPerBlock_pos_witness :
    driverMinReqMem 4 1000 ≤ MAX_MEMORY ∧
    (1 ≤ driverTotalSubfiles 4 1000 512 ∧ driverTotalSubfiles 4 1000 512 ≤ 1000) ∧
    1 ≤ driverRecordsPerBlock 4 1000 512 ∧
    interactiveFileSortTest 4 1000 512 = some
      { recordSize := 4, totalRecords := 1000, inputFileSize := 4000, minReqMem := 16,
        maxMemory := 512, totalSubfiles := 7, recordsPerBlock := 142 } := by
  have h := driver_recordsPerBlock_pos 4 1000 (by decide) (by decide)
  have h' := h.2.2.2 512 (by decide)
  exact ⟨h.2.2.1, h'.1, h'.2.1, by decide⟩


end Filesort
